import Mathlib

/-!
# exafmm-alpha: a verification development

Shallow embedding of parts of the FMM engine:

* `Fmm.sort`, `Fmm.fillLeafs` (src/uniform-serial/fmm.h),
* the scalar path of `HelmholtzKernel::P2P(Ci, Cj, mutual)` (src/kernels/helmholtz.h),
* `UpDownPass::upwardPass`, `UpDownPass::downwardPass` (src/include/up_down_pass.h).

Conventions.  C arrays are lists, every access is bounds-checked and a function
returns `none` when an access falls outside its array.  `int` values are
integers (`Int`); loop counters that run upward from zero are naturals.
`real` values live in an arbitrary field, so real arithmetic is exact.
-/

namespace ExaFMM

/-! ## Loops and array access -/

/-- The loop `for (int i = 0; i < n; i++) s = f(i, s)`, stopping at the first failing step. -/
def forUp {σ : Type} (n : Nat) (f : Nat → σ → Option σ) (s : σ) : Option σ :=
  (List.range n).foldlM (fun s i => f i s) s

/-- The loop `for (int i = n - 1; i >= 0; i--) s = f(i, s)`, stopping at the first failing step. -/
def forDown {σ : Type} (n : Nat) (f : Nat → σ → Option σ) (s : σ) : Option σ :=
  (List.range n).reverse.foldlM (fun s i => f i s) s

/-- Read `a[i]` for an `int` index `i`. -/
def readAt {α : Type} (a : List α) (i : Int) : Option α :=
  if 0 ≤ i then a[i.toNat]? else none

/-- Write `a[i] = v` for an `int` index `i`. -/
def writeAt {α : Type} (a : List α) (i : Int) (v : α) : Option (List α) :=
  if 0 ≤ i ∧ i.toNat < a.length then some (a.set i.toNat v) else none

/-! ## Arithmetic of the type `int` (32 bits) -/

namespace Fmm

/-- The result of an `int` operation (32 bits) whose exact value is `x`: the value when it
fits, no result on overflow. -/
def int32 (x : Int) : Option Int :=
  if -2 ^ 31 ≤ x ∧ x < 2 ^ 31 then some x else none

/-- The shift `1 << k` of `int` (32 bits): `2^k` for a shift count `0 ≤ k` whose result
fits, no result otherwise. -/
def shl1 (k : Int) : Option Int :=
  if 0 ≤ k ∧ k < 31 then some (2 ^ k.toNat) else none

end Fmm

/-! ## `Fmm::sort` (fmm.h, lines 11-33) -/

namespace Fmm

/-- A body record `real[4]`: three coordinates and a charge. -/
abbrev Body4 (R : Type) := Fin 4 → R

/-- The macro loop `for_4 dst[d] = src[d];`. -/
def copy4 {R : Type} (dst src : Body4 R) : Body4 R :=
  (List.finRange 4).foldl (fun row d => Function.update row d (src d)) dst

/-- First loop of `sort`: `Imax = MAX(Imax, key[i]); Imin = MIN(Imin, key[i]);`.
The state is the pair `(Imax, Imin)`. -/
def sortMinMax (key : List Int) (i : Nat) (s : Int × Int) : Option (Int × Int) :=
  (key[i]?).bind fun k => some (max s.1 k, min s.2 k)

/-- Third loop of `sort`: `bucket[key[i]-Imin]++`. -/
def sortCount (key : List Int) (Imin : Int) (i : Nat) (bucket : List Int) : Option (List Int) :=
  (key[i]?).bind fun k =>
  (readAt bucket (k - Imin)).bind fun c =>
  writeAt bucket (k - Imin) (c + 1)

/-- Fourth loop of `sort`, run for `i = 1 .. numBucket-1`: `bucket[i] += bucket[i-1]`.
The loop counter of the model starts at zero, so the index is `i + 1`. -/
def sortPrefix (i : Nat) (bucket : List Int) : Option (List Int) :=
  (bucket[i]?).bind fun prev =>
  (bucket[i + 1]?).bind fun cur =>
  if i + 1 < bucket.length then some (bucket.set (i + 1) (cur + prev)) else none

/-- Last loop of `sort`, run downward:
`bucket[key[i]-Imin]--; inew = bucket[key[i]-Imin]; for_4 bodies2[inew][d] = bodies[i][d];`.
The state is the pair `(bucket, bodies2)`. -/
def sortPlace {R : Type} (bodies : List (Body4 R)) (key : List Int) (Imin : Int) (i : Nat)
    (s : List Int × List (Body4 R)) : Option (List Int × List (Body4 R)) :=
  (key[i]?).bind fun k =>
  (readAt s.1 (k - Imin)).bind fun c =>
  (writeAt s.1 (k - Imin) (c - 1)).bind fun bucket =>
  (readAt bucket (k - Imin)).bind fun inew =>
  (bodies[i]?).bind fun src =>
  (readAt s.2 inew).bind fun dst =>
  (writeAt s.2 inew (copy4 dst src)).bind fun bodies2 =>
  some (bucket, bodies2)

/-- The function `void Fmm::sort(real (*bodies)[4], real (*bodies2)[4], int *key) const`.
Returns the final contents of `bodies2`.  The entries of `key` are values of type
`int`, and `int numBucket = Imax - Imin + 1` is computed in `int`: there is no result
when the difference or the sum overflows.  `new int [numBucket]` is a list of length
`numBucket` (the allocation is taken to succeed), which the second loop then fills with
zeros.  The later differences
`key[i]-Imin` lie between `0` and `Imax - Imin`, and the counts in `bucket` are at most
`numBodies`. -/
def sort {R : Type} (numBodies : Nat) (bodies bodies2 : List (Body4 R)) (key : List Int) :
    Option (List (Body4 R)) :=
  (key[0]?).bind fun k0 =>
  (forUp numBodies (sortMinMax key) (k0, k0)).bind fun mm =>
  let Imax := mm.1
  let Imin := mm.2
  (int32 (Imax - Imin)).bind fun spread =>
  (int32 (spread + 1)).bind fun numBucket =>
  (forUp numBucket.toNat (fun i b => writeAt b (i : Int) 0)
    (List.replicate numBucket.toNat 0)).bind fun bucket0 =>
  (forUp numBodies (sortCount key Imin) bucket0).bind fun bucket1 =>
  (forUp (numBucket.toNat - 1) sortPrefix bucket1).bind fun bucket2 =>
  (forDown numBodies (sortPlace bodies key Imin) (bucket2, bodies2)).bind fun r =>
  some r.2

/-! ## Specification vocabulary for `Fmm::sort` -/

/-- Number of keys strictly below `k`. -/
def countLt (key : List Int) (k : Int) : Nat :=
  key.countP (fun x => decide (x < k))

/-- Number of keys equal to `k` among the first `i` entries. -/
def countEqBefore (key : List Int) (i : Nat) (k : Int) : Nat :=
  (key.take i).countP (fun x => decide (x = k))

/-- Position that a counting sort gives to input index `i`: the number of smaller
keys plus the number of equal keys at lower input indices. -/
def sortPos (key : List Int) (i : Nat) : Nat :=
  countLt key (key.getD i 0) + countEqBefore key i (key.getD i 0)

/-- The placement `i ↦ sortPos key i` as a map of the index range `[0, n)`. -/
def sortPerm (key : List Int) (n : Nat) : Fin n → Fin n :=
  fun i => if h : sortPos key i.val < n then ⟨sortPos key i.val, h⟩ else i

/-! ## `Fmm::fillLeafs` (fmm.h, lines 142-160) -/

/-- The C conversion `int(x)` of a real: truncation toward zero. -/
def truncInt {R : Type} [LinearOrderedField R] [FloorRing R] (x : R) : Int :=
  if 0 ≤ x then ⌊x⌋ else ⌈x⌉

/-- The entry `Leafs[l][0]`. -/
def leafLo (Leafs : List (Int × Int)) (l : Nat) : Int := (Leafs.getD l (0, 0)).1

/-- The entry `Leafs[l][1]`. -/
def leafHi (Leafs : List (Int × Int)) (l : Nat) : Int := (Leafs.getD l (0, 0)).2

/-- Index `j` lies in the body range `[Leafs[l][0], Leafs[l][1])` of leaf `l`. -/
def inLeaf (Leafs : List (Int × Int)) (l : Nat) (j : Int) : Prop :=
  leafLo Leafs l ≤ j ∧ j < leafHi Leafs l

end Fmm

/-! ## Bodies and cells (spec section 3; types.h is not among the sources) -/

/-- The type `complex_t` as the pair (real part, imaginary part); sums are componentwise. -/
abbrev Cpx (K : Type) := K × K

/-- Modelled from the spec: a body has a position `X`, a complex source strength `SRC`,
a target accumulator `TRG` of four complex components and a `WEIGHT`. -/
structure Body (K : Type) where
  X : Fin 3 → K
  SRC : Cpx K
  TRG : Fin 4 → Cpx K
  WEIGHT : K

/-- Modelled from the spec: a cell has a parent index, a child range
`[ICHILD, ICHILD+NCHILD)`, a body range `[BODY, BODY+NBODY)` (the iterator `BODY` is
an index into the body array), a centre, a radius, a scale, a weight and the two
expansions `M` and `L` of `NTERM` coefficients each. -/
structure Cell (K : Type) (NTERM : Nat) where
  IPARENT : Nat
  ICHILD : Nat
  NCHILD : Nat
  BODY : Nat
  NBODY : Nat
  X : Fin 3 → K
  R : K
  SCALE : K
  WEIGHT : K
  M : Fin NTERM → Cpx K
  L : Fin NTERM → Cpx K

/-- The `<cmath>` functions that the scalar path of `P2P` calls. -/
structure Cmath (K : Type) where
  sqrt : K → K
  exp : K → K
  cos : K → K
  sin : K → K

/-- The static members of `KernelBase` that `P2P` reads. -/
structure KernelBase (K : Type) where
  eps2 : K
  wavek : Cpx K
  Xperiodic : Fin 3 → K

/-! ## `HelmholtzKernel::P2P(Ci, Cj, mutual)`, scalar path (helmholtz.h, lines 383-522)

The body array is a function from indices to bodies; `Bi[i]` is `bodies (Ci.BODY + i)`. -/

namespace HelmholtzKernel

/-- Modelled from the spec: `norm` of vec.h (not among the sources) is the squared
Euclidean length, `R2 = |dX|^2 + eps2`. -/
def norm {K : Type} [Field K] (v : Fin 3 → K) : K := v 0 * v 0 + v 1 * v 1 + v 2 * v 2

/-- The eight real accumulators of one target body. -/
structure Acc (K : Type) where
  pot_r : K
  pot_i : K
  ax_r : K
  ax_i : K
  ay_r : K
  ay_i : K
  az_r : K
  az_i : K

/-- The accumulators as each target starts with them: `real_t pot_r = 0.0; …`. -/
def Acc.zero {K : Type} [Field K] : Acc K :=
  { pot_r := 0, pot_i := 0, ax_r := 0, ax_i := 0, ay_r := 0, ay_i := 0, az_r := 0, az_i := 0 }

/-- The four complex numbers `complex_t(pot_r, pot_i)`, `complex_t(ax_r, ax_i)`,
`complex_t(ay_r, ay_i)`, `complex_t(az_r, az_i)` that the accumulators stand for. -/
def Acc.toTRG {K : Type} (a : Acc K) : Fin 4 → Cpx K :=
  ![(a.pot_r, a.pot_i), (a.ax_r, a.ax_i), (a.ay_r, a.ay_i), (a.az_r, a.az_i)]

/-- The statements `TRG[0] += c0; TRG[1] += c1; TRG[2] += c2; TRG[3] += c3;` on one body. -/
def addTRG {K : Type} [Field K] (b : Body K) (c0 c1 c2 c3 : Cpx K) : Body K :=
  let t0 := Function.update b.TRG 0 (b.TRG 0 + c0)
  let t1 := Function.update t0 1 (t0 1 + c1)
  let t2 := Function.update t1 2 (t1 2 + c2)
  let t3 := Function.update t2 3 (t2 3 + c3)
  { b with TRG := t3 }

/-- Body of the inner loop over the sources `j` (lines 484-516).  The state is the
accumulators of target `i` and the body array; `mutualOn` is the argument `mutual`. -/
def P2Pinner {K : Type} [Field K] [DecidableEq K] (fn : Cmath K) (kb : KernelBase K)
    (Bi Bj : Nat) (mutualOn : Bool) (i : Nat) (mi_r mi_i : K) (j : Nat)
    (s : Acc K × (Nat → Body K)) : Acc K × (Nat → Body K) :=
  let a := s.1
  let bodies := s.2
  let wave_r := kb.wavek.1
  let wave_i := kb.wavek.2
  let mj_r := (bodies (Bj + j)).SRC.1
  let mj_i := (bodies (Bj + j)).SRC.2
  let dX : Fin 3 → K := fun d => (bodies (Bi + i)).X d - (bodies (Bj + j)).X d - kb.Xperiodic d
  let R2 := norm dX + kb.eps2
  if R2 ≠ 0 then
    let R := fn.sqrt R2
    let src2_r := mi_r * mj_r - mi_i * mj_i
    let src2_i := mi_r * mj_i + mi_i * mj_r
    let expikr := fn.exp (wave_i * R) * R
    let expikr_r := fn.cos (wave_r * R) / expikr
    let expikr_i := fn.sin (wave_r * R) / expikr
    let coef1_r := src2_r * expikr_r - src2_i * expikr_i
    let coef1_i := src2_r * expikr_i + src2_i * expikr_r
    let kr_r := (1 + wave_i * R) / R2
    let kr_i := - wave_r / R
    let coef2_r := kr_r * coef1_r - kr_i * coef1_i
    let coef2_i := kr_r * coef1_i + kr_i * coef1_r
    let a' : Acc K :=
      { pot_r := a.pot_r + coef1_r
        pot_i := a.pot_i + coef1_i
        ax_r := a.ax_r + coef2_r * dX 0
        ax_i := a.ax_i + coef2_i * dX 0
        ay_r := a.ay_r + coef2_r * dX 1
        ay_i := a.ay_i + coef2_i * dX 1
        az_r := a.az_r + coef2_r * dX 2
        az_i := a.az_i + coef2_i * dX 2 }
    if mutualOn then
      (a', Function.update bodies (Bj + j)
        (addTRG (bodies (Bj + j)) (coef1_r, coef1_i) (coef2_r * dX 0, coef2_i * dX 0)
          (coef2_r * dX 1, coef2_i * dX 1) (coef2_r * dX 2, coef2_i * dX 2)))
    else (a', bodies)
  else (a, bodies)

/-- Body of the outer loop over the targets `i` (lines 474-521). -/
def P2Pouter {K : Type} [Field K] [DecidableEq K] (fn : Cmath K) (kb : KernelBase K)
    (Bi Bj nj : Nat) (mutualOn : Bool) (bodies : Nat → Body K) (i : Nat) : Nat → Body K :=
  let mi_r := (bodies (Bi + i)).SRC.1
  let mi_i := (bodies (Bi + i)).SRC.2
  let s := (List.range nj).foldl (fun s j => P2Pinner fn kb Bi Bj mutualOn i mi_r mi_i j s)
    (Acc.zero, bodies)
  let a := s.1
  Function.update s.2 (Bi + i)
    (addTRG (s.2 (Bi + i)) (a.pot_r, a.pot_i) (a.ax_r, a.ax_i) (a.ay_r, a.ay_i)
      (a.az_r, a.az_i))

/-- The function `static void P2P(C_iter Ci, C_iter Cj, bool mutual)` without `EXAFMM_USE_SIMD`, so
that the scalar loop starts at `i = 0`. -/
def P2P {K : Type} [Field K] [DecidableEq K] {NTERM : Nat} (fn : Cmath K) (kb : KernelBase K)
    (Ci Cj : Cell K NTERM) (mutualOn : Bool) (bodies : Nat → Body K) : Nat → Body K :=
  let Bi := Ci.BODY
  let Bj := Cj.BODY
  let ni := Ci.NBODY
  let nj := Cj.NBODY
  (List.range ni).foldl (P2Pouter fn kb Bi Bj nj mutualOn) bodies

/-- What source `bj` adds to the accumulators of target `bi` in one pass through the
body of the inner loop, read off as the four complex increments of `TRG`. -/
def pairTerm {K : Type} [Field K] [DecidableEq K] (fn : Cmath K) (kb : KernelBase K)
    (bodies : Nat → Body K) (bi bj : Nat) : Fin 4 → Cpx K :=
  (P2Pinner fn kb bi bj false 0 (bodies bi).SRC.1 (bodies bi).SRC.2 0
    (Acc.zero, bodies)).1.toTRG

/-- A pair of reals read as a complex number. -/
def toComplex (z : Cpx ℝ) : ℂ := ⟨z.1, z.2⟩

/-- The softened squared distance `R2 = norm(dX) + eps2` of target `bi` and source `bj`,
`dX = Bi[i].X - Bj[j].X - Xperiodic`. -/
def pairR2 {K : Type} [Field K] (kb : KernelBase K) (bodies : Nat → Body K) (bi bj : Nat) : K :=
  norm (fun d => (bodies bi).X d - (bodies bj).X d - kb.Xperiodic d) + kb.eps2

/-! ### Concrete inputs over the reals -/

/-- A childless cell without expansion terms that holds the `n` bodies from index `b`. -/
def leafCell (b n : Nat) : Cell ℝ 0 :=
  { IPARENT := 0, ICHILD := 0, NCHILD := 0, BODY := b, NBODY := n, X := fun _ => 0, R := 0,
    SCALE := 0, WEIGHT := 0, M := Fin.elim0, L := Fin.elim0 }

/-- A body at `(x, 0, 0)` with source strength `1` and `TRG` cleared. -/
def unitBody (x : ℝ) : Body ℝ :=
  { X := ![x, 0, 0], SRC := (1, 0), TRG := fun _ => (0, 0), WEIGHT := 0 }

/-- Body `0` at `(1, 0, 0)`, every other body at the origin. -/
def twoBodies : Nat → Body ℝ := fun n => if n = 0 then unitBody 1 else unitBody 0

/-- Wavenumber `0`, no periodic shift, softening `eps2`. -/
def kbExample (eps2 : ℝ) : KernelBase ℝ :=
  { eps2 := eps2, wavek := (0, 0), Xperiodic := fun _ => 0 }

end HelmholtzKernel

/-! ## `UpDownPass` (up_down_pass.h)

The kernels are parameters.  In helmholtz.h `P2M` and `M2M` write only `C->M`
(lines 690 and 769), `L2L` writes only `Ci->L` (line 1012) and `L2P` writes only
the bodies (lines 1020 and 1082); a kernel is therefore given by the new value of
the field it writes.  Every kernel call is logged in `trace` together with the
cell as the kernel finds it. -/

namespace UpDownPass

/-- A kernel call on the cell with index `C`. -/
inductive Call where
  | P2M (C : Nat)
  | M2M (C : Nat)
  | L2L (C : Nat)
  | L2P (C : Nat)
  deriving DecidableEq

/-- The four kernels that the passes call. -/
structure Kernel (K : Type) (NTERM : Nat) where
  P2M : Cell K NTERM → (Nat → Body K) → (Fin NTERM → Cpx K)
  M2M : List (Cell K NTERM) → Nat → (Fin NTERM → Cpx K)
  L2L : List (Cell K NTERM) → Nat → (Fin NTERM → Cpx K)
  L2P : Cell K NTERM → (Nat → Body K) → (Nat → Body K)

/-- The cell array, the body array and the log of kernel calls. -/
structure State (K : Type) (NTERM : Nat) where
  cells : List (Cell K NTERM)
  bodies : Nat → Body K
  trace : List (Call × Cell K NTERM)

/-- The loop `for (int n=0; n<NTERM; n++) v[n] = 0;`. -/
def zeroExpansion {K : Type} [Field K] {NTERM : Nat} (v : Fin NTERM → Cpx K) :
    Fin NTERM → Cpx K :=
  (List.finRange NTERM).foldl (fun v n => Function.update v n 0) v

/-- The function `void postOrderTraversal(C_iter C, C_iter C0, real_t theta)` (lines 14-24).  The
recursion of the source is bounded here by `fuel`; running out of fuel, or stepping
outside the cell array, gives `none`. -/
def postOrderTraversal {K : Type} [Field K] {NTERM : Nat} (kernel : Kernel K NTERM) (theta : K) :
    Nat → Nat → State K NTERM → Option (State K NTERM)
  | 0, _, _ => none
  | fuel + 1, C, s =>
    (s.cells[C]?).bind fun c =>
    ((List.range' c.ICHILD c.NCHILD).foldlM
      (fun s CC => postOrderTraversal kernel theta fuel CC s) s).bind fun s1 =>
    (s1.cells[C]?).bind fun c1 =>
    let c2 : Cell K NTERM := { c1 with M := zeroExpansion c1.M, L := zeroExpansion c1.L }
    let cells2 := s1.cells.set C c2
    let c3 : Cell K NTERM :=
      if c2.NCHILD = 0 then { c2 with M := kernel.P2M c2 s1.bodies }
      else { c2 with M := kernel.M2M cells2 C }
    let call := if c2.NCHILD = 0 then Call.P2M C else Call.M2M C
    let c4 : Cell K NTERM := { c3 with R := c3.R / theta }
    some { cells := cells2.set C c4, bodies := s1.bodies, trace := s1.trace ++ [(call, c2)] }

/-- The function `void upwardPass(Cells & cells)` (lines 51-61); the timers are left out. -/
def upwardPass {K : Type} [Field K] {NTERM : Nat} (kernel : Kernel K NTERM) (theta : K)
    (fuel : Nat) (s : State K NTERM) : Option (State K NTERM) :=
  if !s.cells.isEmpty then
    let cells1 := s.cells.map fun c => { c with SCALE := 2 * c.R }
    postOrderTraversal kernel theta fuel 0 { s with cells := cells1 }
  else some s

/-- The function `void preOrderTraversal(C_iter C, C_iter C0)` (lines 27-44), bounded by `fuel`.
`useWeight` stands for the build flag `EXAFMM_USE_WEIGHT`. -/
def preOrderTraversal {K : Type} [Field K] {NTERM : Nat} (kernel : Kernel K NTERM)
    (useWeight : Bool) : Nat → Nat → State K NTERM → Option (State K NTERM)
  | 0, _, _ => none
  | fuel + 1, C, s =>
    (s.cells[C]?).bind fun c =>
    let c1 : Cell K NTERM := { c with L := kernel.L2L s.cells C }
    let cells1 := s.cells.set C c1
    let trace1 := s.trace ++ [(Call.L2L C, c)]
    let bodies1 := if c1.NCHILD = 0 then kernel.L2P c1 s.bodies else s.bodies
    let trace2 := if c1.NCHILD = 0 then trace1 ++ [(Call.L2P C, c1)] else trace1
    (if useWeight then
      (cells1[c1.IPARENT]?).bind fun cp =>
      let c2 : Cell K NTERM := { c1 with WEIGHT := c1.WEIGHT + cp.WEIGHT }
      let bodies2 : Nat → Body K :=
        if c2.NCHILD = 0 then
          fun n => if c2.BODY ≤ n ∧ n < c2.BODY + c2.NBODY then
            { bodies1 n with WEIGHT := (bodies1 n).WEIGHT + c2.WEIGHT } else bodies1 n
        else bodies1
      some (cells1.set C c2, bodies2)
    else some (cells1, bodies1)).bind fun r =>
    (List.range' c.ICHILD c.NCHILD).foldlM
      (fun s CC => preOrderTraversal kernel useWeight fuel CC s)
      { cells := r.1, bodies := r.2, trace := trace2 }

/-- The function `void downwardPass(Cells & cells)` (lines 64-76); the timers are left out. -/
def downwardPass {K : Type} [Field K] {NTERM : Nat} (kernel : Kernel K NTERM)
    (useWeight : Bool) (fuel : Nat) (s : State K NTERM) : Option (State K NTERM) :=
  if !s.cells.isEmpty then
    (s.cells[0]?).bind fun c0 =>
    let s1 : State K NTERM :=
      if c0.NCHILD = 0 then
        { s with bodies := kernel.L2P c0 s.bodies, trace := s.trace ++ [(Call.L2P 0, c0)] }
      else s
    (List.range' c0.ICHILD c0.NCHILD).foldlM
      (fun s CC => preOrderTraversal kernel useWeight fuel CC s) s1
  else some s

/-! ### Tree shape and visiting orders -/

/-- The child ranges `(ICHILD, NCHILD)` of a cell array. -/
def shapeOf {K : Type} {NTERM : Nat} (cells : List (Cell K NTERM)) : List (Nat × Nat) :=
  cells.map fun c => (c.ICHILD, c.NCHILD)

/-- Cell `c` lies in the child range `[ICHILD, ICHILD+NCHILD)` of cell `p`. -/
def isChild (shape : List (Nat × Nat)) (p c : Nat) : Prop :=
  ∃ sh, shape[p]? = some sh ∧ sh.1 ≤ c ∧ c < sh.1 + sh.2

/-- Cell `d` is a proper descendant of cell `c`. -/
def Descendant (shape : List (Nat × Nat)) (c d : Nat) : Prop :=
  Relation.TransGen (isChild shape) c d

/-- The cell array forms a tree rooted at index `0` through the child ranges: it is not
empty, the child ranges stay inside the array, every non-root cell lies in exactly one
child range, and no cell is its own descendant. -/
structure TreeShaped (shape : List (Nat × Nat)) : Prop where
  nonempty : shape ≠ []
  inBounds : ∀ p c, isChild shape p c → c < shape.length
  uniqueParent : ∀ c, 0 < c → c < shape.length → ∃! p, isChild shape p c
  acyclic : ∀ c, ¬ Descendant shape c c

/-- Cell `C` has no children. -/
def isLeaf (shape : List (Nat × Nat)) (C : Nat) : Prop :=
  ∃ sh, shape[C]? = some sh ∧ sh.2 = 0

/-- The expansion kernel of the upward pass for cell `C`: `P2M` if `NCHILD == 0`,
`M2M` otherwise. -/
def upCall (shape : List (Nat × Nat)) (C : Nat) : Call :=
  if (shape.getD C (0, 0)).2 = 0 then Call.P2M C else Call.M2M C

/-- The kernel calls that `preOrderTraversal` makes on cell `C` itself: `L2L`, followed
by `L2P` if `NCHILD == 0`. -/
def downCalls (shape : List (Nat × Nat)) (C : Nat) : List Call :=
  if (shape.getD C (0, 0)).2 = 0 then [Call.L2L C, Call.L2P C] else [Call.L2L C]

/-- Visit the cells of a list one after the other and concatenate the visiting orders. -/
def visitAll (f : Nat → Option (List Nat)) : List Nat → Option (List Nat)
  | [] => some []
  | c :: cs => (f c).bind fun a => (visitAll f cs).bind fun b => some (a ++ b)

/-- The order in which a traversal from cell `C` reaches the cells.  With `post = true`
it is the order of `postOrderTraversal` (children first, in index order, then the
cell); with `post = false` that of `preOrderTraversal` (the cell, then the children). -/
def visitOrder (post : Bool) (shape : List (Nat × Nat)) : Nat → Nat → Option (List Nat)
  | 0, _ => none
  | fuel + 1, C =>
    (shape[C]?).bind fun sh =>
    (visitAll (visitOrder post shape fuel) (List.range' sh.1 sh.2)).bind fun sub =>
    some (if post then sub ++ [C] else C :: sub)

/-- Effect of an upward traversal that visits the cells `vis`: the child ranges and the
bodies are untouched, the log grows by one expansion-kernel call per visit, each made
on a cell whose `M` and `L` are zero, every visit divides `R` by `theta`, and `SCALE`
is untouched. -/
def UpwardEffect {K : Type} [Field K] {NTERM : Nat} (theta : K) (s s' : State K NTERM)
    (vis : List Nat) : Prop :=
  shapeOf s'.cells = shapeOf s.cells ∧ s'.bodies = s.bodies ∧
  (∃ ev, s'.trace = s.trace ++ ev ∧ ev.map Prod.fst = vis.map (upCall (shapeOf s.cells)) ∧
    ∀ e ∈ ev, e.2.M = 0 ∧ e.2.L = 0) ∧
  ∀ i, (s'.cells[i]?).map (fun c => (c.R, c.SCALE)) =
    (s.cells[i]?).map (fun c => (c.R / theta ^ vis.count i, c.SCALE))

/-- Effect of a downward traversal that visits the cells `vis`: the child ranges and
the parent indices are untouched and the log grows by the calls `L2L`, `L2P` of the
visited cells, in order. -/
def DownwardEffect {K : Type} {NTERM : Nat} (s s' : State K NTERM) (vis : List Nat) : Prop :=
  shapeOf s'.cells = shapeOf s.cells ∧
  s'.cells.map (fun c => c.IPARENT) = s.cells.map (fun c => c.IPARENT) ∧
  s'.trace.map Prod.fst = s.trace.map Prod.fst ++ vis.flatMap (downCalls (shapeOf s.cells))

/-- What the build with `EXAFMM_USE_WEIGHT` needs for `C0 + C->IPARENT` to be a cell:
every parent index lies inside the array.  Nothing is needed without the flag. -/
def ParentsInBounds {K : Type} {NTERM : Nat} (useWeight : Bool) (cells : List (Cell K NTERM)) :
    Prop :=
  useWeight = true → ∀ (i : Nat) (c : Cell K NTERM), cells[i]? = some c →
    c.IPARENT < cells.length

/-! ### A concrete tree: a root with two childless children -/

/-- A cell over the rationals without expansion terms, with child range
`[ichild, ichild+nchild)`, parent `0` and radius `r`. -/
def exampleCell (ichild nchild : Nat) (r : ℚ) : Cell ℚ 0 :=
  { IPARENT := 0, ICHILD := ichild, NCHILD := nchild, BODY := 0, NBODY := 0, X := fun _ => 0,
    R := r, SCALE := 0, WEIGHT := 0, M := fun n => n.elim0, L := fun n => n.elim0 }

/-- Kernels that leave the expansions and the bodies as they are. -/
def exampleKernel : Kernel ℚ 0 :=
  { P2M := fun c _ => c.M, M2M := fun _ _ n => n.elim0, L2L := fun _ _ n => n.elim0,
    L2P := fun _ b => b }

/-- Root `0` of radius `4` with the two children `1` and `2` of radius `2`, no kernel
call logged yet. -/
def exampleState : State ℚ 0 :=
  { cells := [exampleCell 1 2 4, exampleCell 0 0 2, exampleCell 0 0 2],
    bodies := fun _ => { X := fun _ => 0, SRC := (0, 0), TRG := fun _ => (0, 0), WEIGHT := 0 },
    trace := [] }

end UpDownPass

/-! ## `HelmholtzKernel::M2L`, choice of the expansion order (helmholtz.h, lines 773-797) -/

namespace HelmholtzKernel

/-- Outcome of the opening part of `M2L`: the order `Popt` that the translation then
uses, or the reason why the routine stops before it. -/
inductive M2LResult where
  | ok (Popt : Int)
  | mutualAssert
  | divByZero
  | poptNotPositive
  | poptAbove2P
  deriving DecidableEq, Repr

/-- Lines 792-794 of `M2L`, from the scaled separation `rr` on:
`coef1 = P * 1.65 - 15.5; coef2 = P * 0.25 + 3.0; int Popt = coef1 / (rr * rr) + coef2;`.
The conversion to `int` truncates toward zero.  This is the integer part as an integer
of any size; `M2LPoptInt` below is its conversion to the 32-bit type. -/
def M2LPoptRaw {R : Type} [LinearOrderedField R] [FloorRing R] (P : Int) (rr : R) : Int :=
  let coef1 : R := (P : R) * (165 / 100) - 155 / 10
  let coef2 : R := (P : R) * (25 / 100) + 3
  Fmm.truncInt (coef1 / (rr * rr) + coef2)

/-- Lines 792-797 of `M2L`: the order of line 794, then
`assert(0 < Popt); assert(Popt <= 2*P); if (Popt > P) Popt = P;`.
A zero divisor `rr * rr` is reported as a failure.  The order is the integer part
`M2LPoptRaw`; `M2LPoptChecked` below is the same routine with `Popt` in the 32-bit type. -/
def M2LPopt {R : Type} [LinearOrderedField R] [FloorRing R] (P : Int) (rr : R) : M2LResult :=
  if rr * rr = 0 then M2LResult.divByZero
  else
    let Popt : Int := M2LPoptRaw P rr
    if ¬ 0 < Popt then M2LResult.poptNotPositive
    else if ¬ Popt ≤ 2 * P then M2LResult.poptAbove2P
    else if Popt > P then M2LResult.ok P
    else M2LResult.ok Popt

/-- Line 794 of `M2L` with the conversion carried out in the type `int` (32 bits):
`int Popt = coef1 / (rr * rr) + coef2;` gives the integer part `M2LPoptRaw` when that
fits `int`, and has no result otherwise (the conversion of a value outside the range
of `int` is undefined). -/
def M2LPoptInt {R : Type} [LinearOrderedField R] [FloorRing R] (P : Int) (rr : R) :
    Option Int :=
  Fmm.int32 (M2LPoptRaw P rr)

/-- Lines 792-797 of `M2L` with `Popt` and `2*P` of type `int` (32 bits): the order of
line 794, then `assert(0 < Popt); assert(Popt <= 2*P); if (Popt > P) Popt = P;`.
A zero divisor `rr * rr` is reported as a failure; there is no result at all when
the conversion of line 794 or the product `2*P` has none. -/
def M2LPoptChecked {R : Type} [LinearOrderedField R] [FloorRing R] (P : Int) (rr : R) :
    Option M2LResult :=
  if rr * rr = 0 then some M2LResult.divByZero
  else
    (M2LPoptInt P rr).bind fun Popt =>
    if ¬ 0 < Popt then some M2LResult.poptNotPositive
    else
      (Fmm.int32 (2 * P)).bind fun twoP =>
      if ¬ Popt ≤ twoP then some M2LResult.poptAbove2P
      else if Popt > P then some (M2LResult.ok P)
      else some (M2LResult.ok Popt)

/-- The two node counts that `init` sets. -/
structure Quadrature where
  nquad : Int
  nquad2 : Int
  deriving DecidableEq, Repr

/-- The function `init`: `nquad = fmax(6, P); nquad2 = fmax(6, 2*P);`. -/
def init (P : Int) : Quadrature := { nquad := max 6 P, nquad2 := max 6 (2 * P) }

/-- The quadrature loop of `M2M` (line 725), `for (int l=0; l<nquad2; l++)`, over the
nodes `xquad2[l]`: the node indices it visits, in order. -/
def M2Mnodes (q : Quadrature) : List Nat := List.range q.nquad2.toNat

/-- The quadrature loop of `M2L` (line 812), `for (int l=0; l<nquad; l++)`, over the
nodes `xquad[l]`: the node indices it visits, in order. -/
def M2Lnodes (q : Quadrature) : List Nat := List.range q.nquad.toNat

/-- The quadrature loop of `L2L` (line 930), `for (int l=0; l<nquad; l++)`, over the
nodes `xquad[l]`: the node indices it visits, in order. -/
def L2Lnodes (q : Quadrature) : List Nat := List.range q.nquad.toNat

/-! ## Coefficient slots (helmholtz.h, lines 676-690) -/

/-- The slot of the coefficient of degree `n` and order `m`: `int nm = n * n + n + m`
(`npm` and `nmm` in `P2M` are the cases `m` and `-m`). -/
def nmIndex (n m : Int) : Int := n * n + n + m

end HelmholtzKernel

/-! ## `Fmm::sortBodies` and `Fmm::verify` (fmm.h, lines 87-116 and 190-202) -/

namespace Fmm

/-- The statement `real diameter = 2 * R0 / (1 << maxLevel);`.  The function `rnd` is the
rounding of the type `real` (`float` or `double`), applied to the result of every
floating-point operation; the identity stands for exact arithmetic.  The `int` values
`2` and `1 << maxLevel`, a power of two, become `real` without rounding.  The shift is
that of a 32-bit `int` and has no result when it overflows. -/
def cellDiameter {R : Type} [LinearOrderedField R] (rnd : R → R) (R0 : R) (maxLevel : Nat) :
    Option R :=
  (shl1 (maxLevel : Int)).bind fun n => some (rnd (rnd (2 * R0) / (n : R)))

/-- The expression `int((x + R0 - X0[d]) / diameter)` of `encode` and `sortBodies`, every
operation rounded by `rnd`.  The conversion to `int` (32 bits) truncates toward zero
and has no result when the integer part does not fit; a zero `diameter` gives no
result either (the quotient is then infinite or not a number). -/
def cellCoordOf {R : Type} [LinearOrderedField R] [FloorRing R] (rnd : R → R)
    (diameter R0 X0d x : R) : Option Int :=
  if diameter = 0 then none
  else int32 (truncInt (rnd (rnd (rnd (x + R0) - X0d) / diameter)))

/-- The cell coordinate that `encode` and `sortBodies` compute for the body coordinate
`x` along one axis: `int((x + R0 - X0[d]) / diameter)` with
`diameter = 2 * R0 / (1 << maxLevel)`. -/
def cellCoord {R : Type} [LinearOrderedField R] [FloorRing R] (rnd : R → R) (R0 X0d : R)
    (maxLevel : Nat) (x : R) : Option Int :=
  (cellDiameter rnd R0 maxLevel).bind fun diameter => cellCoordOf rnd diameter R0 X0d x

/-- Rounding of a rational to the nearest integer, ties to the even one. -/
def roundNearestEven (q : ℚ) : Int :=
  let f : Int := ⌊q⌋
  if q - f < 1 / 2 then f
  else if 1 / 2 < q - f then f + 1
  else if f % 2 = 0 then f else f + 1

/-- Rounding to the nearest value of a binary floating-point format with `p` significant
bits (`float`: `p = 24`, `double`: `p = 53`), ties to even, exponent range unbounded. -/
def roundFloat (p : Nat) (x : ℚ) : ℚ :=
  if x = 0 then 0
  else
    let ulp : ℚ := (2 : ℚ) ^ (Int.log 2 |x| - (p : Int) + 1)
    (roundNearestEven (x / ulp) : ℚ) * ulp

/-- First loop of `verify`: `potSum += Ibodies[i][0] * Jbodies[i][3];
potSum2 += Ibodies2[i][0] * Jbodies[i][3];`.  The state is `(potSum, potSum2)`. -/
def verifyPot {R : Type} [Field R] (Ibodies Ibodies2 Jbodies : List (Body4 R)) (i : Nat)
    (s : R × R) : Option (R × R) :=
  (Ibodies[i]?).bind fun a =>
  (Ibodies2[i]?).bind fun a2 =>
  (Jbodies[i]?).bind fun b =>
  some (s.1 + a 0 * b 3, s.2 + a2 0 * b 3)

/-- Second loop of `verify`:
`for_3 accDif += (Ibodies[i][d+1] - Ibodies2[i][d+1]) * (Ibodies[i][d+1] - Ibodies2[i][d+1]);
for_3 accNrm += (Ibodies2[i][d+1] * Ibodies2[i][d+1]);`.  The state is `(accDif, accNrm)`. -/
def verifyAcc {R : Type} [Field R] (Ibodies Ibodies2 : List (Body4 R)) (i : Nat)
    (s : R × R) : Option (R × R) :=
  (Ibodies[i]?).bind fun a =>
  (Ibodies2[i]?).bind fun a2 =>
  some ((List.finRange 3).foldl (fun acc d => acc + (a d.succ - a2 d.succ) * (a d.succ - a2 d.succ))
          s.1,
        (List.finRange 3).foldl (fun acc d => acc + a2 d.succ * a2 d.succ) s.2)

/-- The function `Fmm::verify(numTargets, potDif, potNrm, accDif, accNrm)`.  The first two reference
arguments are assigned without being read; the last two are added to.  Returns the
final `(potDif, potNrm, accDif, accNrm)`. -/
def verify {R : Type} [Field R] (numTargets : Nat) (Ibodies Ibodies2 Jbodies : List (Body4 R))
    (accDif accNrm : R) : Option (R × R × R × R) :=
  (forUp numTargets (verifyPot Ibodies Ibodies2 Jbodies) (0, 0)).bind fun pot =>
  let potDif : R := (pot.1 - pot.2) * (pot.1 - pot.2)
  let potNrm : R := pot.2 * pot.2
  (forUp numTargets (verifyAcc Ibodies Ibodies2) (accDif, accNrm)).bind fun acc =>
  some (potDif, potNrm, acc.1, acc.2)

/-- The squared relative L2 error of the potentials, as the label printed by `main`
names it: the sum of `(Ibodies[i][0] - Ibodies2[i][0])^2` over the sum of
`Ibodies2[i][0]^2`, for `i < numTargets` (rows past the end count as zero). -/
def relL2Pot {R : Type} [Field R] (numTargets : Nat) (Ibodies Ibodies2 : List (Body4 R)) : R :=
  ((List.range numTargets).map fun i =>
      ((Ibodies.getD i 0) 0 - (Ibodies2.getD i 0) 0) ^ 2).sum /
  ((List.range numTargets).map fun i => ((Ibodies2.getD i 0) 0) ^ 2).sum

end Fmm

/-! ## `FMM_Init`, distribution of the bodies over the ranks (acoustics.cxx, lines 105-131) -/

namespace Acoustics

/-- The `<cmath>` function `round` at an exact quotient: the nearest integer, halves
away from zero. -/
def round (x : ℚ) : Int := if 0 ≤ x then ⌊x + 1 / 2⌋ else ⌈x - 1 / 2⌉

/-- Lines 105-112 of `FMM_Init` on rank `mpirank`:
`int temp = nb; nb = nb/mpisize; nb = round((double)nb/nipp)*nipp; int nb_avg = nb;
if (mpirank == mpisize-1) nb = temp - nb * (mpisize-1);`.
Returns `(nb, nb_avg)`; the integer division truncates. -/
def initCounts (mpisize mpirank nipp nb : Int) : Int × Int :=
  let temp : Int := nb
  let nb1 : Int := Int.tdiv nb mpisize
  let nb2 : Int := round ((nb1 : ℚ) / (nipp : ℚ)) * nipp
  let nb_avg : Int := nb2
  let nb3 : Int := if mpirank = mpisize - 1 then temp - nb2 * (mpisize - 1) else nb2
  (nb3, nb_avg)

/-- Outcome of `FMM_Init` on one rank: the input indices `point_index` read for the
bodies of the rank, or the failure that stops it. -/
inductive InitResult where
  | ok (pointIndices : List Int)
  | assertFailed
  | resizeFailed
  deriving DecidableEq, Repr

/-- Lines 105-116 of `FMM_Init` on rank `mpirank`: the counts, `assert((nb % nipp) == 0)`,
`bbodies.resize(nb)` (which cannot succeed for a negative count) and, for the body
`i` of the rank, `int point_index = i + irank*nb_avg`. -/
def FMM_Init (mpisize mpirank nipp nb : Int) : InitResult :=
  let c := initCounts mpisize mpirank nipp nb
  if Int.tmod c.1 nipp ≠ 0 then InitResult.assertFailed
  else if c.1 < 0 then InitResult.resizeFailed
  else InitResult.ok ((List.range c.1.toNat).map fun i => (i : Int) + mpirank * c.2)

end Acoustics

/-! ## `MyMPI::getBucket` and `MyMPI::nth_element` on a single rank (mympi.h, lines 120-215)

With one process (`SIZES = 1`, `RANKS = 0`) the gathers, the reduction and the
broadcasts copy the data of the rank to itself.  The element type `T` and the index
type `T2` are `int`. -/

namespace MyMPI

/-- The loop `for (int i = 0; i != n; ++i) s = f(i, s)`; for a negative `n` the counter
never meets its bound, which is reported as a failure. -/
def forNe {σ : Type} (n : Int) (f : Nat → σ → Option σ) (s : σ) : Option σ :=
  if n < 0 then none else forUp n.toNat f s

/-- The algorithm `std::unique` followed by the resize to the new end: of each run of equal
neighbours one element stays. -/
def unique : List Int → List Int
  | [] => []
  | [a] => [a]
  | a :: b :: l => if a = b then unique (b :: l) else a :: unique (b :: l)

/-- The function `getBucket(data, numData, lOffset, send, recv, MPI_COMM)` on a single rank.
The samples `send[i] = data[lOffset + i * stride]` are gathered into `recv`, which is
resized to their number and wholly overwritten, then sorted and made unique.
Returns `(numBucket, send, recv)`. -/
def getBucket (data : List Int) (numData lOffset : Int) (send : List Int) :
    Option (Int × List Int × List Int) :=
  let maxBucket : Int := send.length
  let numSample : Int := min (Int.tdiv maxBucket 1) numData
  (data[0]?).bind fun _ =>
  (forNe numSample (fun i send1 =>
      let stride : Int := Int.tdiv numData numSample
      (readAt data (lOffset + (i : Int) * stride)).bind fun v => writeAt send1 i v)
    send).bind fun send1 =>
  let recv1 : List Int := send1.take numSample.toNat
  let recv2 : List Int := unique (recv1.insertionSort (fun a b => a ≤ b))
  some ((recv2.length : Int), send1, recv2)

/-- The variables of `nth_element` that live across the iterations of its loop. -/
structure NthState where
  numData : Int
  lOffset : Int
  gOffset : Int
  numBucket : Int
  send : List Int
  recv : List Int
  isend : List Int
  irecv : List Int
  iredu : List Int
  deriving DecidableEq, Repr

/-- The loop `while (x > recv[ic] && ic < numBucket-1) ++ic;`, returning the final `ic`.
Every round reads `recv[ic]` first, so it runs at most `recv.length + 1` rounds from
a non-negative `ic` before a read leaves the vector; the callers pass that fuel. -/
def bucketOf (x : Int) (recv : List Int) (numBucket : Int) : Nat → Int → Option Int
  | 0, _ => none
  | fuel + 1, ic =>
    (readAt recv ic).bind fun r =>
    if x > r ∧ ic < numBucket - 1 then bucketOf x recv numBucket fuel (ic + 1) else some ic

/-- Body of the counting loop of `nth_element`:
`while (data[lOffset + i] > recv[ic] && ic < numBucket-1) ++ic; isend[ic]++;`.
The state is `(ic, isend)`. -/
def countStep (data recv : List Int) (lOffset numBucket : Int) (i : Nat)
    (s : Int × List Int) : Option (Int × List Int) :=
  (readAt data (lOffset + (i : Int))).bind fun x =>
  (bucketOf x recv numBucket (recv.length + 1) s.1).bind fun ic =>
  (readAt s.2 ic).bind fun c =>
  (writeAt s.2 ic (c + 1)).bind fun isend1 =>
  some (ic, isend1)

/-- The scan `iredu[0] = 0; for (int i=0; i!=numBucket-1; ++i) iredu[i+1] = iredu[i] + src[i];`. -/
def scan (numBucket : Int) (src iredu : List Int) : Option (List Int) :=
  (writeAt iredu 0 0).bind fun iredu0 =>
  forNe (numBucket - 1) (fun i r =>
      (readAt r i).bind fun a =>
      (readAt src i).bind fun b => writeAt r ((i : Int) + 1) (a + b))
    iredu0

/-- The loop `while (n - gOffset > iredu[nth] && nth < numBucket) ++nth;`, returning the
final `nth`.  Every round reads `iredu[nth]` first; the callers pass the fuel
`iredu.length + 1`. -/
def findNth (n gOffset numBucket : Int) (iredu : List Int) : Nat → Int → Option Int
  | 0, _ => none
  | fuel + 1, nth =>
    (readAt iredu nth).bind fun r =>
    if n - gOffset > r ∧ nth < numBucket then findNth n gOffset numBucket iredu fuel (nth + 1)
    else some nth

/-- One iteration of the loop `while (numBucket > 1)` of `nth_element`. -/
def nthBody (data : List Int) (n : Int) (maxBucket : Nat) (s : NthState) : Option NthState :=
  (forNe maxBucket (fun i isend0 => writeAt isend0 i 0) s.isend).bind fun isend0 =>
  (forNe s.numData (countStep data s.recv s.lOffset s.numBucket) (0, isend0)).bind fun cnt =>
  (forNe s.numBucket (fun i irecv0 => (readAt cnt.2 i).bind fun v => writeAt irecv0 i v)
    s.irecv).bind fun irecv1 =>
  (scan s.numBucket irecv1 s.iredu).bind fun iredu1 =>
  (findNth n s.gOffset s.numBucket iredu1 (iredu1.length + 1) 0).bind fun nth0 =>
  let nth1 : Int := nth0 - 1
  let nth : Int := if nth1 = -1 then 0 else nth1
  (readAt iredu1 nth).bind fun g =>
  let gOffset : Int := s.gOffset + g
  (scan s.numBucket cnt.2 iredu1).bind fun iredu2 =>
  (readAt iredu2 nth).bind fun lo =>
  (if nth = s.numBucket - 1 then some (s.numData - lo)
    else (readAt iredu2 (nth + 1)).bind fun hi => some (hi - lo)).bind fun numData =>
  let lOffset : Int := s.lOffset + lo
  (getBucket data numData lOffset s.send).bind fun b =>
  some { numData := numData, lOffset := lOffset, gOffset := gOffset, numBucket := b.1,
         send := b.2.1, recv := b.2.2, isend := cnt.2, irecv := irecv1, iredu := iredu2 }

/-- The loop `while (numBucket > 1)` of `nth_element`, with a bound on the number of iterations. -/
def nthLoop (data : List Int) (n : Int) (maxBucket : Nat) : Nat → NthState → Option NthState
  | 0, s => if s.numBucket > 1 then none else some s
  | fuel + 1, s =>
    if s.numBucket > 1 then (nthBody data n maxBucket s).bind (nthLoop data n maxBucket fuel)
    else some s

/-- The function `nth_element(data, numData, n)` on a single rank: `maxBucket = 1000`, buffers
of that size (the index buffers start with arbitrary contents, here zeros), the
first `getBucket`, the loop, and `return recv[0]`. -/
def nth_element (fuel : Nat) (data : List Int) (numData : Int) (n : Int) : Option Int :=
  let maxBucket : Nat := 1000
  let zeros : List Int := List.replicate maxBucket 0
  (getBucket data numData 0 zeros).bind fun b =>
  (nthLoop data n maxBucket fuel
    { numData := numData, lOffset := 0, gOffset := 0, numBucket := b.1, send := b.2.1,
      recv := b.2.2, isend := zeros, irecv := zeros, iredu := zeros }).bind fun s =>
  readAt s.recv 0

end MyMPI

/-! ## `Fmm::allocate`, the sizes of the complete octree (fmm.h, lines 35-41) -/

namespace Fmm

/-- The two sizes that `allocate` computes from `maxLevel`:
`numCells = ((1 << 3 * (maxLevel + 1)) - 1) / 7; numLeafs = 1 << 3 * maxLevel;`.
Returns `(numCells, numLeafs)`; the division truncates. -/
def allocate (maxLevel : Int) : Option (Int × Int) :=
  (int32 (maxLevel + 1)).bind fun l1 =>
  (int32 (3 * l1)).bind fun k1 =>
  (shl1 k1).bind fun p1 =>
  (int32 (p1 - 1)).bind fun q1 =>
  let numCells : Int := Int.tdiv q1 7
  (int32 (3 * maxLevel)).bind fun k0 =>
  (shl1 k0).bind fun numLeafs =>
  some (numCells, numLeafs)

end Fmm

/-! ## `MyMPI::nth_element`, choice of the bucket (mympi.h, lines 188-195) -/

namespace MyMPI

/-- The block `if (RANKS == 0)` of the loop of `nth_element`, up to the adjusted index:
the scan of `irecv` into `iredu`, then
`nth = 0; while (n - gOffset > iredu[nth] && nth < numBucket) ++nth; --nth;
if (nth == -1) nth = 0;`.  Returns the final `nth`. -/
def nthSelect (n gOffset numBucket : Int) (irecv iredu : List Int) : Option Int :=
  (scan numBucket irecv iredu).bind fun iredu1 =>
  (findNth n gOffset numBucket iredu1 (iredu1.length + 1) 0).bind fun nth0 =>
  let nth1 : Int := nth0 - 1
  some (if nth1 = -1 then 0 else nth1)

end MyMPI

/-! ## Gauss-Legendre tables: `polynomial`, `legendre`, `init` (helmholtz.h, lines 29-76, 354-366) -/

namespace HelmholtzKernel

/-- The function `polynomial(x, n, pol, der, sum)`.  The three reference arguments are returned
as `(pol, der, sum)`; for `n < 2` the function returns before it assigns `pol`, so the
value `pol` it is called with comes back. -/
def polynomial {K : Type} [Field K] (x : K) (n : Nat) (pol : K) : K × K × K :=
  let sum0 : K := 1 / 2 + x * x * (3 / 2)
  if n < 2 then
    if n = 0 then (pol, 0, 1 / 2)
    else (pol, 1, 1 / 2 + x * x * (3 / 2))
  else
    let r := (List.range (n - 1)).foldl (fun (s : K × K × K) k0 =>
        let k : K := ((k0 + 1 : Nat) : K)
        let pkm1 := s.1
        let pk := s.2.1
        let pkp1 := ((2 * k + 1) * x * pk - k * pkm1) / (k + 1)
        (pk, pkp1, s.2.2 + pkp1 * pkp1 * (k + 3 / 2)))
      (1, x, sum0)
    let pk := r.1
    let pkp1 := r.2.1
    (pkp1, (n : K) * (x * pkp1 - pk) / (x * x - 1), r.2.2)

/-- Body of the Newton loop of `legendre` (lines 62-66); the state is
`(xk, ifout, pol, stopped)` and `stopped` records the `break`. -/
def legendreNewton {K : Type} [LinearOrderedField K] (EPS : K) (nq : Nat)
    (s : K × Nat × K × Bool) (_k : Nat) : K × Nat × K × Bool :=
  if s.2.2.2 then s
  else
    let p := polynomial s.1 nq s.2.2.1
    let delta : K := -p.1 / p.2.1
    let xk : K := s.1 + delta
    let ifout : Nat := if |delta| < EPS then s.2.1 + 1 else s.2.1
    (xk, ifout, p.1, decide (ifout = 3))

/-- The function `legendre(nq, xq, wq)` on arrays with bounds: an access outside `xq` or `wq` gives
no result.  The constants `M_PI` and `EPS` are parameters; `cos` is that of `<cmath>`.
Returns the final `(xq, wq)`. -/
def legendre {K : Type} [LinearOrderedField K] (fn : Cmath K) (pi EPS : K) (nq : Nat)
    (xq wq : List K) : Option (List K × List K) :=
  let h : K := pi / (2 * (nq : K))
  (forUp nq (fun i0 xq1 =>
      let i : Nat := i0 + 1
      writeAt xq1 ((nq : Int) - (i : Int)) (fn.cos ((2 * (i : K) - 1) * h))) xq).bind fun xq1 =>
  (writeAt xq1 ((nq / 2 : Nat) : Int) 0).bind fun xq2 =>
  (forUp (nq / 2) (fun i s =>
      (readAt s.1 (i : Int)).bind fun xk0 =>
      let r := (List.range 10).foldl (legendreNewton EPS nq) (xk0, 0, s.2, false)
      (writeAt s.1 (i : Int) r.1).bind fun xq3 =>
      (writeAt xq3 ((nq : Int) - (i : Int) - 1) (-r.1)).bind fun xq4 =>
      some (xq4, r.2.2.1)) (xq2, (0 : K))).bind fun s3 =>
  (forUp ((nq + 1) / 2) (fun i s =>
      (readAt s3.1 (i : Int)).bind fun x =>
      let p := polynomial x nq s.2
      (writeAt s.1 (i : Int) (1 / p.2.2)).bind fun wq1 =>
      (readAt wq1 (i : Int)).bind fun w =>
      (writeAt wq1 ((nq : Int) - (i : Int) - 1) w).bind fun wq2 =>
      some (wq2, p.1)) (wq, s3.2)).bind fun s4 =>
  some (s3.1, s4.1)

/-- The quadrature part of `init` for expansion order `P` (lines 355-364): the tables
`xquad`, `wquad` are allocated with `P` entries and `xquad2`, `wquad2` with `2*P` entries
(`new real_t [..]`, here zero-filled), and filled by `legendre(nquad, ..)` and
`legendre(nquad2, ..)`.  Returns `(xquad, wquad, xquad2, wquad2)`. -/
def initTables {K : Type} [LinearOrderedField K] (fn : Cmath K) (pi EPS : K) (P : Nat) :
    Option (List K × List K × List K × List K) :=
  let xquad : List K := List.replicate P 0
  let xquad2 : List K := List.replicate (2 * P) 0
  let wquad : List K := List.replicate P 0
  let wquad2 : List K := List.replicate (2 * P) 0
  let q := init (P : Int)
  (legendre fn pi EPS q.nquad.toNat xquad wquad).bind fun t =>
  (legendre fn pi EPS q.nquad2.toNat xquad2 wquad2).bind fun t2 =>
  some (t.1, t.2, t2.1, t2.2)

/-! ## Spherical Bessel and Hankel functions: `get_hn`, `get_hnd`, `get_jn`
(helmholtz.h, lines 252-351)

`complex_t` is a field `C`; what the routines use besides its arithmetic is collected in
`Ccmath`.  Arrays have bounds: an access outside gives no result. -/

/-- The conversion of `real_t` to `complex_t`, the unit `I`, and the functions `abs`, `exp`,
`sin`, `cos` of `<complex>`. -/
structure Ccmath (K C : Type) [Field K] [Field C] where
  ofReal : K →+* C
  I : C
  abs : C → K
  exp : C → C
  sin : C → C
  cos : C → C

/-- The function `get_hn(nterms, z, scale, hn)`; returns the final `hn`. -/
def get_hn {K C : Type} [LinearOrderedField K] [Field C] (cm : Ccmath K C) (EPS : K)
    (nterms : Nat) (z : C) (scale : K) (hn : List C) : Option (List C) :=
  if cm.abs z < EPS then
    forUp nterms (fun i h => writeAt h (i : Int) 0) hn
  else
    let zi : C := cm.I * z
    let zinv : C := cm.ofReal scale / z
    (writeAt hn 0 (cm.exp zi / zi)).bind fun h0 =>
    (readAt h0 0).bind fun a0 =>
    (writeAt h0 1 (a0 * (zinv - cm.I * cm.ofReal scale))).bind fun h1 =>
    let scale2 : K := scale * scale
    forUp (nterms - 2) (fun i0 h =>
        let i : Nat := i0 + 2
        (readAt h ((i : Int) - 1)).bind fun a1 =>
        (readAt h ((i : Int) - 2)).bind fun a2 =>
        writeAt h (i : Int) (zinv * cm.ofReal (2 * (i : K) - 1) * a1 - cm.ofReal scale2 * a2))
      h1

/-- Body of the loop of `get_hnd` (lines 283-286), run for `i = 2, .., nterms-1`; the loop
counter of the model is `i - 2`.  The state is `(hn, hnd)`. -/
def get_hndStep {K C : Type} [LinearOrderedField K] [Field C] (cm : Ccmath K C)
    (zinv : C) (scale : K) (i0 : Nat) (s : List C × List C) : Option (List C × List C) :=
  let i : Nat := i0 + 2
  (readAt s.1 ((i : Int) - 1)).bind fun a1 =>
  (readAt s.1 ((i : Int) - 2)).bind fun a2 =>
  (writeAt s.1 (i : Int)
    ((zinv * cm.ofReal (2 * (i : K) - 1) * a1 - cm.ofReal scale * a2) *
      cm.ofReal scale)).bind fun h =>
  (readAt h (i : Int)).bind fun c0 =>
  (readAt h ((i : Int) - 1)).bind fun c1 =>
  (writeAt s.2 (i : Int)
    (-zinv * cm.ofReal ((i : K) + 1) * c0 + cm.ofReal scale * c1)).bind fun d =>
  some (h, d)

/-- The four assignments of `get_hnd` before its loop (lines 279-282):
`hn[0] = exp(zi) / zi; hn[1] = hn[0] * (zinv - I) * scale; hnd[0] = -hn[1] / scale;
hnd[1] = -zinv * real_t(2.0) * hn[1] + scale * hn[0];`. -/
def get_hndStart {K C : Type} [LinearOrderedField K] [Field C] (cm : Ccmath K C)
    (zi zinv : C) (scale : K) (hn hnd : List C) : Option (List C × List C) :=
  (writeAt hn 0 (cm.exp zi / zi)).bind fun h0 =>
  (readAt h0 0).bind fun a0 =>
  (writeAt h0 1 (a0 * (zinv - cm.I) * cm.ofReal scale)).bind fun h1 =>
  (readAt h1 1).bind fun b1 =>
  (writeAt hnd 0 (-b1 / cm.ofReal scale)).bind fun d0 =>
  (readAt h1 0).bind fun b0 =>
  (writeAt d0 1 (-zinv * cm.ofReal 2 * b1 + cm.ofReal scale * b0)).bind fun d1 =>
  some (h1, d1)

/-- The function `get_hnd(nterms, z, scale, hn, hnd)`; returns the final `(hn, hnd)`. -/
def get_hnd {K C : Type} [LinearOrderedField K] [Field C] (cm : Ccmath K C) (EPS : K)
    (nterms : Nat) (z : C) (scale : K) (hn hnd : List C) : Option (List C × List C) :=
  if cm.abs z < EPS then
    forUp nterms (fun i s =>
        (writeAt s.1 (i : Int) 0).bind fun h =>
        (writeAt s.2 (i : Int) 0).bind fun d => some (h, d)) (hn, hnd)
  else
    let zi : C := cm.I * z
    let zinv : C := cm.ofReal 1 / z
    (get_hndStart cm zi zinv scale hn hnd).bind fun s1 =>
    forUp (nterms - 2) (get_hndStep cm zinv scale) s1

/-- The branch `abs(z) < EPS` of `get_jn` (lines 291-302). -/
def get_jnSmall {K C : Type} [LinearOrderedField K] [Field C] (cm : Ccmath K C)
    (nterms : Int) (scale : K) (jn : List C) (ifder : Bool) (jnd : List C) :
    Option (List C × List C) :=
  (writeAt jn 0 1).bind fun j0 =>
  (forUp (nterms.toNat - 1) (fun i0 j => writeAt j ((i0 : Int) + 1) 0) j0).bind fun j1 =>
  if ifder then
    (forUp nterms.toNat (fun i d => writeAt d (i : Int) 0) jnd).bind fun d0 =>
    (writeAt d0 1 (cm.ofReal (1 / (3 * scale)))).bind fun d1 => some (j1, d1)
  else some (j1, jnd)

/-- Lines 304-313 of `get_jn`:
`jn[nterms-2] = 0; jn[nterms-1] = 1; coef = 2 * nterms - 1; ztmp = coef * zinv;
jn[nterms] = ztmp; ntop = nterms; for (i<ntop) iscale[i] = 0; jn[ntop] = 0; jn[ntop-1] = 1;`.
Returns `(jn, iscale)`. -/
def get_jnStart {K C : Type} [LinearOrderedField K] [Field C] (cm : Ccmath K C)
    (nterms : Int) (zinv : C) (jn : List C) (iscale : List Int) :
    Option (List C × List Int) :=
  (writeAt jn (nterms - 2) 0).bind fun j0 =>
  (writeAt j0 (nterms - 1) 1).bind fun j1 =>
  let coef : K := 2 * (nterms : K) - 1
  let ztmp : C := cm.ofReal coef * zinv
  (writeAt j1 nterms ztmp).bind fun j2 =>
  let ntop : Int := nterms
  (forUp ntop.toNat (fun i sc => writeAt sc (i : Int) 0) iscale).bind fun sc0 =>
  (writeAt j2 ntop 0).bind fun j3 =>
  (writeAt j3 (ntop - 1) 1).bind fun j4 =>
  some (j4, sc0)

/-- Body of the downward recurrence of `get_jn` (lines 314-323), run for `i = ntop-1, .., 1`;
the loop counter of the model is `i - 1`.  The state is `(jn, iscale)`. -/
def get_jnDown {K C : Type} [LinearOrderedField K] [Field C] (cm : Ccmath K C) (EPS : K)
    (zinv : C) (i0 : Nat) (s : List C × List Int) : Option (List C × List Int) :=
  let i : Nat := i0 + 1
  let coef : K := 2 * (i : K) + 1
  (readAt s.1 (i : Int)).bind fun a =>
  (readAt s.1 ((i : Int) + 1)).bind fun b =>
  let ztmp : C := cm.ofReal coef * zinv * a - b
  (writeAt s.1 ((i : Int) - 1) ztmp).bind fun j1 =>
  if cm.abs ztmp > 1 / EPS then
    (readAt j1 (i : Int)).bind fun c =>
    (writeAt j1 (i : Int) (c * cm.ofReal EPS)).bind fun j2 =>
    (readAt j2 ((i : Int) - 1)).bind fun d =>
    (writeAt j2 ((i : Int) - 1) (d * cm.ofReal EPS)).bind fun j3 =>
    (writeAt s.2 (i : Int) 1).bind fun sc => some (j3, sc)
  else some (j1, s.2)

/-- Body of the rescaling loop of `get_jn` (lines 326-330), run for `i = 1, .., ntop-1`;
the loop counter of the model is `i - 1`.  The state is `(coef, jn)`. -/
def get_jnScale {K C : Type} [LinearOrderedField K] [Field C] (cm : Ccmath K C) (EPS : K)
    (scalinv : K) (iscale : List Int) (i0 : Nat) (s : K × List C) : Option (K × List C) :=
  let i : Nat := i0 + 1
  let coef1 : K := s.1 * scalinv
  (readAt iscale ((i : Int) - 1)).bind fun sc =>
  let coef2 : K := if sc = 1 then coef1 * EPS else coef1
  (readAt s.2 (i : Int)).bind fun a =>
  (writeAt s.2 (i : Int) (a * cm.ofReal coef2)).bind fun j => some (coef2, j)

/-- Lines 331-340 of `get_jn`: the normalisation
`fj0 = sin(z) * zinv; fj1 = fj0 * zinv - cos(z) * zinv;
if (abs(fj1) > abs(fj0)) ztmp = fj1 / (jn[1] * scale); else ztmp = fj0 / jn[0];
for (i<nterms) jn[i] *= ztmp;`.  Returns `(ztmp, jn)`. -/
def get_jnNorm {K C : Type} [LinearOrderedField K] [Field C] (cm : Ccmath K C)
    (nterms : Int) (z zinv : C) (scale : K) (jn : List C) : Option (C × List C) :=
  let fj0 : C := cm.sin z * zinv
  let fj1 : C := fj0 * zinv - cm.cos z * zinv
  (if cm.abs fj1 > cm.abs fj0 then
      (readAt jn 1).bind fun a => some (fj1 / (a * cm.ofReal scale))
    else (readAt jn 0).bind fun a => some (fj0 / a)).bind fun ztmp =>
  (forUp nterms.toNat (fun i j =>
      (readAt j (i : Int)).bind fun a => writeAt j (i : Int) (a * ztmp)) jn).bind fun j1 =>
  some (ztmp, j1)

/-- Lines 341-348 of `get_jn`, the branch `if (ifder)`:
`jn[nterms] *= ztmp; jnd[0] = -jn[1] * scale;` and, for `i = 1, .., nterms-1`,
`coef = i / (2 * i + 1.0); jnd[i] = coef * scalinv * jn[i-1] - (1 - coef) * scale * jn[i+1];`. -/
def get_jnDer {K C : Type} [LinearOrderedField K] [Field C] (cm : Ccmath K C)
    (nterms : Int) (scale scalinv : K) (ztmp : C) (jn jnd : List C) :
    Option (List C × List C) :=
  (readAt jn nterms).bind fun a =>
  (writeAt jn nterms (a * ztmp)).bind fun j1 =>
  (readAt j1 1).bind fun b =>
  (writeAt jnd 0 (-b * cm.ofReal scale)).bind fun d0 =>
  (forUp (nterms.toNat - 1) (fun i0 d =>
      let i : Nat := i0 + 1
      let c : K := (i : K) / (2 * (i : K) + 1)
      (readAt j1 ((i : Int) - 1)).bind fun lo =>
      (readAt j1 ((i : Int) + 1)).bind fun hi =>
      writeAt d (i : Int)
        (cm.ofReal (c * scalinv) * lo - cm.ofReal ((1 - c) * scale) * hi)) d0).bind fun d1 =>
  some (j1, d1)

/-- The function `get_jn(nterms, z, scale, jn, ifder, jnd)` for expansion order `P`: the local
`int iscale[P+1]` has `P + 1` entries.  Returns the final `(jn, jnd)`. -/
def get_jn {K C : Type} [LinearOrderedField K] [Field C] (cm : Ccmath K C) (EPS : K) (P : Nat)
    (nterms : Int) (z : C) (scale : K) (jn : List C) (ifder : Bool) (jnd : List C) :
    Option (List C × List C) :=
  let iscale : List Int := List.replicate (P + 1) 0
  if cm.abs z < EPS then get_jnSmall cm nterms scale jn ifder jnd
  else
    let zinv : C := cm.ofReal 1 / z
    (get_jnStart cm nterms zinv jn iscale).bind fun s4 =>
    (forDown (nterms.toNat - 1) (get_jnDown cm EPS zinv) s4).bind fun s5 =>
    let scalinv : K := 1 / scale
    (forUp (nterms.toNat - 1) (get_jnScale cm EPS scalinv s5.2) (1, s5.1)).bind fun s6 =>
    (get_jnNorm cm nterms z zinv scale s6.2).bind fun s7 =>
    if ifder then get_jnDer cm nterms scale scalinv s7.1 s7.2 jnd
    else some (s7.2, jnd)

/-- The complex operations on the rationals read as complex numbers without imaginary
part, with stand-ins for the transcendental functions; for evaluating the routines
on concrete input. -/
def ccmathExample : Ccmath ℚ ℚ :=
  { ofReal := RingHom.id ℚ, I := 1, abs := fun z => |z|, exp := fun _ => 1,
    sin := fun z => z, cos := fun _ => 1 }

end HelmholtzKernel

/-! ## `HelmholtzKernel::P2P(C)`, the single-cell kernel, scalar path (helmholtz.h, lines 525-653)

Unlike the two-cell kernel, the scalar path has no test `R2 != 0`; a division by zero is
reported as a failure. -/

namespace HelmholtzKernel

/-- The statements `TRG[0] += c0; TRG[1] -= c1; TRG[2] -= c2; TRG[3] -= c3;` on one body. -/
def addSubTRG {K : Type} [Field K] (b : Body K) (c0 c1 c2 c3 : Cpx K) : Body K :=
  let t0 := Function.update b.TRG 0 (b.TRG 0 + c0)
  let t1 := Function.update t0 1 (t0 1 - c1)
  let t2 := Function.update t1 2 (t1 2 - c2)
  let t3 := Function.update t2 3 (t2 3 - c3)
  { b with TRG := t3 }

/-- Lines 620-635: what the inner loop of `P2P(C)` computes for the pair `B[i]`, `B[j]` from
`mi_r`, `mi_i`, the position `Xi` of `B[i]` and the body `bj = B[j]`.  Returns
`((coef1_r, coef1_i), (coef2_r, coef2_i), dX)` with `dX = B[j].X - B[i].X`, and no result
when one of the divisors `expikr`, `R2`, `R` is zero. -/
def P2PcellCoef {K : Type} [Field K] [DecidableEq K] (fn : Cmath K) (kb : KernelBase K)
    (mi_r mi_i : K) (Xi : Fin 3 → K) (bj : Body K) : Option (Cpx K × Cpx K × (Fin 3 → K)) :=
  let wave_r := kb.wavek.1
  let wave_i := kb.wavek.2
  let mj_r := bj.SRC.1
  let mj_i := bj.SRC.2
  let dX : Fin 3 → K := fun d => bj.X d - Xi d
  let R2 := norm dX + kb.eps2
  let R := fn.sqrt R2
  let src2_r := mi_r * mj_r - mi_i * mj_i
  let src2_i := mi_r * mj_i + mi_i * mj_r
  let expikr := fn.exp (wave_i * R) * R
  if expikr = 0 ∨ R2 = 0 ∨ R = 0 then none
  else
    let expikr_r := fn.cos (wave_r * R) / expikr
    let expikr_i := fn.sin (wave_r * R) / expikr
    let coef1_r := src2_r * expikr_r - src2_i * expikr_i
    let coef1_i := src2_r * expikr_i + src2_i * expikr_r
    let kr_r := (1 + wave_i * R) / R2
    let kr_i := - wave_r / R
    let coef2_r := kr_r * coef1_r - kr_i * coef1_i
    let coef2_i := kr_r * coef1_i + kr_i * coef1_r
    some ((coef1_r, coef1_i), (coef2_r, coef2_i), dX)

/-- Body of the inner loop of `P2P(C)` over `j` (lines 619-647); `B[i]` is `bodies (B + i)`.
The state is the accumulators of body `i` and the body array. -/
def P2PcellInner {K : Type} [Field K] [DecidableEq K] (fn : Cmath K) (kb : KernelBase K)
    (B i : Nat) (mi_r mi_i : K) (s : Acc K × (Nat → Body K)) (j : Nat) :
    Option (Acc K × (Nat → Body K)) :=
  let a := s.1
  let bodies := s.2
  (P2PcellCoef fn kb mi_r mi_i (bodies (B + i)).X (bodies (B + j))).bind fun c =>
  let coef1 := c.1
  let coef2 := c.2.1
  let dX := c.2.2
  let a' : Acc K :=
    { pot_r := a.pot_r + coef1.1
      pot_i := a.pot_i + coef1.2
      ax_r := a.ax_r + coef2.1 * dX 0
      ax_i := a.ax_i + coef2.2 * dX 0
      ay_r := a.ay_r + coef2.1 * dX 1
      ay_i := a.ay_i + coef2.2 * dX 1
      az_r := a.az_r + coef2.1 * dX 2
      az_i := a.az_i + coef2.2 * dX 2 }
  some (a', Function.update bodies (B + j)
    (addTRG (bodies (B + j)) coef1 (coef2.1 * dX 0, coef2.2 * dX 0)
      (coef2.1 * dX 1, coef2.2 * dX 1) (coef2.1 * dX 2, coef2.2 * dX 2)))

/-- Body of the outer loop of `P2P(C)` over `i` (lines 608-652): the inner loop over
`j = i+1, .., n-1`, then `B[i].TRG[0] += ..; B[i].TRG[1] -= ..; ..`. -/
def P2PcellOuter {K : Type} [Field K] [DecidableEq K] (fn : Cmath K) (kb : KernelBase K)
    (B n : Nat) (bodies : Nat → Body K) (i : Nat) : Option (Nat → Body K) :=
  let mi_r := (bodies (B + i)).SRC.1
  let mi_i := (bodies (B + i)).SRC.2
  ((List.range' (i + 1) (n - (i + 1))).foldlM (P2PcellInner fn kb B i mi_r mi_i)
    (Acc.zero, bodies)).bind fun s =>
  let a := s.1
  some (Function.update s.2 (B + i)
    (addSubTRG (s.2 (B + i)) (a.pot_r, a.pot_i) (a.ax_r, a.ax_i) (a.ay_r, a.ay_i)
      (a.az_r, a.az_i)))

/-- The function `static void P2P(C_iter C)` without `EXAFMM_USE_SIMD`, so that the scalar loop
starts at `i = 0`. -/
def P2Pcell {K : Type} [Field K] [DecidableEq K] {NTERM : Nat} (fn : Cmath K)
    (kb : KernelBase K) (C : Cell K NTERM) (bodies : Nat → Body K) : Option (Nat → Body K) :=
  (List.range C.NBODY).foldlM (P2PcellOuter fn kb C.BODY C.NBODY) bodies

/-- The four increments of `B[j].TRG` for the values that `P2PcellCoef` returns:
`(coef1, coef2 * dX[0], coef2 * dX[1], coef2 * dX[2])`. -/
def cellIncr {K : Type} [Field K] (c : Cpx K × Cpx K × (Fin 3 → K)) : Fin 4 → Cpx K :=
  ![c.1, (c.2.1.1 * c.2.2 0, c.2.1.2 * c.2.2 0), (c.2.1.1 * c.2.2 1, c.2.1.2 * c.2.2 1),
    (c.2.1.1 * c.2.2 2, c.2.1.2 * c.2.2 2)]

/-- The increments of `B[i].TRG` that go with the increments `t` of `B[j].TRG`: the
potential is added, the three gradient components are subtracted. -/
def flipGrad {K : Type} [Field K] (t : Fin 4 → Cpx K) : Fin 4 → Cpx K :=
  ![t 0, -t 1, -t 2, -t 3]

/-- The increments that the pair `B[i] = bodies bi`, `B[j] = bodies bj` of `P2P(C)` adds to
`B[j].TRG`; zero when the pair has a zero divisor. -/
def cellTerm {K : Type} [Field K] [DecidableEq K] (fn : Cmath K) (kb : KernelBase K)
    (bodies : Nat → Body K) (bi bj : Nat) : Fin 4 → Cpx K :=
  ((P2PcellCoef fn kb (bodies bi).SRC.1 (bodies bi).SRC.2 (bodies bi).X (bodies bj)).map
    cellIncr).getD 0

end HelmholtzKernel

/-! ## Weights in the downward pass (up_down_pass.h, lines 31-39, build with `EXAFMM_USE_WEIGHT`) -/

namespace UpDownPass

/-- The fields of the cells that the downward pass leaves alone: the child range
`(ICHILD, NCHILD)`, the parent index `IPARENT` and the body range `(BODY, NBODY)`. -/
def frameOf {K : Type} {NTERM : Nat} (cells : List (Cell K NTERM)) :
    List (Nat × Nat × Nat × Nat × Nat) :=
  cells.map fun c => (c.ICHILD, c.NCHILD, c.IPARENT, c.BODY, c.NBODY)

/-- The child ranges of a list of frames. -/
def frameShape (fr : List (Nat × Nat × Nat × Nat × Nat)) : List (Nat × Nat) :=
  fr.map fun f => (f.1, f.2.1)

/-- The field `WEIGHT` of cell `i`; zero outside the array. -/
def weightOf {K : Type} [Field K] {NTERM : Nat} (cells : List (Cell K NTERM)) (i : Nat) : K :=
  ((cells[i]?).map fun c => c.WEIGHT).getD 0

/-- Body `n` lies in the range `[BODY, BODY+NBODY)` of cell `d`, and `d` has no children. -/
def inLeaf (fr : List (Nat × Nat × Nat × Nat × Nat)) (d n : Nat) : Prop :=
  ∃ f, fr[d]? = some f ∧ f.2.1 = 0 ∧ f.2.2.2.1 ≤ n ∧ n < f.2.2.2.1 + f.2.2.2.2

/-- What the weights need of the cell array: it is a tree through the child ranges, the
field `IPARENT` of every child is the index of its parent, and no body lies in the
ranges of two different childless cells. -/
structure WeightTree (fr : List (Nat × Nat × Nat × Nat × Nat)) : Prop where
  tree : TreeShaped (frameShape fr)
  parent : ∀ p c, isChild (frameShape fr) p c → ∃ f, fr[c]? = some f ∧ f.2.2.1 = p
  disjoint : ∀ c d n, inLeaf fr c n → inLeaf fr d n → c = d

/-- Effect on the weights of a traversal that visits the cells of the set `S`: the frames
stay; cells outside `S` keep their `WEIGHT`; every child of a cell `q` of `S` ends with
its old `WEIGHT` plus the final `WEIGHT` of `q`; a body outside the childless cells of
`S` keeps its `WEIGHT`, a body of a childless cell `d` of `S` gains the final `WEIGHT`
of `d`. -/
def WeightEffect {K : Type} [Field K] {NTERM : Nat} (fr : List (Nat × Nat × Nat × Nat × Nat))
    (S : Nat → Prop) (s s' : State K NTERM) : Prop :=
  frameOf s'.cells = frameOf s.cells ∧
  (∀ i, ¬ S i → weightOf s'.cells i = weightOf s.cells i) ∧
  (∀ q d, S q → isChild (frameShape fr) q d →
    weightOf s'.cells d = weightOf s.cells d + weightOf s'.cells q) ∧
  (∀ n, (∀ d, S d → ¬ inLeaf fr d n) → (s'.bodies n).WEIGHT = (s.bodies n).WEIGHT) ∧
  (∀ d n, S d → inLeaf fr d n →
    (s'.bodies n).WEIGHT = (s.bodies n).WEIGHT + weightOf s'.cells d)

/-- A cell over the rationals without expansion terms, with the given child range, parent,
body range and weight. -/
def weightCell (ichild nchild iparent body nbody : Nat) (w : ℚ) : Cell ℚ 0 :=
  { IPARENT := iparent, ICHILD := ichild, NCHILD := nchild, BODY := body, NBODY := nbody,
    X := fun _ => 0, R := 1, SCALE := 0, WEIGHT := w, M := fun n => n.elim0,
    L := fun n => n.elim0 }

/-- A tree that is its root only: one childless cell of weight `1` holding body `0`. -/
def rootOnlyState : State ℚ 0 :=
  { cells := [weightCell 0 0 0 0 1 1],
    bodies := fun _ => { X := fun _ => 0, SRC := (0, 0), TRG := fun _ => (0, 0), WEIGHT := 0 },
    trace := [] }

/-- Root `0` of weight `1` with the childless children `1` (weight `2`, body `0`) and `2`
(weight `4`, body `1`). -/
def weightState : State ℚ 0 :=
  { cells := [weightCell 1 2 0 0 0 1, weightCell 0 0 0 0 1 2, weightCell 0 0 0 1 1 4],
    bodies := fun _ => { X := fun _ => 0, SRC := (0, 0), TRG := fun _ => (0, 0), WEIGHT := 0 },
    trace := [] }

end UpDownPass

/-! ## `HelmholtzKernel::rotate` (helmholtz.h, lines 96-186)

The local arrays `Rnm1`, `Rnm2`, `sqrtCnm` and the output array `Mrot` are maps from
indices to values; their contents on entry are arguments, since the source does not
initialise them.  `EPS` is a constant that the source file does not define. -/

namespace HelmholtzKernel

/-- The values `lo, lo+1, ..., hi-1` of the counter of a loop
`for (int m=lo; m<hi; m++)`. -/
def intRange (lo hi : Int) : List Int :=
  (List.range (hi - lo).toNat).map fun (k : Nat) => lo + (k : Int)

/-- The assignment `a[i][j] = v`. -/
def set2 {K : Type} (a : Int → Int → K) (i j : Int) (v : K) : Int → Int → K :=
  fun i' j' => if i' = i ∧ j' = j then v else a i' j'

/-- The product of a `complex_t` and a `real_t`. -/
def cmulr {K : Type} [Field K] (z : Cpx K) (r : K) : Cpx K := (z.1 * r, z.2 * r)

/-- Lines 101-108: the table `sqrtCnm`. -/
def rotateSqrtCnm {K : Type} [Field K] (fn : Cmath K) (nterms : Int)
    (sqrtCnm : Int → Int → K) : Int → Int → K :=
  let s1 := (intRange 0 (2 * nterms)).foldl
    (fun s m => set2 s m 0 (fn.sqrt ((m : K) + 0))) sqrtCnm
  let s2 := set2 s1 0 1 0
  let s3 := set2 s2 1 1 0
  (intRange 2 (2 * nterms)).foldl
    (fun s m => set2 s m 1 (fn.sqrt (((m * (m - 1) : Int) : K) / 2))) s3

/-- The five numbers that `rotate` computes from the angle. -/
structure RotAngles (K : Type) where
  ctheta : K
  stheta : K
  hsthta : K
  cthtap : K
  cthtan : K

/-- Lines 109-115: `ctheta`, `stheta` (set to zero below `EPS`), `hsthta`, `cthtap`,
`cthtan`. -/
def rotateAngles {K : Type} [LinearOrderedField K] (fn : Cmath K) (EPS theta : K) :
    RotAngles K :=
  let ctheta0 := fn.cos theta
  let ctheta := if |ctheta0| < EPS then 0 else ctheta0
  let stheta0 := fn.sin (-theta)
  let stheta := if |stheta0| < EPS then 0 else stheta0
  { ctheta := ctheta
    stheta := stheta
    hsthta := stheta / fn.sqrt 2
    cthtap := fn.sqrt 2 * fn.cos (theta * (1 / 2)) * fn.cos (theta * (1 / 2))
    cthtan := -fn.sqrt 2 * fn.sin (theta * (1 / 2)) * fn.sin (theta * (1 / 2)) }

/-- Lines 119-129: the body of the loop `for (int m=-n; m<0; m++)`. -/
def rotateNeg {K : Type} [Field K] (P n : Int) (ang : RotAngles K)
    (sq Rnm1 : Int → Int → K) (Rnm2 : Int → Int → K) (m : Int) : Int → Int → K :=
  let a1 := set2 Rnm2 0 (P + m) (-sq (n - m) 1 * Rnm1 0 (P + m + 1))
  let a2 := if m > 1 - n then
      set2 a1 0 (P + m) (a1 0 (P + m) + sq (n + m) 1 * Rnm1 0 (P + m - 1))
    else a1
  let a3 := set2 a2 0 (P + m) (a2 0 (P + m) * ang.hsthta)
  let a4 := if m > -n then
      set2 a3 0 (P + m)
        (a3 0 (P + m) + Rnm1 0 (P + m) * ang.ctheta * sq (n + m) 0 * sq (n - m) 0)
    else a3
  set2 a4 0 (P + m) (a4 0 (P + m) / (n : K))

/-- Lines 130-133: the entry `Rnm2[0][P]`. -/
def rotateZero {K : Type} [Field K] (P n : Int) (ang : RotAngles K)
    (sq Rnm1 : Int → Int → K) (Rnm2 : Int → Int → K) : Int → Int → K :=
  let a1 := set2 Rnm2 0 P (Rnm1 0 P * ang.ctheta)
  if n > 1 then
    set2 a1 0 P (a1 0 P + ang.hsthta * sq n 1 * (2 * Rnm1 0 (P - 1)) / (n : K))
  else a1

/-- Lines 134-141: the body of the loop `for (int m=1; m<=n; m++)`. -/
def rotatePos {K : Type} [Field K] (P : Int) (Rnm2 : Int → Int → K) (m : Int) :
    Int → Int → K :=
  let a1 := set2 Rnm2 0 (P + m) (Rnm2 0 (P - m))
  if m.tmod 2 = 0 then set2 a1 m P (a1 0 (P + m)) else set2 a1 m P (-a1 0 (P + m))

/-- Lines 145-158: the first part of the body of the loop `for (int m=mp; m<=n; m++)`, up
to the two multiplications by `scale`. -/
def rotateInnerValues {K : Type} [Field K] (P n : Int) (ang : RotAngles K)
    (sq Rnm1 : Int → Int → K) (mp : Int) (scale : K) (Rnm2 : Int → Int → K) (m : Int) :
    Int → Int → K :=
  let a1 := set2 Rnm2 mp (P + m) (Rnm1 (mp - 1) (P + m - 1) * ang.cthtap * sq (n + m) 1)
  let a2 := set2 a1 mp (P - m) (Rnm1 (mp - 1) (P - m + 1) * ang.cthtan * sq (n + m) 1)
  let a4 := if m < n - 1 then
      let a3 := set2 a2 mp (P + m)
        (a2 mp (P + m) - Rnm1 (mp - 1) (P + m + 1) * ang.cthtan * sq (n - m) 1)
      set2 a3 mp (P - m)
        (a3 mp (P - m) - Rnm1 (mp - 1) (P - m - 1) * ang.cthtap * sq (n - m) 1)
    else a2
  let a6 := if m < n then
      let d := ang.stheta * sq (n + m) 0 * sq (n - m) 0
      let a5 := set2 a4 mp (P + m) (a4 mp (P + m) + Rnm1 (mp - 1) (P + m) * d)
      set2 a5 mp (P - m) (a5 mp (P - m) + Rnm1 (mp - 1) (P - m) * d)
    else a4
  let a7 := set2 a6 mp (P + m) (a6 mp (P + m) * scale)
  set2 a7 mp (P - m) (a7 mp (P - m) * scale)

/-- Lines 159-167: the second part of the body of the loop over `m`, the copies into
row `m`. -/
def rotateInnerMirror {K : Type} [Field K] (P : Int) (mp : Int) (Rnm2 : Int → Int → K)
    (m : Int) : Int → Int → K :=
  if m > mp then
    if (mp + m).tmod 2 = 0 then
      let b1 := set2 Rnm2 m (P + mp) (Rnm2 mp (P + m))
      set2 b1 m (P - mp) (b1 mp (P - m))
    else
      let b1 := set2 Rnm2 m (P + mp) (-Rnm2 mp (P + m))
      set2 b1 m (P - mp) (-b1 mp (P - m))
  else Rnm2

/-- Lines 144-168: the body of the loop `for (int m=mp; m<=n; m++)`. -/
def rotateInner {K : Type} [Field K] (P n : Int) (ang : RotAngles K)
    (sq Rnm1 : Int → Int → K) (mp : Int) (scale : K) (Rnm2 : Int → Int → K) (m : Int) :
    Int → Int → K :=
  rotateInnerMirror P mp (rotateInnerValues P n ang sq Rnm1 mp scale Rnm2 m) m

/-- Lines 142-169: the body of the loop `for (int mp=1; mp<=n; mp++)`. -/
def rotateMp {K : Type} [Field K] (fn : Cmath K) (P n : Int) (ang : RotAngles K)
    (sq Rnm1 : Int → Int → K) (Rnm2 : Int → Int → K) (mp : Int) : Int → Int → K :=
  let scale := 1 / (fn.sqrt 2 * sq (n + mp) 1)
  (intRange mp (n + 1)).foldl (rotateInner P n ang sq Rnm1 mp scale) Rnm2

/-- Lines 175-180: the body of the loop `for (int mp=1; mp<=n; mp++)` that adds to
`Mrot[nm]`. -/
def rotateMrotInner {K : Type} [Field K] (P n : Int) (Mnm : Int → Cpx K)
    (Rnm2 : Int → Int → K) (m : Int) (Mrot : Int → Cpx K) (mp : Int) : Int → Cpx K :=
  let nm := n * n + n + m
  let npm := n * n + n + mp
  let nmm := n * n + n - mp
  Function.update Mrot nm
    (Mrot nm + (cmulr (Mnm npm) (Rnm2 mp (P + m)) + cmulr (Mnm nmm) (Rnm2 mp (P - m))))

/-- Lines 171-181: the body of the loop `for (int m=-n; m<=n; m++)` that fills `Mrot`. -/
def rotateMrot {K : Type} [Field K] (P n : Int) (Mnm : Int → Cpx K)
    (Rnm2 : Int → Int → K) (Mrot : Int → Cpx K) (m : Int) : Int → Cpx K :=
  let nn := n * n + n
  let nm := n * n + n + m
  let M1 := Function.update Mrot nm (cmulr (Mnm nn) (Rnm2 0 (P + m)))
  (intRange 1 (n + 1)).foldl (rotateMrotInner P n Mnm Rnm2 m) M1

/-- Lines 182-186: the loops that copy `Rnm2` to `Rnm1`. -/
def rotateCopy {K : Type} (P n : Int) (Rnm2 : Int → Int → K) (Rnm1 : Int → Int → K) :
    Int → Int → K :=
  (intRange (-n) (n + 1)).foldl
    (fun R1 m => (intRange 0 (n + 1)).foldl
      (fun R1 mp => set2 R1 mp (P + m) (Rnm2 mp (P + m))) R1) Rnm1

/-- The arrays that the loop over `n` of `rotate` changes. -/
structure RotState (K : Type) where
  Rnm1 : Int → Int → K
  Rnm2 : Int → Int → K
  Mrot : Int → Cpx K

/-- Lines 118-187: the body of the loop `for (int n=1; n<nterms; n++)`. -/
def rotateStep {K : Type} [Field K] (fn : Cmath K) (P : Int) (ang : RotAngles K)
    (sq : Int → Int → K) (Mnm : Int → Cpx K) (s : RotState K) (n : Int) : RotState K :=
  let r1 := (intRange (-n) 0).foldl (rotateNeg P n ang sq s.Rnm1) s.Rnm2
  let r2 := rotateZero P n ang sq s.Rnm1 r1
  let r3 := (intRange 1 (n + 1)).foldl (rotatePos P) r2
  let r4 := (intRange 1 (n + 1)).foldl (rotateMp fn P n ang sq s.Rnm1) r3
  let M := (intRange (-n) (n + 1)).foldl (rotateMrot P n Mnm r4) s.Mrot
  { Rnm1 := rotateCopy P n r4 s.Rnm1, Rnm2 := r4, Mrot := M }

/-- The function `static void rotate(real_t theta, int nterms, complex_t Mnm[P*P],
complex_t Mrot[P*P])`; the result is the array `Mrot` on return. -/
def rotate {K : Type} [LinearOrderedField K] (fn : Cmath K) (P : Int) (EPS theta : K)
    (nterms : Int) (Mnm Mrot : Int → Cpx K) (Rnm1 Rnm2 sqrtCnm : Int → Int → K) :
    Int → Cpx K :=
  let sq := rotateSqrtCnm fn nterms sqrtCnm
  let ang := rotateAngles fn EPS theta
  let R1 := set2 Rnm1 0 P 1
  let M0 := Function.update Mrot 0 (cmulr (Mnm 0) (R1 0 P))
  ((intRange 1 nterms).foldl (rotateStep fn P ang sq Mnm)
    { Rnm1 := R1, Rnm2 := Rnm2, Mrot := M0 }).Mrot

/-- The entries that `Rnm1` and `Rnm2` hold when the angle is zero: `1` where the column
is `P + i` for the row `i`, and `0` elsewhere. -/
def rotDelta {K : Type} [Field K] (P : Int) (i j : Int) : K := if j = P + i then 1 else 0

/-- The rows `0..n` and the columns `P-n..P+n` of `Rnm1` and `Rnm2`. -/
def rotRegion (P n : Int) (i j : Int) : Prop := 0 ≤ i ∧ i ≤ n ∧ P - n ≤ j ∧ j ≤ P + n

/-- The entries of `Rnm2` that the body of the loop over `m` writes, for the counters `mp`
and `m`. -/
def rotWritten (P mp m : Int) (i j : Int) : Prop :=
  (i = mp ∧ (j = P + m ∨ j = P - m)) ∨ (m > mp ∧ i = m ∧ (j = P + mp ∨ j = P - mp))

/-- The array `a` holds the entries of `D` at the places of `S`. -/
def AgreeOn {K : Type} (D : Int → Int → K) (S : Int → Int → Prop) (a : Int → Int → K) :
    Prop :=
  ∀ i j, S i j → a i j = D i j

end HelmholtzKernel

end ExaFMM

/-! # Theorems -/

namespace ExaFMM

/-- Invariant rule for an upward loop: an invariant that holds initially and is
carried by every step (which must succeed) holds at the end, and the loop succeeds. -/
theorem forUp_inv {σ : Type} (n : Nat) (f : Nat → σ → Option σ) (P : Nat → σ → Prop) (s0 : σ)
    (h0 : P 0 s0)
    (hstep : ∀ i s, i < n → P i s → ∃ s', f i s = some s' ∧ P (i + 1) s') :
    ∃ s', forUp n f s0 = some s' ∧ P n s' := by
  induction n with
  | zero => exact ⟨s0, rfl, h0⟩
  | succ n ih =>
    obtain ⟨s1, h1, p1⟩ := ih (fun i s hi hp => hstep i s (Nat.lt_succ_of_lt hi) hp)
    obtain ⟨s2, h2, p2⟩ := hstep n s1 (Nat.lt_succ_self n) p1
    refine ⟨s2, ?_, p2⟩
    unfold forUp at h1 ⊢
    rw [List.range_succ, List.foldlM_append, h1]
    simp [h2]

/-- Invariant rule for a downward loop: `P i` reads "the indices `i, …, n-1` are done". -/
theorem forDown_inv {σ : Type} (n : Nat) (f : Nat → σ → Option σ) (P : Nat → σ → Prop) (s0 : σ)
    (h0 : P n s0)
    (hstep : ∀ i s, i < n → P (i + 1) s → ∃ s', f i s = some s' ∧ P i s') :
    ∃ s', forDown n f s0 = some s' ∧ P 0 s' := by
  induction n generalizing s0 with
  | zero => exact ⟨s0, rfl, h0⟩
  | succ n ih =>
    obtain ⟨s1, h1, p1⟩ := hstep n s0 (Nat.lt_succ_self n) h0
    obtain ⟨s2, h2, p2⟩ := ih s1 p1 (fun i s hi hp => hstep i s (Nat.lt_succ_of_lt hi) hp)
    refine ⟨s2, ?_, p2⟩
    unfold forDown at h2 ⊢
    rw [List.range_succ, List.reverse_append, List.reverse_singleton, List.singleton_append,
      List.foldlM_cons, h1]
    exact h2

theorem readAt_natCast {α : Type} (a : List α) (i : Nat) : readAt a (i : Int) = a[i]? := by
  simp [readAt]

theorem writeAt_natCast {α : Type} (a : List α) (i : Nat) (v : α) (h : i < a.length) :
    writeAt a (i : Int) v = some (a.set i v) := by
  simp [writeAt, h]

namespace Fmm

theorem copy4_eq {R : Type} (dst src : Body4 R) : copy4 dst src = src := by
  funext d
  fin_cases d <;> rfl

theorem countEqBefore_succ (key : List Int) (i : Nat) (k a : Int) (h : key[i]? = some a) :
    countEqBefore key (i + 1) k = countEqBefore key i k + (if a = k then 1 else 0) := by
  unfold countEqBefore
  rw [List.take_succ, h, List.countP_append]
  by_cases hak : a = k <;> simp [hak]

theorem countEqBefore_mono (key : List Int) (k : Int) {i j : Nat} (h : i ≤ j) :
    countEqBefore key i k ≤ countEqBefore key j k := by
  induction h with
  | refl => exact le_rfl
  | @step m _ ih =>
    refine le_trans ih ?_
    unfold countEqBefore
    rw [List.take_succ, List.countP_append]
    exact Nat.le_add_right _ _

theorem countEqBefore_lt (key : List Int) {i j : Nat} (a : Int) (hij : i < j)
    (h : key[i]? = some a) : countEqBefore key i a < countEqBefore key j a := by
  have h1 := countEqBefore_succ key i a a h
  have h2 := countEqBefore_mono key a (show i + 1 ≤ j from hij)
  simp at h1
  omega

theorem countEqBefore_length (key : List Int) (k : Int) {i : Nat} (h : key.length ≤ i) :
    countEqBefore key i k = key.countP (fun x => decide (x = k)) := by
  unfold countEqBefore
  rw [List.take_of_length_le h]

theorem countLt_succ (key : List Int) (k : Int) :
    countLt key (k + 1) = countLt key k + countEqBefore key key.length k := by
  rw [countEqBefore_length key k le_rfl]
  unfold countLt
  induction key with
  | nil => simp
  | cons x xs ih =>
    simp only [List.countP_cons, ih]
    by_cases h1 : x < k
    · have h2 : x < k + 1 := by omega
      have h3 : ¬ x = k := by omega
      simp [h1, h2, h3]; omega
    · by_cases h3 : x = k
      · have h2 : x < k + 1 := by omega
        simp [h1, h2, h3]; omega
      · have h2 : ¬ x < k + 1 := by omega
        simp [h1, h2, h3]

theorem countLt_mono (key : List Int) {k k' : Int} (h : k ≤ k') :
    countLt key k ≤ countLt key k' := by
  unfold countLt
  induction key with
  | nil => simp
  | cons x xs ih =>
    simp only [List.countP_cons]
    by_cases h1 : x < k
    · have h2 : x < k' := by omega
      simp [h1, h2]; omega
    · simp [h1]; omega

theorem countLt_le_length (key : List Int) (k : Int) : countLt key k ≤ key.length :=
  List.countP_le_length _

theorem countLt_eq_zero (key : List Int) (m : Int)
    (h : ∀ (j : Nat) (a : Int), key[j]? = some a → m ≤ a) : countLt key m = 0 := by
  unfold countLt
  rw [List.countP_eq_zero]
  intro a ha
  obtain ⟨j, hj⟩ := List.getElem?_of_mem ha
  have := h j a hj
  simp; omega

theorem sortPos_lt_succ (key : List Int) {i : Nat} (a : Int) (h : key[i]? = some a) :
    sortPos key i < countLt key (a + 1) := by
  have hi : i < key.length := (List.getElem?_eq_some_iff.mp h).1
  have hd : key.getD i 0 = a := by simp [List.getD, h]
  unfold sortPos
  rw [hd, countLt_succ]
  have := countEqBefore_lt key a hi h
  omega

theorem sortPos_lt_length (key : List Int) {i : Nat} (hi : i < key.length) :
    sortPos key i < key.length := by
  have h : key[i]? = some key[i] := List.getElem?_eq_getElem hi
  exact lt_of_lt_of_le (sortPos_lt_succ key _ h) (countLt_le_length key _)

/-- A body with a smaller key is placed at a lower position. -/
theorem sortPos_lt_of_key_lt (key : List Int) {i j : Nat} (a b : Int)
    (hi : key[i]? = some a) (hj : key[j]? = some b) (hab : a < b) :
    sortPos key i < sortPos key j := by
  have h1 := sortPos_lt_succ key a hi
  have h2 : countLt key (a + 1) ≤ countLt key b := countLt_mono key (by omega)
  have hd : key.getD j 0 = b := by simp [List.getD, hj]
  have h3 : countLt key b ≤ sortPos key j := by
    unfold sortPos; rw [hd]; omega
  omega

/-- Among bodies with equal keys, the lower input index is placed lower. -/
theorem sortPos_lt_of_key_eq (key : List Int) {i j : Nat} (a : Int)
    (hi : key[i]? = some a) (hj : key[j]? = some a) (hij : i < j) :
    sortPos key i < sortPos key j := by
  have hdi : key.getD i 0 = a := by simp [List.getD, hi]
  have hdj : key.getD j 0 = a := by simp [List.getD, hj]
  unfold sortPos
  rw [hdi, hdj]
  have := countEqBefore_lt key a hij hi
  omega

theorem sortPos_injective (key : List Int) {i j : Nat} (hi : i < key.length)
    (hj : j < key.length) (h : sortPos key i = sortPos key j) : i = j := by
  have hi' : key[i]? = some key[i] := List.getElem?_eq_getElem hi
  have hj' : key[j]? = some key[j] := List.getElem?_eq_getElem hj
  by_contra hne
  rcases lt_trichotomy key[i] key[j] with hlt | heq | hgt
  · have := sortPos_lt_of_key_lt key _ _ hi' hj' hlt; omega
  · rcases Nat.lt_or_gt_of_ne hne with h1 | h1
    · have := sortPos_lt_of_key_eq key _ hi' (heq ▸ hj') h1; omega
    · have := sortPos_lt_of_key_eq key _ hj' (heq ▸ hi') h1; omega
  · have := sortPos_lt_of_key_lt key _ _ hj' hi' hgt; omega

theorem sortPos_eq (key : List Int) {i : Nat} (a : Int) (h : key[i]? = some a) :
    sortPos key i = countLt key a + countEqBefore key i a := by
  have hd : key.getD i 0 = a := by simp [List.getD, h]
  unfold sortPos
  rw [hd]

/-- What `sort` computes when the spread of the keys fits `int`: it succeeds, and it
writes input body `i` to position `sortPos key i` of `bodies2`. -/
theorem sort_spec {R : Type} (numBodies : Nat) (bodies bodies2 : List (Body4 R))
    (key : List Int) (hn : 1 ≤ numBodies) (hk : key.length = numBodies)
    (hb : bodies.length = numBodies) (hb2 : bodies2.length = numBodies)
    (hs : ∀ a ∈ key, ∀ b ∈ key, a - b + 1 < 2 ^ 31) :
    ∃ out, sort numBodies bodies bodies2 key = some out ∧ out.length = numBodies ∧
      ∀ i, i < numBodies → out[sortPos key i]? = bodies[i]? := by
  have hget : ∀ i, i < numBodies → ∃ a, key[i]? = some a := by
    intro i hi
    have hi' : i < key.length := by omega
    exact ⟨key[i], List.getElem?_eq_getElem hi'⟩
  have hlt : ∀ (j : Nat) (a : Int), key[j]? = some a → j < numBodies := by
    intro j a h
    have := (List.getElem?_eq_some_iff.mp h).1
    omega
  obtain ⟨k0, hk0⟩ := hget 0 (by omega)
  -- first loop: minimum and maximum
  obtain ⟨mm, hmm, hmem, hle, hP1⟩ := forUp_inv numBodies (sortMinMax key)
    (fun i s => (s.1 ∈ key ∧ s.2 ∈ key) ∧ s.2 ≤ s.1 ∧
      ∀ (j : Nat) (a : Int), j < i → key[j]? = some a → s.2 ≤ a ∧ a ≤ s.1)
    (k0, k0) ⟨⟨List.getElem?_mem hk0, List.getElem?_mem hk0⟩, le_rfl,
      fun j a hj => absurd hj (Nat.not_lt_zero j)⟩
    (by
      rintro i s hi ⟨⟨hm1, hm2⟩, h1, h2⟩
      obtain ⟨a, ha⟩ := hget i hi
      have hma : a ∈ key := List.getElem?_mem ha
      refine ⟨(max s.1 a, min s.2 a), by simp [sortMinMax, ha], ⟨?_, ?_⟩, ?_, ?_⟩
      · rcases max_choice s.1 a with h | h <;> simp only [h] <;> assumption
      · rcases min_choice s.2 a with h | h <;> simp only [h] <;> assumption
      · exact le_trans (min_le_left _ _) (le_trans h1 (le_max_left _ _))
      · intro j c hj hjc
        rcases Nat.lt_succ_iff_lt_or_eq.mp hj with hlt' | heq
        · obtain ⟨h3, h4⟩ := h2 j c hlt' hjc
          exact ⟨le_trans (min_le_left _ _) h3, le_trans h4 (le_max_left _ _)⟩
        · subst heq
          rw [ha] at hjc
          cases hjc
          exact ⟨min_le_right _ _, le_max_right _ _⟩)
  obtain ⟨Imax, Imin⟩ := mm
  simp only at hle hP1 hmem
  have hfit := hs Imax hmem.1 Imin hmem.2
  have hint1 : int32 (Imax - Imin) = some (Imax - Imin) := by
    unfold int32
    rw [if_pos ⟨by omega, by omega⟩]
  have hint2 : int32 (Imax - Imin + 1) = some (Imax - Imin + 1) := by
    unfold int32
    rw [if_pos ⟨by omega, by omega⟩]
  have hrange : ∀ (j : Nat) (a : Int), key[j]? = some a → Imin ≤ a ∧ a ≤ Imax :=
    fun j a h => hP1 j a (hlt j a h) h
  have hidx : ∀ (j : Nat) (a : Int), key[j]? = some a →
      ∃ idx : Nat, a - Imin = (idx : Int) ∧ idx < (Imax - Imin + 1).toNat ∧
        (idx : Int) + Imin = a := by
    intro j a h
    obtain ⟨h1, h2⟩ := hrange j a h
    exact ⟨(a - Imin).toNat, by omega, by omega, by omega⟩
  generalize hN : (Imax - Imin + 1).toNat = N at hidx
  -- second loop: clear the buckets
  obtain ⟨bucket0, hb0, hlen0, hP2⟩ := forUp_inv N
    (fun i b => writeAt b (i : Int) 0)
    (fun _ b => b.length = N ∧ ∀ j, j < N → b[j]? = some (0 : Int))
    (List.replicate N 0)
    ⟨by simp, fun j hj => by simp [List.getElem?_replicate, hj]⟩
    (by
      rintro i b hi ⟨h1, h2⟩
      refine ⟨b.set i 0, writeAt_natCast b i 0 (by omega), by simpa using h1, ?_⟩
      intro j hj
      rw [List.getElem?_set]
      split
      · simp [h1, hi]
      · exact h2 j hj)
  -- third loop: count the keys
  obtain ⟨bucket1, hb1, hlen1, hP3⟩ := forUp_inv numBodies (sortCount key Imin)
    (fun i b => b.length = N ∧
      ∀ j : Nat, j < N → b[j]? = some ((countEqBefore key i ((j : Int) + Imin) : Nat) : Int))
    bucket0 ⟨hlen0, fun j hj => by simpa [countEqBefore] using hP2 j hj⟩
    (by
      rintro i b hi ⟨h1, h2⟩
      obtain ⟨a, ha⟩ := hget i hi
      obtain ⟨idx, hsub, hlt1, hcast⟩ := hidx i a ha
      have hrd := h2 idx hlt1
      rw [hcast] at hrd
      refine ⟨b.set idx ((countEqBefore key i a : Nat) + 1), ?_, by simpa using h1, ?_⟩
      · simp only [sortCount, ha, Option.some_bind, hsub, readAt_natCast, hrd]
        exact writeAt_natCast b idx _ (by omega)
      · intro j hj
        rw [List.getElem?_set, countEqBefore_succ key i _ _ ha]
        split
        · rename_i heq
          subst heq
          have hl : idx < b.length := by omega
          simp [hl, hcast]
        · rename_i hne
          have hne' : ¬ a = (j : Int) + Imin := by
            intro h'
            apply hne
            omega
          simp [h2 j hj, hne'])
  -- fourth loop: running sums
  obtain ⟨bucket2, hb2', hlen2, hP4⟩ := forUp_inv (N - 1) sortPrefix
    (fun i b => b.length = N ∧
      ∀ j : Nat, j < N →
        b[j]? = some (if j ≤ i then ((countLt key ((j : Int) + Imin + 1) : Nat) : Int)
          else ((countEqBefore key numBodies ((j : Int) + Imin) : Nat) : Int)))
    bucket1 ⟨hlen1, fun j hj => by
      rw [hP3 j hj]
      split
      · rename_i hj0
        have hj0' : j = 0 := by omega
        subst hj0'
        have hz := countLt_eq_zero key Imin (fun j a h => (hrange j a h).1)
        rw [countLt_succ, hk]
        simp [hz]
      · rfl⟩
    (by
      rintro i b hi ⟨h1, h2⟩
      have hprev := h2 i (by omega)
      have hcur := h2 (i + 1) (by omega)
      simp only [le_refl, if_true] at hprev
      rw [if_neg (by omega)] at hcur
      refine ⟨b.set (i + 1) (((countEqBefore key numBodies (((i + 1 : Nat) : Int) + Imin) : Nat)
        : Int) + ((countLt key ((i : Int) + Imin + 1) : Nat) : Int)), ?_, by simpa using h1, ?_⟩
      · have hi1 : i + 1 < b.length := by omega
        simp only [sortPrefix, hprev, hcur, Option.some_bind, if_pos hi1]
      · intro j hj
        rw [List.getElem?_set]
        split
        · rename_i heq
          subst heq
          have hi1 : i + 1 < b.length := by omega
          have e1 : ((i + 1 : Nat) : Int) + Imin = (i : Int) + Imin + 1 := by push_cast; ring
          rw [if_pos hi1, if_pos le_rfl, countLt_succ key (((i + 1 : Nat) : Int) + Imin), hk, e1]
          push_cast
          ring_nf
        · rename_i hne
          rw [h2 j hj]
          by_cases hji : j ≤ i
          · rw [if_pos hji, if_pos (by omega)]
          · rw [if_neg hji, if_neg (by omega)])
  -- last loop: place the bodies
  obtain ⟨r, hr, hlen3, _, hlen4, hP5⟩ := forDown_inv numBodies (sortPlace bodies key Imin)
    (fun i s => s.1.length = N ∧
      (∀ j : Nat, j < N →
        s.1[j]? = some (((countLt key ((j : Int) + Imin) +
          countEqBefore key i ((j : Int) + Imin) : Nat)) : Int)) ∧
      s.2.length = numBodies ∧
      ∀ j, i ≤ j → j < numBodies → s.2[sortPos key j]? = bodies[j]?)
    (bucket2, bodies2)
    ⟨hlen2, fun j hj => by
        rw [hP4 j hj, if_pos (by omega), countLt_succ, hk], hb2,
      fun j h1 h2 => absurd h2 (by omega)⟩
    (by
      rintro i ⟨b, b2⟩ hi ⟨h1, h2, h3, h4⟩
      simp only at h1 h2 h3 h4
      obtain ⟨a, ha⟩ := hget i hi
      obtain ⟨idx, hsub, hlt1, hcast⟩ := hidx i a ha
      have hrd := h2 idx hlt1
      rw [hcast, countEqBefore_succ key i _ _ ha] at hrd
      simp only [if_true] at hrd
      have hpos : sortPos key i < numBodies := by
        have := sortPos_lt_length key (show i < key.length by omega)
        omega
      have hib : i < bodies.length := by omega
      have hp2 : sortPos key i < b2.length := by omega
      have hl : idx < b.length := by omega
      have hrd' : b[idx]? = some (((sortPos key i : Nat) : Int) + 1) := by
        rw [hrd, sortPos_eq key a ha]
        push_cast
        ring_nf
      refine ⟨(b.set idx ((sortPos key i : Nat) : Int),
        b2.set (sortPos key i) bodies[i]), ?_, by simpa using h1, ?_, by simpa using h3, ?_⟩
      · simp only [sortPlace, ha, Option.some_bind, hsub, readAt_natCast, hrd',
          add_sub_cancel_right, writeAt_natCast b idx _ hl, List.getElem?_set_self hl,
          List.getElem?_eq_getElem hib, List.getElem?_eq_getElem hp2, copy4_eq,
          writeAt_natCast b2 _ _ hp2]
      · intro j hj
        simp only
        rw [List.getElem?_set]
        split
        · rename_i heq
          subst heq
          simp [hl, hcast, sortPos_eq key a ha]
        · rename_i hne
          have hne' : ¬ a = (j : Int) + Imin := by
            intro h'
            apply hne
            omega
          rw [h2 j hj, countEqBefore_succ key i _ _ ha, if_neg hne']
          simp
      · intro j hij hj
        simp only
        rw [List.getElem?_set]
        rcases Nat.eq_or_lt_of_le hij with heq | hlt'
        · subst heq
          simp [hp2, List.getElem?_eq_getElem hib]
        · have hne : sortPos key i ≠ sortPos key j := by
            intro h'
            have := sortPos_injective key (by omega) (by omega) h'
            omega
          rw [if_neg hne]
          exact h4 j hlt' hj)
  refine ⟨r.2, ?_, hlen4, fun i hi => hP5 i (Nat.zero_le i) hi⟩
  simp only [sort, hk0, Option.some_bind, hmm, hint1, hint2, hN, hb0, hb1, hb2', hr]

/-- Two lists of the same length that agree along a bijection of their index
range are permutations of each other. -/
theorem perm_of_bijective_index {α : Type} (l1 l2 : List α) (n : Nat) (h1 : l1.length = n)
    (h2 : l2.length = n) (π : Fin n → Fin n) (hπ : Function.Bijective π)
    (h : ∀ i : Fin n, l2[(π i).val]? = l1[i.val]?) : l2.Perm l1 := by
  subst h1
  let f : Fin l1.length → α := fun p => l2.get ⟨p.val, by rw [h2]; exact p.2⟩
  have e2 : l2 = List.ofFn f := by
    apply List.ext_getElem?
    intro k
    rw [List.getElem?_ofFn]
    unfold List.ofFnNthVal
    by_cases hk : k < l1.length
    · rw [dif_pos hk]
      simp only [f, List.get_eq_getElem]
      exact List.getElem?_eq_getElem (by omega)
    · rw [dif_neg hk]
      exact List.getElem?_eq_none (by omega)
  have e1 : l1 = List.ofFn (f ∘ (Equiv.ofBijective π hπ)) := by
    apply List.ext_getElem?
    intro k
    rw [List.getElem?_ofFn]
    unfold List.ofFnNthVal
    by_cases hk : k < l1.length
    · rw [dif_pos hk, ← h ⟨k, hk⟩]
      simp only [f, Function.comp, Equiv.ofBijective_apply, List.get_eq_getElem]
      exact List.getElem?_eq_getElem (by rw [h2]; exact (π ⟨k, hk⟩).2)
    · rw [dif_neg hk]
      exact List.getElem?_eq_none (by omega)
  rw [e2]
  nth_rewrite 2 [e1]
  exact (Equiv.Perm.ofFn_comp_perm (Equiv.ofBijective π hπ) f).symm

theorem sortPerm_val (key : List Int) (n : Nat) (hk : key.length = n) (i : Fin n) :
    (sortPerm key n i).val = sortPos key i.val := by
  have := sortPos_lt_length key (show i.val < key.length by rw [hk]; exact i.2)
  unfold sortPerm
  rw [dif_pos (by omega)]

theorem sortPerm_bijective (key : List Int) (n : Nat) (hk : key.length = n) :
    Function.Bijective (sortPerm key n) := by
  rw [← Finite.injective_iff_bijective]
  intro i j hij
  have h : sortPos key i.val = sortPos key j.val := by
    rw [← sortPerm_val key n hk i, ← sortPerm_val key n hk j, hij]
  exact Fin.ext (sortPos_injective key (by rw [hk]; exact i.2) (by rw [hk]; exact j.2) h)

/-- C1 (amended). For `numBodies ≥ 1` and any key array whose spread `Imax - Imin + 1` fits
`int` (any two keys `a`, `b` have `a - b + 1 < 2^31`), `Fmm::sort` succeeds and writes
into `bodies2` a permutation of `bodies`: there is a bijection `π` of
`[0, numBodies)` with `bodies2[π i][d] = bodies[i][d]` for the four components `d`, and
the list of records written is a rearrangement of the input list (nothing lost,
nothing duplicated). -/
theorem sort_permutation {R : Type} (numBodies : Nat) (bodies bodies2 : List (Body4 R))
    (key : List Int) (hn : 1 ≤ numBodies) (hk : key.length = numBodies)
    (hb : bodies.length = numBodies) (hb2 : bodies2.length = numBodies)
    (hs : ∀ a ∈ key, ∀ b ∈ key, a - b + 1 < 2 ^ 31) :
    ∃ out, sort numBodies bodies bodies2 key = some out ∧ out.length = numBodies ∧
      (∃ π : Fin numBodies → Fin numBodies, Function.Bijective π ∧
        ∀ i : Fin numBodies, ∃ b b', bodies[i.val]? = some b ∧ out[(π i).val]? = some b' ∧
          ∀ d : Fin 4, b' d = b d) ∧
      out.Perm bodies := by
  obtain ⟨out, hrun, hlen, hpos⟩ := sort_spec numBodies bodies bodies2 key hn hk hb hb2 hs
  refine ⟨out, hrun, hlen, ⟨sortPerm key numBodies, sortPerm_bijective key numBodies hk, ?_⟩,
    perm_of_bijective_index bodies out numBodies hb hlen (sortPerm key numBodies)
      (sortPerm_bijective key numBodies hk)
      (fun i => by rw [sortPerm_val key numBodies hk]; exact hpos i.val i.2)⟩
  intro i
  have hi : i.val < bodies.length := by rw [hb]; exact i.2
  refine ⟨bodies[i.val], bodies[i.val], List.getElem?_eq_getElem hi, ?_, fun _ => rfl⟩
  rw [sortPerm_val key numBodies hk, hpos i.val i.2]
  exact List.getElem?_eq_getElem hi

/-- C2 (amended). For `numBodies ≥ 1` and any key array whose spread `Imax - Imin + 1` fits
`int` there is a bijection `π` of `[0, numBodies)` such that `Fmm::sort` places input
body `i` at position `π i` of `bodies2` (whatever the body arrays hold), and the
placement is in non-decreasing key order: `π i < π j` implies `key[i] ≤ key[j]`. -/
theorem sort_nondecreasing {R : Type} (numBodies : Nat) (key : List Int)
    (hn : 1 ≤ numBodies) (hk : key.length = numBodies)
    (hs : ∀ a ∈ key, ∀ b ∈ key, a - b + 1 < 2 ^ 31) :
    ∃ π : Fin numBodies → Fin numBodies, Function.Bijective π ∧
      (∀ bodies bodies2 : List (Body4 R), bodies.length = numBodies →
        bodies2.length = numBodies →
        ∃ out, sort numBodies bodies bodies2 key = some out ∧
          ∀ i : Fin numBodies, out[(π i).val]? = bodies[i.val]?) ∧
      ∀ i j : Fin numBodies, π i < π j → key.getD i.val 0 ≤ key.getD j.val 0 := by
  refine ⟨sortPerm key numBodies, sortPerm_bijective key numBodies hk, ?_, ?_⟩
  · intro bodies bodies2 hb hb2
    obtain ⟨out, hrun, _, hpos⟩ := sort_spec numBodies bodies bodies2 key hn hk hb hb2 hs
    exact ⟨out, hrun, fun i => by rw [sortPerm_val key numBodies hk]; exact hpos i.val i.2⟩
  · intro i j hij
    have hij' : sortPos key i.val < sortPos key j.val := by
      rw [← sortPerm_val key numBodies hk i, ← sortPerm_val key numBodies hk j]
      exact hij
    have hi : i.val < key.length := by rw [hk]; exact i.2
    have hj : j.val < key.length := by rw [hk]; exact j.2
    have hi' : key[i.val]? = some key[i.val] := List.getElem?_eq_getElem hi
    have hj' : key[j.val]? = some key[j.val] := List.getElem?_eq_getElem hj
    have hdi : key.getD i.val 0 = key[i.val] := by simp [List.getD, hi']
    have hdj : key.getD j.val 0 = key[j.val] := by simp [List.getD, hj']
    rw [hdi, hdj]
    by_contra hgt
    have := sortPos_lt_of_key_lt key _ _ hj' hi' (not_le.mp hgt)
    omega

/-- Witness for C1: two bodies with keys in decreasing order. -/
theorem sort_permutation_witness :
    ∃ out, sort 2 [![1, 2, 3, 4], ![5, 6, 7, (8 : Int)]] [![0, 0, 0, 0], ![0, 0, 0, 0]] [1, 0]
        = some out ∧ out.length = 2 ∧
      (∃ π : Fin 2 → Fin 2, Function.Bijective π ∧
        ∀ i : Fin 2, ∃ b b', [![1, 2, 3, 4], ![5, 6, 7, (8 : Int)]][i.val]? = some b ∧
          out[(π i).val]? = some b' ∧ ∀ d : Fin 4, b' d = b d) ∧
      out.Perm [![1, 2, 3, 4], ![5, 6, 7, (8 : Int)]] :=
  sort_permutation 2 [![1, 2, 3, 4], ![5, 6, 7, (8 : Int)]] [![0, 0, 0, 0], ![0, 0, 0, 0]] [1, 0]
    (by decide) rfl rfl rfl (by decide)

/-- Counterexample to C1 as written: two bodies with the keys `0` and `2147483647`.  The
sum `Imax - Imin + 1 = 2^31` overflows `int`, so `sort` has no bucket array to count
in and writes no permutation. -/
theorem sort_permutation_counterexample :
    (1 : Nat) ≤ 2 ∧ (2147483647 : Int) < 2 ^ 31 ∧ (2147483647 : Int) - 0 + 1 = 2 ^ 31 ∧
    sort 2 [![1, 2, 3, 4], ![5, 6, 7, (8 : Int)]] [![0, 0, 0, 0], ![0, 0, 0, 0]]
      [0, 2147483647] = none := by
  refine ⟨by decide, by decide, by decide, ?_⟩
  simp [sort, forUp, sortMinMax, List.range_succ, int32]

/-- Witness for C2: the key array `[1, 0]`. -/
theorem sort_nondecreasing_witness :
    ∃ π : Fin 2 → Fin 2, Function.Bijective π ∧
      (∀ bodies bodies2 : List (Body4 Int), bodies.length = 2 → bodies2.length = 2 →
        ∃ out, sort 2 bodies bodies2 [1, 0] = some out ∧
          ∀ i : Fin 2, out[(π i).val]? = bodies[i.val]?) ∧
      ∀ i j : Fin 2, π i < π j → [1, (0 : Int)].getD i.val 0 ≤ [1, (0 : Int)].getD j.val 0 :=
  sort_nondecreasing 2 [1, 0] (by decide) rfl (by decide)

/-- Counterexample to C2 as written: two bodies with the keys `2147483647` and `-1`.  The
difference `Imax - Imin = 2^31` overflows `int`, so `sort` places no body. -/
theorem sort_nondecreasing_counterexample :
    (1 : Nat) ≤ 2 ∧ (2147483647 : Int) < 2 ^ 31 ∧ -(2 : Int) ^ 31 ≤ -1 ∧
    (2147483647 : Int) - (-1) = 2 ^ 31 ∧
    sort 2 [![1, 2, 3, 4], ![5, 6, 7, (8 : Int)]] [![0, 0, 0, 0], ![0, 0, 0, 0]]
      [2147483647, -1] = none := by
  refine ⟨by decide, by decide, by decide, by decide, ?_⟩
  simp [sort, forUp, sortMinMax, List.range_succ, int32]

/-! ### `fillLeafs` -/

end Fmm

/-! ### `P2P` without the mutual update -/

namespace HelmholtzKernel

theorem addTRG_TRG {K : Type} [Field K] (b : Body K) (c0 c1 c2 c3 : Cpx K) :
    (addTRG b c0 c1 c2 c3).TRG = b.TRG + ![c0, c1, c2, c3] := by
  funext d
  fin_cases d <;> simp [addTRG, Function.update]

theorem addTRG_X {K : Type} [Field K] (b : Body K) (c0 c1 c2 c3 : Cpx K) :
    (addTRG b c0 c1 c2 c3).X = b.X := rfl

theorem addTRG_SRC {K : Type} [Field K] (b : Body K) (c0 c1 c2 c3 : Cpx K) :
    (addTRG b c0 c1 c2 c3).SRC = b.SRC := rfl

theorem Acc.toTRG_zero {K : Type} [Field K] : (Acc.zero : Acc K).toTRG = 0 := by
  funext d
  fin_cases d <;> rfl

/-- Without the mutual update one pass of the inner loop leaves the bodies alone and
adds to the accumulators what it adds to zero accumulators. -/
theorem P2Pinner_false {K : Type} [Field K] [DecidableEq K] (fn : Cmath K) (kb : KernelBase K)
    (Bi Bj i j : Nat) (mi_r mi_i : K) (a : Acc K) (bodies : Nat → Body K) :
    (P2Pinner fn kb Bi Bj false i mi_r mi_i j (a, bodies)).2 = bodies ∧
    (P2Pinner fn kb Bi Bj false i mi_r mi_i j (a, bodies)).1.toTRG =
      a.toTRG + (P2Pinner fn kb Bi Bj false i mi_r mi_i j (Acc.zero, bodies)).1.toTRG := by
  unfold P2Pinner
  simp only
  split
  · refine ⟨by simp, ?_⟩
    funext d
    fin_cases d <;> simp [Acc.toTRG, Acc.zero]
  · refine ⟨rfl, ?_⟩
    simp [Acc.toTRG_zero]

theorem P2Pinner_fold_false {K : Type} [Field K] [DecidableEq K] (fn : Cmath K)
    (kb : KernelBase K) (Bi Bj i : Nat) (mi_r mi_i : K) (bodies : Nat → Body K)
    (l : List Nat) (a : Acc K) :
    (l.foldl (fun s j => P2Pinner fn kb Bi Bj false i mi_r mi_i j s) (a, bodies)).2 = bodies ∧
    (l.foldl (fun s j => P2Pinner fn kb Bi Bj false i mi_r mi_i j s) (a, bodies)).1.toTRG =
      a.toTRG + (l.map fun j =>
        (P2Pinner fn kb Bi Bj false i mi_r mi_i j (Acc.zero, bodies)).1.toTRG).sum := by
  induction l generalizing a with
  | nil => simp
  | cons j l ih =>
    obtain ⟨h1, h2⟩ := P2Pinner_false fn kb Bi Bj i j mi_r mi_i a bodies
    have e : P2Pinner fn kb Bi Bj false i mi_r mi_i j (a, bodies) =
        ((P2Pinner fn kb Bi Bj false i mi_r mi_i j (a, bodies)).1, bodies) :=
      Prod.ext rfl h1
    rw [List.foldl_cons, e]
    obtain ⟨h3, h4⟩ := ih (P2Pinner fn kb Bi Bj false i mi_r mi_i j (a, bodies)).1
    refine ⟨h3, ?_⟩
    rw [h4, h2, List.map_cons, List.sum_cons, add_assoc]

theorem innerTerm_eq_pairTerm {K : Type} [Field K] [DecidableEq K] (fn : Cmath K)
    (kb : KernelBase K) (Bi Bj i j : Nat) (bodies : Nat → Body K) :
    (P2Pinner fn kb Bi Bj false i (bodies (Bi + i)).SRC.1 (bodies (Bi + i)).SRC.2 j
      (Acc.zero, bodies)).1.toTRG = pairTerm fn kb bodies (Bi + i) (Bj + j) := rfl

/-- The pair term reads only the positions and the source strengths of the two bodies. -/
theorem pairTerm_congr {K : Type} [Field K] [DecidableEq K] (fn : Cmath K)
    (kb : KernelBase K) (bodies bodies' : Nat → Body K) (bi bj : Nat)
    (hXi : (bodies' bi).X = (bodies bi).X) (hSi : (bodies' bi).SRC = (bodies bi).SRC)
    (hXj : (bodies' bj).X = (bodies bj).X) (hSj : (bodies' bj).SRC = (bodies bj).SRC) :
    pairTerm fn kb bodies' bi bj = pairTerm fn kb bodies bi bj := by
  unfold pairTerm P2Pinner
  simp only [Nat.add_zero, hXi, hSi, hXj, hSj]
  split_ifs <;> rfl

theorem list_range_sum {M : Type} [AddCommMonoid M] (f : Nat → M) (n : Nat) :
    ((List.range n).map f).sum = ∑ j ∈ Finset.range n, f j := by
  induction n with
  | zero => simp
  | succ n ih => rw [List.range_succ, List.map_append, List.sum_append, ih,
      Finset.sum_range_succ]; simp

/-- One target of the non-mutual `P2P`: only body `Bi + i` changes, only in `TRG`, and
`TRG` grows by the sum of the pair terms over the sources. -/
theorem P2Pouter_false {K : Type} [Field K] [DecidableEq K] (fn : Cmath K)
    (kb : KernelBase K) (Bi Bj nj : Nat) (bodies : Nat → Body K) (i : Nat) :
    (∀ n, n ≠ Bi + i → P2Pouter fn kb Bi Bj nj false bodies i n = bodies n) ∧
    (P2Pouter fn kb Bi Bj nj false bodies i (Bi + i)).X = (bodies (Bi + i)).X ∧
    (P2Pouter fn kb Bi Bj nj false bodies i (Bi + i)).SRC = (bodies (Bi + i)).SRC ∧
    (P2Pouter fn kb Bi Bj nj false bodies i (Bi + i)).TRG = (bodies (Bi + i)).TRG +
      ∑ j ∈ Finset.range nj, pairTerm fn kb bodies (Bi + i) (Bj + j) := by
  obtain ⟨h1, h2⟩ := P2Pinner_fold_false fn kb Bi Bj i (bodies (Bi + i)).SRC.1
    (bodies (Bi + i)).SRC.2 bodies (List.range nj) Acc.zero
  unfold P2Pouter
  simp only [h1]
  refine ⟨fun n hn => Function.update_noteq hn _ _, ?_, ?_, ?_⟩
  · rw [Function.update_same, addTRG_X]
  · rw [Function.update_same, addTRG_SRC]
  · rw [Function.update_same, addTRG_TRG]
    congr 1
    have h3 : ∀ a : Acc K, ![(a.pot_r, a.pot_i), (a.ax_r, a.ax_i), (a.ay_r, a.ay_i),
        (a.az_r, a.az_i)] = a.toTRG := fun _ => rfl
    rw [h3, h2, Acc.toTRG_zero, zero_add, ← list_range_sum]
    rfl

/-- The non-mutual `P2P`: positions and source strengths never change, and the `TRG`
of target `Bi + i`, `i < ni`, grows by the sum over the sources of the pair terms. -/
theorem P2P_false_spec {K : Type} [Field K] [DecidableEq K] {NTERM : Nat} (fn : Cmath K)
    (kb : KernelBase K) (Ci Cj : Cell K NTERM) (bodies : Nat → Body K) (n : Nat) :
    (P2P fn kb Ci Cj false bodies n).X = (bodies n).X ∧
    (P2P fn kb Ci Cj false bodies n).SRC = (bodies n).SRC ∧
    (P2P fn kb Ci Cj false bodies n).TRG =
      if Ci.BODY ≤ n ∧ n < Ci.BODY + Ci.NBODY then
        (bodies n).TRG + ∑ j ∈ Finset.range Cj.NBODY, pairTerm fn kb bodies n (Cj.BODY + j)
      else (bodies n).TRG := by
  unfold P2P
  generalize Ci.NBODY = ni
  induction ni generalizing n with
  | zero =>
    refine ⟨rfl, rfl, ?_⟩
    rw [if_neg (by omega)]
    rfl
  | succ k ih =>
    rw [List.range_succ, List.foldl_append, List.foldl_cons, List.foldl_nil]
    obtain ⟨h1, h2, h3, h4⟩ := P2Pouter_false fn kb Ci.BODY Cj.BODY Cj.NBODY
      ((List.range k).foldl (P2Pouter fn kb Ci.BODY Cj.BODY Cj.NBODY false) bodies) k
    by_cases hn : n = Ci.BODY + k
    · subst hn
      obtain ⟨i1, i2, i3⟩ := ih (Ci.BODY + k)
      refine ⟨by rw [h2, i1], by rw [h3, i2], ?_⟩
      rw [h4, i3, if_neg (by omega), if_pos (by omega)]
      congr 1
      apply Finset.sum_congr rfl
      intro j _
      exact pairTerm_congr fn kb bodies _ _ _ i1 i2 (ih (Cj.BODY + j)).1 (ih (Cj.BODY + j)).2.1
    · obtain ⟨i1, i2, i3⟩ := ih n
      rw [h1 n hn]
      refine ⟨i1, i2, ?_⟩
      rw [i3]
      by_cases hr : Ci.BODY ≤ n ∧ n < Ci.BODY + k
      · rw [if_pos hr, if_pos (by omega)]
      · rw [if_neg hr, if_neg (by omega)]

/-! ### The pair term over the reals -/

theorem toComplex_add (a b : Cpx ℝ) : toComplex (a + b) = toComplex a + toComplex b := by
  apply Complex.ext <;> simp [toComplex]

theorem toComplex_zero : toComplex 0 = 0 := by
  apply Complex.ext <;> simp [toComplex]

theorem toComplex_sum (s : Finset Nat) (f : Nat → Cpx ℝ) :
    toComplex (∑ j ∈ s, f j) = ∑ j ∈ s, toComplex (f j) := by
  classical
  induction s using Finset.induction_on with
  | empty => simp [toComplex_zero]
  | insert h ih => rw [Finset.sum_insert h, Finset.sum_insert h, toComplex_add, ih]

theorem exp_ikr (k : Cpx ℝ) (r : ℝ) :
    Complex.exp (Complex.I * toComplex k * (r : ℂ)) =
      ⟨Real.cos (k.1 * r) / Real.exp (k.2 * r), Real.sin (k.1 * r) / Real.exp (k.2 * r)⟩ := by
  have hz : Complex.I * toComplex k * (r : ℂ) = ((-(k.2 * r) : ℝ) : ℂ) + ((k.1 * r : ℝ) : ℂ) * Complex.I := by
    apply Complex.ext <;> simp [toComplex]
  rw [hz, Complex.exp_add, Complex.exp_mul_I, ← Complex.ofReal_exp, ← Complex.ofReal_cos,
    ← Complex.ofReal_sin, Real.exp_neg]
  generalize Real.exp (k.2 * r) = E
  generalize Real.cos (k.1 * r) = c
  generalize Real.sin (k.1 * r) = s
  apply Complex.ext
  · simp only [Complex.mul_re, Complex.add_re, Complex.ofReal_re, Complex.ofReal_im,
      Complex.I_re, Complex.I_im, Complex.mul_im, Complex.add_im]
    ring
  · simp only [Complex.mul_re, Complex.add_re, Complex.ofReal_re, Complex.ofReal_im,
      Complex.I_re, Complex.I_im, Complex.mul_im, Complex.add_im]
    ring

/-- The potential component of the pair term is the Helmholtz kernel. -/
theorem pairTerm_pot (kb : KernelBase ℝ) (bodies : Nat → Body ℝ) (bi bj : Nat) :
    toComplex (pairTerm ⟨Real.sqrt, Real.exp, Real.cos, Real.sin⟩ kb bodies bi bj 0) =
      if pairR2 kb bodies bi bj ≠ 0 then
        toComplex (bodies bi).SRC * (toComplex (bodies bj).SRC *
          Complex.exp (Complex.I * toComplex kb.wavek * (Real.sqrt (pairR2 kb bodies bi bj) : ℂ)) /
            (Real.sqrt (pairR2 kb bodies bi bj) : ℂ))
      else 0 := by
  unfold pairTerm P2Pinner
  simp only [Nat.add_zero]
  rw [show (norm fun d => (bodies bi).X d - (bodies bj).X d - kb.Xperiodic d) + kb.eps2 = pairR2 kb bodies bi bj from rfl]
  generalize pairR2 kb bodies bi bj = R2
  simp only [Bool.false_eq_true, if_false]
  split_ifs with h
  · rw [exp_ikr]
    generalize Real.sqrt R2 = R
    generalize Real.exp (kb.wavek.2 * R) = E
    generalize Real.cos (kb.wavek.1 * R) = c
    generalize Real.sin (kb.wavek.1 * R) = s
    have hdiv : ∀ z : ℂ, z / (R : ℂ) = ⟨z.re / R, z.im / R⟩ := by
      intro z
      apply Complex.ext
      · exact Complex.div_ofReal_re z R
      · exact Complex.div_ofReal_im z R
    rw [hdiv]
    apply Complex.ext
    · simp only [toComplex, Acc.toTRG, Acc.zero, Complex.mul_re, Complex.mul_im,
        Matrix.cons_val_zero, zero_add]
      rw [div_mul_eq_div_div, div_mul_eq_div_div]
      ring
    · simp only [toComplex, Acc.toTRG, Acc.zero, Complex.mul_re, Complex.mul_im,
        Matrix.cons_val_zero, zero_add]
      rw [div_mul_eq_div_div, div_mul_eq_div_div]
      ring
  · exact toComplex_zero

/-- C5. `P2P(Ci, Cj, mutual=false)`, scalar path, over the reals with the real
`sqrt`, `exp`, `cos`, `sin`: for every target body `i` of `Ci`, `TRG[0]` increases by
`SRC_i * Σ_j SRC_j * exp(i*wavek*R_ij) / R_ij`, the sum running over the source bodies
`j` of `Cj` with `R2_ij ≠ 0`, where `R2_ij = |X_i - X_j - Xperiodic|^2 + eps2` and
`R_ij = sqrt(R2_ij)`. -/
theorem P2P_evaluates_kernel {NTERM : Nat} (kb : KernelBase ℝ) (Ci Cj : Cell ℝ NTERM)
    (bodies : Nat → Body ℝ) (i : Nat) (hi : i < Ci.NBODY) :
    toComplex ((P2P ⟨Real.sqrt, Real.exp, Real.cos, Real.sin⟩ kb Ci Cj false bodies
        (Ci.BODY + i)).TRG 0) =
      toComplex ((bodies (Ci.BODY + i)).TRG 0) +
        toComplex (bodies (Ci.BODY + i)).SRC *
          ∑ j ∈ (Finset.range Cj.NBODY).filter
              (fun j => pairR2 kb bodies (Ci.BODY + i) (Cj.BODY + j) ≠ 0),
            toComplex (bodies (Cj.BODY + j)).SRC *
              Complex.exp (Complex.I * toComplex kb.wavek *
                (Real.sqrt (pairR2 kb bodies (Ci.BODY + i) (Cj.BODY + j)) : ℂ)) /
              (Real.sqrt (pairR2 kb bodies (Ci.BODY + i) (Cj.BODY + j)) : ℂ) := by
  have h := (P2P_false_spec ⟨Real.sqrt, Real.exp, Real.cos, Real.sin⟩ kb Ci Cj bodies
    (Ci.BODY + i)).2.2
  rw [if_pos ⟨Nat.le_add_right _ _, by omega⟩] at h
  rw [h, Pi.add_apply, Finset.sum_apply, toComplex_add, toComplex_sum]
  congr 1
  rw [Finset.mul_sum, Finset.sum_filter]
  apply Finset.sum_congr rfl
  intro j _
  rw [pairTerm_pot]

/-- Witness for C5: one body at the origin acting on itself with softening `1`. -/
theorem P2P_evaluates_kernel_witness :
    toComplex ((P2P ⟨Real.sqrt, Real.exp, Real.cos, Real.sin⟩ (kbExample 1) (leafCell 0 1)
        (leafCell 0 1) false (fun _ => unitBody 0) ((leafCell 0 1).BODY + 0)).TRG 0) =
      toComplex (((fun _ => unitBody 0) ((leafCell 0 1).BODY + 0) : Body ℝ).TRG 0) +
        toComplex ((fun _ => unitBody 0) ((leafCell 0 1).BODY + 0) : Body ℝ).SRC *
          ∑ j ∈ (Finset.range (leafCell 0 1).NBODY).filter
              (fun j => pairR2 (kbExample 1) (fun _ => unitBody 0) ((leafCell 0 1).BODY + 0)
                ((leafCell 0 1).BODY + j) ≠ 0),
            toComplex ((fun _ => unitBody 0) ((leafCell 0 1).BODY + j) : Body ℝ).SRC *
              Complex.exp (Complex.I * toComplex (kbExample 1).wavek *
                (Real.sqrt (pairR2 (kbExample 1) (fun _ => unitBody 0) ((leafCell 0 1).BODY + 0)
                  ((leafCell 0 1).BODY + j)) : ℂ)) /
              (Real.sqrt (pairR2 (kbExample 1) (fun _ => unitBody 0) ((leafCell 0 1).BODY + 0)
                ((leafCell 0 1).BODY + j)) : ℂ) :=
  P2P_evaluates_kernel (kbExample 1) (leafCell 0 1) (leafCell 0 1) (fun _ => unitBody 0) 0
    Nat.one_pos

/-! ### The mutual update (C6) and the self term (C7) -/

/-- C6, the code at the failing input.  Cell `A` holds one body at `(1,0,0)`, cell `B`
one body at the origin, both of strength `1`; `wavek = 0`, `eps2 = 0`, `Xperiodic = 0`.
The single call `P2P(A, B, mutual=true)` leaves `TRG[1] = 1` on the body of `B`, while the
two calls `P2P(A, B, false); P2P(B, A, false)` leave `TRG[1] = -1` there. -/
theorem P2P_mutual_sign :
    (P2P ⟨Real.sqrt, Real.exp, Real.cos, Real.sin⟩ (kbExample 0) (leafCell 0 1) (leafCell 1 1)
      true twoBodies 1).TRG 1 = (1, 0) ∧
    (P2P ⟨Real.sqrt, Real.exp, Real.cos, Real.sin⟩ (kbExample 0) (leafCell 1 1) (leafCell 0 1)
      false (P2P ⟨Real.sqrt, Real.exp, Real.cos, Real.sin⟩ (kbExample 0) (leafCell 0 1)
        (leafCell 1 1) false twoBodies) 1).TRG 1 = (-1, 0) := by
  constructor
  · have hr : List.range 1 = [0] := rfl
    simp [P2P, hr, P2Pouter, P2Pinner, leafCell, kbExample, unitBody, twoBodies, norm, addTRG, Acc.zero, Function.update]
  · have hr : List.range 1 = [0] := rfl
    simp [P2P, hr, P2Pouter, P2Pinner, leafCell, kbExample, unitBody, twoBodies, norm, addTRG, Acc.zero, Function.update]


theorem pairR2_of_zero_displacement {K : Type} [Field K] (kb : KernelBase K)
    (bodies : Nat → Body K) (bi bj : Nat)
    (hdisp : ∀ d, (bodies bi).X d - (bodies bj).X d - kb.Xperiodic d = 0) :
    pairR2 kb bodies bi bj = kb.eps2 := by
  simp [pairR2, norm, hdisp]

theorem pairTerm_of_R2_eq_zero {K : Type} [Field K] [DecidableEq K] (fn : Cmath K)
    (kb : KernelBase K) (bodies : Nat → Body K) (bi bj : Nat)
    (h : pairR2 kb bodies bi bj = 0) : pairTerm fn kb bodies bi bj = 0 := by
  have hc : ¬ ((norm fun d => (bodies bi).X d - (bodies bj).X d - kb.Xperiodic d) + kb.eps2
      ≠ 0) := not_not.mpr h
  unfold pairTerm P2Pinner
  simp only [Nat.add_zero]
  rw [if_neg hc]
  exact Acc.toTRG_zero

end HelmholtzKernel

namespace UpDownPass

/-! ### Visiting orders on trees -/

theorem visitAll_cons_eq_some {f : Nat → Option (List Nat)} {c : Nat} {cs r : List Nat}
    (h : visitAll f (c :: cs) = some r) :
    ∃ a b, f c = some a ∧ visitAll f cs = some b ∧ r = a ++ b := by
  simp only [visitAll, Option.bind_eq_some] at h
  obtain ⟨a, ha, b, hb, hr⟩ := h
  exact ⟨a, b, ha, hb, (Option.some.inj hr).symm⟩

theorem visitAll_sublist {f : Nat → Option (List Nat)} {l r : List Nat}
    (h : visitAll f l = some r) : ∀ c ∈ l, ∃ v, f c = some v ∧ v.Sublist r := by
  induction l generalizing r with
  | nil => intro c hc; cases hc
  | cons c0 cs ih =>
    obtain ⟨a, b, ha, hb, hr⟩ := visitAll_cons_eq_some h
    subst hr
    intro c hc
    rcases List.mem_cons.mp hc with rfl | hc'
    · exact ⟨a, ha, List.sublist_append_left a b⟩
    · obtain ⟨v, hv, hs⟩ := ih hb c hc'
      exact ⟨v, hv, hs.trans (List.sublist_append_right a b)⟩

theorem visitAll_mem {f : Nat → Option (List Nat)} {l r : List Nat}
    (h : visitAll f l = some r) (x : Nat) :
    x ∈ r ↔ ∃ c ∈ l, ∃ v, f c = some v ∧ x ∈ v := by
  induction l generalizing r with
  | nil =>
    simp only [visitAll, Option.some.injEq] at h
    subst h
    simp
  | cons c0 cs ih =>
    obtain ⟨a, b, ha, hb, hr⟩ := visitAll_cons_eq_some h
    subst hr
    rw [List.mem_append, ih hb]
    constructor
    · rintro (hx | ⟨c, hc, v, hv, hx⟩)
      · exact ⟨c0, List.mem_cons_self _ _, a, ha, hx⟩
      · exact ⟨c, List.mem_cons_of_mem _ hc, v, hv, hx⟩
    · rintro ⟨c, hc, v, hv, hx⟩
      rcases List.mem_cons.mp hc with rfl | hc'
      · rw [ha] at hv
        cases hv
        exact Or.inl hx
      · exact Or.inr ⟨c, hc', v, hv, hx⟩

theorem visitAll_exists {f : Nat → Option (List Nat)} {l : List Nat}
    (h : ∀ c ∈ l, ∃ v, f c = some v) : ∃ r, visitAll f l = some r := by
  induction l with
  | nil => exact ⟨[], rfl⟩
  | cons c0 cs ih =>
    obtain ⟨a, ha⟩ := h c0 (List.mem_cons_self _ _)
    obtain ⟨b, hb⟩ := ih (fun c hc => h c (List.mem_cons_of_mem _ hc))
    exact ⟨a ++ b, by simp [visitAll, ha, hb]⟩

theorem visitAll_nodup {f : Nat → Option (List Nat)} {l r : List Nat}
    (h : visitAll f l = some r) (hl : l.Nodup)
    (hv : ∀ c ∈ l, ∀ v, f c = some v → v.Nodup)
    (hd : ∀ c ∈ l, ∀ c' ∈ l, c ≠ c' → ∀ v v', f c = some v → f c' = some v' →
      ∀ x, x ∈ v → x ∈ v' → False) : r.Nodup := by
  induction l generalizing r with
  | nil =>
    simp only [visitAll, Option.some.injEq] at h
    subst h
    exact List.nodup_nil
  | cons c0 cs ih =>
    obtain ⟨a, b, ha, hb, hr⟩ := visitAll_cons_eq_some h
    subst hr
    obtain ⟨hc0, hcs⟩ := List.nodup_cons.mp hl
    rw [List.nodup_append]
    refine ⟨hv c0 (List.mem_cons_self _ _) a ha,
      ih hb hcs (fun c hc => hv c (List.mem_cons_of_mem _ hc))
        (fun c hc c' hc' => hd c (List.mem_cons_of_mem _ hc) c' (List.mem_cons_of_mem _ hc')), ?_⟩
    intro x hxa hxb
    obtain ⟨c, hc, v, hfv, hxv⟩ := (visitAll_mem hb x).mp hxb
    have hne : c0 ≠ c := fun e => hc0 (e ▸ hc)
    exact hd c0 (List.mem_cons_self _ _) c (List.mem_cons_of_mem _ hc) hne a v ha hfv x hxa hxv

theorem visitOrder_succ_eq_some {post : Bool} {shape : List (Nat × Nat)} {fuel C : Nat}
    {vis : List Nat} (h : visitOrder post shape (fuel + 1) C = some vis) :
    ∃ sh sub, shape[C]? = some sh ∧
      visitAll (visitOrder post shape fuel) (List.range' sh.1 sh.2) = some sub ∧
      vis = if post then sub ++ [C] else C :: sub := by
  simp only [visitOrder, Option.bind_eq_some] at h
  obtain ⟨sh, hsh, sub, hsub, hr⟩ := h
  exact ⟨sh, sub, hsh, hsub, (Option.some.inj hr).symm⟩

theorem mem_children_iff {shape : List (Nat × Nat)} {C : Nat} {sh : Nat × Nat}
    (hsh : shape[C]? = some sh) (c : Nat) :
    c ∈ List.range' sh.1 sh.2 ↔ isChild shape C c := by
  rw [List.mem_range'_1]
  constructor
  · intro h
    exact ⟨sh, hsh, h.1, h.2⟩
  · rintro ⟨sh', hsh', h1, h2⟩
    rw [hsh] at hsh'
    cases hsh'
    exact ⟨h1, h2⟩

theorem mem_visit_iff {post : Bool} (sub : List Nat) (C x : Nat) :
    x ∈ (if post then sub ++ [C] else C :: sub) ↔ x = C ∨ x ∈ sub := by
  cases post <;> simp [or_comm]

/-- A traversal from `C` visits exactly `C` and its descendants. -/
theorem visitOrder_mem {post : Bool} {shape : List (Nat × Nat)} :
    ∀ (fuel C : Nat) (vis : List Nat), visitOrder post shape fuel C = some vis →
      ∀ x, x ∈ vis ↔ Relation.ReflTransGen (isChild shape) C x := by
  intro fuel
  induction fuel with
  | zero => intro C vis h; simp [visitOrder] at h
  | succ fuel ih =>
    intro C vis h x
    obtain ⟨sh, sub, hsh, hsub, hvis⟩ := visitOrder_succ_eq_some h
    subst hvis
    rw [mem_visit_iff, visitAll_mem hsub]
    constructor
    · rintro (rfl | ⟨c, hc, v, hv, hx⟩)
      · exact Relation.ReflTransGen.refl
      · exact Relation.ReflTransGen.head ((mem_children_iff hsh c).mp hc) ((ih c v hv x).mp hx)
    · intro hx
      rcases Relation.ReflTransGen.cases_head hx with rfl | ⟨c, hc, hcx⟩
      · exact Or.inl rfl
      · have hc' := (mem_children_iff hsh c).mpr hc
        obtain ⟨v, hv, _⟩ := visitAll_sublist hsub c hc'
        exact Or.inr ⟨c, hc', v, hv, (ih c v hv x).mpr hcx⟩

theorem isChild_parent_lt {shape : List (Nat × Nat)} {p c : Nat} (h : isChild shape p c) :
    p < shape.length := by
  obtain ⟨sh, hsh, _⟩ := h
  exact (List.getElem?_eq_some_iff.mp hsh).1

theorem TreeShaped.descendant_lt {shape : List (Nat × Nat)} (ht : TreeShaped shape) {c d : Nat}
    (h : Descendant shape c d) : d < shape.length := by
  rcases Relation.TransGen.tail'_iff.mp h with ⟨y, _, hyd⟩
  exact ht.inBounds y d hyd

/-- A tree has a rank function: a child ranks below its parent and all ranks are below
the number of cells. -/
theorem TreeShaped.exists_rank {shape : List (Nat × Nat)} (ht : TreeShaped shape) :
    ∃ m : Nat → Nat, (∀ p c, isChild shape p c → m c < m p) ∧ ∀ C, m C < shape.length := by
  classical
  refine ⟨fun C => ((Finset.range shape.length).filter (fun d => Descendant shape C d)).card,
    ?_, ?_⟩
  · intro p c h
    apply Finset.card_lt_card
    rw [Finset.ssubset_iff_of_subset]
    · refine ⟨c, ?_, ?_⟩
      · rw [Finset.mem_filter, Finset.mem_range]
        exact ⟨ht.inBounds p c h, Relation.TransGen.single h⟩
      · rw [Finset.mem_filter]
        exact fun hc => ht.acyclic c hc.2
    · intro d hd
      rw [Finset.mem_filter] at hd ⊢
      exact ⟨hd.1, Relation.TransGen.head h hd.2⟩
  · intro C
    by_cases hC : C < shape.length
    · have hlt : ((Finset.range shape.length).filter (fun d => Descendant shape C d)).card <
          (Finset.range shape.length).card := by
        apply Finset.card_lt_card
        rw [Finset.ssubset_iff_of_subset (Finset.filter_subset _ _)]
        exact ⟨C, Finset.mem_range.mpr hC, fun h => ht.acyclic C (Finset.mem_filter.mp h).2⟩
      rwa [Finset.card_range] at hlt
    · have hpos : 0 < shape.length := List.length_pos.mpr ht.nonempty
      have hempty : (Finset.range shape.length).filter (fun d => Descendant shape C d) = ∅ := by
        rw [Finset.filter_eq_empty_iff]
        intro d _ hd
        rcases Relation.TransGen.head'_iff.mp hd with ⟨y, hCy, _⟩
        exact hC (isChild_parent_lt hCy)
      simp only [hempty, Finset.card_empty]
      exact hpos

/-- With fuel above the rank of a cell the traversal from that cell reaches its end. -/
theorem visitOrder_succeeds_of_rank {shape : List (Nat × Nat)} (post : Bool) (m : Nat → Nat)
    (hb : ∀ p c, isChild shape p c → c < shape.length)
    (hm : ∀ p c, isChild shape p c → m c < m p) :
    ∀ (fuel C : Nat), C < shape.length → m C < fuel →
      ∃ vis, visitOrder post shape fuel C = some vis := by
  intro fuel
  induction fuel with
  | zero => intro C _ h; exact absurd h (Nat.not_lt_zero _)
  | succ fuel ih =>
    intro C hC hrank
    have hsh : shape[C]? = some shape[C] := List.getElem?_eq_getElem hC
    obtain ⟨sub, hsub⟩ := visitAll_exists (f := visitOrder post shape fuel)
      (l := List.range' shape[C].1 shape[C].2) (by
        intro c hc
        have hch := (mem_children_iff hsh c).mp hc
        exact ih c (hb C c hch) (lt_of_lt_of_le (hm C c hch) (Nat.lt_succ_iff.mp hrank)))
    exact ⟨if post then sub ++ [C] else C :: sub,
      by simp only [visitOrder, hsh, Option.some_bind, hsub]⟩

/-- In a tree, fuel equal to the number of cells is enough for a traversal from any cell. -/
theorem TreeShaped.visitOrder_succeeds {shape : List (Nat × Nat)} (ht : TreeShaped shape)
    (post : Bool) (fuel C : Nat) (hC : C < shape.length) (hfuel : shape.length ≤ fuel) :
    ∃ vis, visitOrder post shape fuel C = some vis := by
  obtain ⟨m, hm, hlt⟩ := ht.exists_rank
  exact visitOrder_succeeds_of_rank post m ht.inBounds hm fuel C hC
    (lt_of_lt_of_le (hlt C) hfuel)

/-- In a tree every cell is the root or a descendant of the root. -/
theorem TreeShaped.root_reaches {shape : List (Nat × Nat)} (ht : TreeShaped shape) :
    ∀ c, c < shape.length → Relation.ReflTransGen (isChild shape) 0 c := by
  classical
  have key : ∀ k c, c < shape.length →
      ((Finset.range shape.length).filter (fun a => Descendant shape a c)).card ≤ k →
      Relation.ReflTransGen (isChild shape) 0 c := by
    intro k
    induction k with
    | zero =>
      intro c hc hcard
      rcases Nat.eq_zero_or_pos c with rfl | hpos
      · exact Relation.ReflTransGen.refl
      · obtain ⟨p, hp, _⟩ := ht.uniqueParent c hpos hc
        have hmem : p ∈ (Finset.range shape.length).filter (fun a => Descendant shape a c) := by
          rw [Finset.mem_filter, Finset.mem_range]
          exact ⟨isChild_parent_lt hp, Relation.TransGen.single hp⟩
        have := Finset.card_pos.mpr ⟨p, hmem⟩
        omega
    | succ k ih =>
      intro c hc hcard
      rcases Nat.eq_zero_or_pos c with rfl | hpos
      · exact Relation.ReflTransGen.refl
      · obtain ⟨p, hp, _⟩ := ht.uniqueParent c hpos hc
        have hlt : ((Finset.range shape.length).filter (fun a => Descendant shape a p)).card <
            ((Finset.range shape.length).filter (fun a => Descendant shape a c)).card := by
          apply Finset.card_lt_card
          rw [Finset.ssubset_iff_of_subset]
          · refine ⟨p, ?_, ?_⟩
            · rw [Finset.mem_filter, Finset.mem_range]
              exact ⟨isChild_parent_lt hp, Relation.TransGen.single hp⟩
            · rw [Finset.mem_filter]
              exact fun h => ht.acyclic p h.2
          · intro a ha
            rw [Finset.mem_filter] at ha ⊢
            exact ⟨ha.1, Relation.TransGen.tail ha.2 hp⟩
        exact (ih p (isChild_parent_lt hp) (by omega)).tail hp
  intro c hc
  exact key _ c hc le_rfl

/-- In a tree the root lies in no child range. -/
theorem TreeShaped.root_not_child {shape : List (Nat × Nat)} (ht : TreeShaped shape) (p : Nat) :
    ¬ isChild shape p 0 := by
  intro h
  have hr := ht.root_reaches p (isChild_parent_lt h)
  exact ht.acyclic 0 (Relation.TransGen.tail' hr h)

theorem TreeShaped.parent_unique {shape : List (Nat × Nat)} (ht : TreeShaped shape)
    {p p' c : Nat} (h : isChild shape p c) (h' : isChild shape p' c) : p = p' := by
  have hc : c < shape.length := ht.inBounds p c h
  have hpos : 0 < c := by
    rcases Nat.eq_zero_or_pos c with rfl | hpos
    · exact absurd h (ht.root_not_child p)
    · exact hpos
  exact (ht.uniqueParent c hpos hc).unique h h'

/-- In a tree two ancestors-or-selves of one cell are comparable. -/
theorem TreeShaped.ancestors_chain {shape : List (Nat × Nat)} (ht : TreeShaped shape)
    {a x : Nat} (hax : Relation.ReflTransGen (isChild shape) a x) :
    ∀ b, Relation.ReflTransGen (isChild shape) b x →
      Relation.ReflTransGen (isChild shape) a b ∨ Relation.ReflTransGen (isChild shape) b a := by
  induction hax with
  | refl => intro b hb; exact Or.inr hb
  | @tail y x hay hyx ih =>
    intro b hb
    rcases Relation.ReflTransGen.cases_tail hb with rfl | ⟨y', hby', hy'x⟩
    · exact Or.inl (hay.tail hyx)
    · have : y' = y := ht.parent_unique hy'x hyx
      subst this
      exact ih b hby'

/-- In a tree the subtrees of two different children of one cell are disjoint. -/
theorem TreeShaped.siblings_disjoint {shape : List (Nat × Nat)} (ht : TreeShaped shape)
    {C c c' x : Nat} (hc : isChild shape C c) (hc' : isChild shape C c') (hne : c ≠ c')
    (hx : Relation.ReflTransGen (isChild shape) c x)
    (hx' : Relation.ReflTransGen (isChild shape) c' x) : False := by
  have aux : ∀ {u v : Nat}, isChild shape C u → isChild shape C v → u ≠ v →
      Relation.ReflTransGen (isChild shape) u v → False := by
    intro u v hu hv huv huv'
    rcases Relation.ReflTransGen.cases_tail huv' with h | ⟨y, huy, hyv⟩
    · exact huv h.symm
    · have : y = C := ht.parent_unique hyv hv
      subst this
      exact ht.acyclic y (Relation.TransGen.head' hu huy)
  rcases ht.ancestors_chain hx c' hx' with h | h
  · exact aux hc hc' hne h
  · exact aux hc' hc hne.symm h

/-- In a tree a traversal visits no cell twice. -/
theorem TreeShaped.visitOrder_nodup {shape : List (Nat × Nat)} (ht : TreeShaped shape)
    (post : Bool) : ∀ (fuel C : Nat) (vis : List Nat),
      visitOrder post shape fuel C = some vis → vis.Nodup := by
  intro fuel
  induction fuel with
  | zero => intro C vis h; simp [visitOrder] at h
  | succ fuel ih =>
    intro C vis h
    obtain ⟨sh, sub, hsh, hsub, hvis⟩ := visitOrder_succ_eq_some h
    subst hvis
    have hsubnd : sub.Nodup := by
      apply visitAll_nodup hsub (List.nodup_range' _ _)
      · intro c _ v hv
        exact ih c v hv
      · intro c hc c' hc' hne v v' hv hv' x hxv hxv'
        exact ht.siblings_disjoint ((mem_children_iff hsh c).mp hc)
          ((mem_children_iff hsh c').mp hc') hne ((visitOrder_mem fuel c v hv x).mp hxv)
          ((visitOrder_mem fuel c' v' hv' x).mp hxv')
    have hCsub : C ∉ sub := by
      intro hC
      obtain ⟨c, hc, v, hv, hCv⟩ := (visitAll_mem hsub C).mp hC
      exact ht.acyclic C (Relation.TransGen.head' ((mem_children_iff hsh c).mp hc)
        ((visitOrder_mem fuel c v hv C).mp hCv))
    cases post
    · simpa using ⟨hCsub, hsubnd⟩
    · simp only [if_true]
      rw [List.nodup_append]
      exact ⟨hsubnd, List.nodup_singleton C, by
        intro x hx hx'
        rw [List.mem_singleton] at hx'
        exact hCsub (hx' ▸ hx)⟩

theorem descendant_mem_sub {shape : List (Nat × Nat)} {post : Bool}
    {fuel C d : Nat} {sh : Nat × Nat} {sub : List Nat} (hsh : shape[C]? = some sh)
    (hsub : visitAll (visitOrder post shape fuel) (List.range' sh.1 sh.2) = some sub)
    (hd : Descendant shape C d) : d ∈ sub := by
  rcases Relation.TransGen.head'_iff.mp hd with ⟨ch, hch, hchd⟩
  obtain ⟨v, hv, hvs⟩ := visitAll_sublist hsub ch ((mem_children_iff hsh ch).mpr hch)
  exact hvs.subset ((visitOrder_mem fuel ch v hv d).mpr hchd)

/-- Post-order: in the visiting order of `postOrderTraversal` every descendant
of a visited cell comes before that cell. -/
theorem postOrder_descendant_first {shape : List (Nat × Nat)} :
    ∀ (fuel C : Nat) (vis : List Nat),
      visitOrder true shape fuel C = some vis →
      ∀ c d, c ∈ vis → Descendant shape c d → [d, c].Sublist vis := by
  intro fuel
  induction fuel with
  | zero => intro C vis h; simp [visitOrder] at h
  | succ fuel ih =>
    intro C vis h c d hc hcd
    obtain ⟨sh, sub, hsh, hsub, hvis⟩ := visitOrder_succ_eq_some h
    simp only [if_true] at hvis
    subst hvis
    rcases List.mem_append.mp hc with hcs | hcC
    · obtain ⟨ch, hch, v, hv, hcv⟩ := (visitAll_mem hsub c).mp hcs
      obtain ⟨v', hv', hvs⟩ := visitAll_sublist hsub ch hch
      rw [hv] at hv'
      cases hv'
      exact ((ih ch v hv c d hcv hcd).trans hvs).trans (List.sublist_append_left sub [C])
    · rw [List.mem_singleton] at hcC
      subst hcC
      have hds : d ∈ sub := descendant_mem_sub hsh hsub hcd
      exact List.Sublist.append (List.singleton_sublist.mpr hds) (List.Sublist.refl [c])

/-- Pre-order: in the visiting order of `preOrderTraversal` every visited cell comes
before each of its descendants. -/
theorem preOrder_descendant_last {shape : List (Nat × Nat)} :
    ∀ (fuel C : Nat) (vis : List Nat),
      visitOrder false shape fuel C = some vis →
      ∀ c d, c ∈ vis → Descendant shape c d → [c, d].Sublist vis := by
  intro fuel
  induction fuel with
  | zero => intro C vis h; simp [visitOrder] at h
  | succ fuel ih =>
    intro C vis h c d hc hcd
    obtain ⟨sh, sub, hsh, hsub, hvis⟩ := visitOrder_succ_eq_some h
    simp only [Bool.false_eq_true, if_false] at hvis
    subst hvis
    rcases List.mem_cons.mp hc with hcC | hcs
    · subst hcC
      have hds : d ∈ sub := descendant_mem_sub hsh hsub hcd
      exact List.Sublist.cons₂ c (List.singleton_sublist.mpr hds)
    · obtain ⟨ch, hch, v, hv, hcv⟩ := (visitAll_mem hsub c).mp hcs
      obtain ⟨v', hv', hvs⟩ := visitAll_sublist hsub ch hch
      rw [hv] at hv'
      cases hv'
      exact ((ih ch v hv c d hcv hcd).trans hvs).trans (List.sublist_cons_self C sub)

/-- In a tree the traversal from the root visits every cell exactly once. -/
theorem TreeShaped.visitOrder_root {shape : List (Nat × Nat)} (ht : TreeShaped shape)
    (post : Bool) (fuel : Nat) (vis : List Nat) (h : visitOrder post shape fuel 0 = some vis) :
    vis.Nodup ∧ ∀ x, x ∈ vis ↔ x < shape.length := by
  refine ⟨ht.visitOrder_nodup post fuel 0 vis h, fun x => ?_⟩
  rw [visitOrder_mem fuel 0 vis h x]
  constructor
  · intro hx
    rcases Relation.reflTransGen_iff_eq_or_transGen.mp hx with rfl | hd
    · exact List.length_pos.mpr ht.nonempty
    · exact ht.descendant_lt hd
  · exact ht.root_reaches x

/-! ### The upward pass follows the post-order -/

theorem shapeOf_getElem? {K : Type} {NTERM : Nat} (cells : List (Cell K NTERM)) (i : Nat) :
    (shapeOf cells)[i]? = (cells[i]?).map fun c => (c.ICHILD, c.NCHILD) := by
  unfold shapeOf
  rw [List.getElem?_map]

theorem shapeOf_length {K : Type} {NTERM : Nat} (cells : List (Cell K NTERM)) :
    (shapeOf cells).length = cells.length := by
  unfold shapeOf
  rw [List.length_map]

theorem length_eq_of_shapeOf_eq {K : Type} {NTERM : Nat} {cells cells' : List (Cell K NTERM)}
    (h : shapeOf cells' = shapeOf cells) : cells'.length = cells.length := by
  rw [← shapeOf_length cells', ← shapeOf_length cells, h]

theorem shapeOf_set {K : Type} {NTERM : Nat} (cells : List (Cell K NTERM)) (C : Nat)
    (c c' : Cell K NTERM) (hc : cells[C]? = some c) (h1 : c'.ICHILD = c.ICHILD)
    (h2 : c'.NCHILD = c.NCHILD) : shapeOf (cells.set C c') = shapeOf cells := by
  apply List.ext_getElem?
  intro i
  rw [shapeOf_getElem?, shapeOf_getElem?, List.getElem?_set]
  split
  · rename_i hi
    subst hi
    have hlt : C < cells.length := (List.getElem?_eq_some_iff.mp hc).1
    rw [if_pos hlt, hc]
    simp [h1, h2]
  · rfl

theorem foldl_update_zero {K : Type} [Field K] {NTERM : Nat} (l : List (Fin NTERM))
    (v : Fin NTERM → Cpx K) (n : Fin NTERM) :
    (l.foldl (fun v n => Function.update v n 0) v) n = if n ∈ l then 0 else v n := by
  induction l generalizing v with
  | nil => simp
  | cons a l ih =>
    rw [List.foldl_cons, ih]
    by_cases hn : n ∈ l
    · simp [hn]
    · by_cases hna : n = a
      · subst hna
        simp [hn]
      · simp [hn, hna, Function.update_noteq hna]

theorem zeroExpansion_eq {K : Type} [Field K] {NTERM : Nat} (v : Fin NTERM → Cpx K) :
    zeroExpansion v = 0 := by
  funext n
  unfold zeroExpansion
  rw [foldl_update_zero, if_pos (List.mem_finRange n)]
  rfl

theorem upwardEffect_refl {K : Type} [Field K] {NTERM : Nat} (theta : K) (s : State K NTERM) :
    UpwardEffect theta s s [] := by
  refine ⟨rfl, rfl, ⟨[], by simp, by simp, by simp⟩, fun i => ?_⟩
  cases s.cells[i]? <;> simp

theorem upwardEffect_trans {K : Type} [Field K] {NTERM : Nat} {theta : K}
    {s s1 s2 : State K NTERM} {v1 v2 : List Nat} (h1 : UpwardEffect theta s s1 v1)
    (h2 : UpwardEffect theta s1 s2 v2) : UpwardEffect theta s s2 (v1 ++ v2) := by
  obtain ⟨a1, b1, ⟨ev1, t1, m1, z1⟩, r1⟩ := h1
  obtain ⟨a2, b2, ⟨ev2, t2, m2, z2⟩, r2⟩ := h2
  refine ⟨a2.trans a1, b2.trans b1, ⟨ev1 ++ ev2, ?_, ?_, ?_⟩, fun i => ?_⟩
  · rw [t2, t1, List.append_assoc]
  · rw [List.map_append, List.map_append, m1, m2, a1]
  · intro e he
    rcases List.mem_append.mp he with h | h
    · exact z1 e h
    · exact z2 e h
  · have e1 := r1 i
    have e2 := r2 i
    rw [e2]
    cases hs : s.cells[i]? with
    | none =>
      rw [hs] at e1
      simp only [Option.map_none', Option.map_eq_none'] at e1
      rw [e1]
      rfl
    | some c =>
      rw [hs] at e1
      simp only [Option.map_some', Option.map_eq_some'] at e1
      obtain ⟨c1, hc1, hrs⟩ := e1
      rw [hc1]
      simp only [Option.map_some', Option.some.injEq, Prod.mk.injEq]
      have hR : c1.R = c.R / theta ^ List.count i v1 := (Prod.mk.inj hrs).1
      have hS : c1.SCALE = c.SCALE := (Prod.mk.inj hrs).2
      rw [hR, hS, List.count_append, pow_add, div_div]
      exact ⟨rfl, rfl⟩

theorem cell_of_shape {K : Type} {NTERM : Nat} {cells : List (Cell K NTERM)} {C : Nat}
    {sh : Nat × Nat} (h : (shapeOf cells)[C]? = some sh) :
    ∃ c, cells[C]? = some c ∧ c.ICHILD = sh.1 ∧ c.NCHILD = sh.2 := by
  rw [shapeOf_getElem?, Option.map_eq_some'] at h
  obtain ⟨c, hc, hsh⟩ := h
  exact ⟨c, hc, congrArg Prod.fst hsh, congrArg Prod.snd hsh⟩

theorem upCall_eq {K : Type} {NTERM : Nat} {cells : List (Cell K NTERM)} {C : Nat}
    {c : Cell K NTERM} (hc : cells[C]? = some c) :
    upCall (shapeOf cells) C = if c.NCHILD = 0 then Call.P2M C else Call.M2M C := by
  have h : (shapeOf cells).getD C (0, 0) = (c.ICHILD, c.NCHILD) := by
    rw [List.getD_eq_getElem?_getD, shapeOf_getElem?, hc]
    rfl
  unfold upCall
  rw [h]

theorem postOrderTraversal_children {K : Type} [Field K] {NTERM : Nat}
    (kernel : Kernel K NTERM) (theta : K) (fuel : Nat)
    (ih : ∀ (C : Nat) (s : State K NTERM) (vis : List Nat),
      visitOrder true (shapeOf s.cells) fuel C = some vis →
      ∃ s', postOrderTraversal kernel theta fuel C s = some s' ∧ UpwardEffect theta s s' vis) :
    ∀ (l : List Nat) (s : State K NTERM) (sub : List Nat),
      visitAll (visitOrder true (shapeOf s.cells) fuel) l = some sub →
      ∃ s1, l.foldlM (fun s CC => postOrderTraversal kernel theta fuel CC s) s = some s1 ∧
        UpwardEffect theta s s1 sub := by
  intro l
  induction l with
  | nil =>
    intro s sub h
    simp only [visitAll, Option.some.injEq] at h
    subst h
    exact ⟨s, rfl, upwardEffect_refl theta s⟩
  | cons c cs ihl =>
    intro s sub h
    obtain ⟨a, b, ha, hb, hr⟩ := visitAll_cons_eq_some h
    subst hr
    obtain ⟨s', hs', he'⟩ := ih c s a ha
    rw [← he'.1] at hb
    obtain ⟨s1, hs1, he1⟩ := ihl s' b hb
    refine ⟨s1, ?_, upwardEffect_trans he' he1⟩
    rw [List.foldlM_cons, hs']
    exact hs1

/-- The function `postOrderTraversal` follows the post-order: whenever the visiting order from `C`
exists for the given fuel, the traversal succeeds and has the upward effect along it. -/
theorem postOrderTraversal_spec {K : Type} [Field K] {NTERM : Nat} (kernel : Kernel K NTERM)
    (theta : K) : ∀ (fuel C : Nat) (s : State K NTERM) (vis : List Nat),
      visitOrder true (shapeOf s.cells) fuel C = some vis →
      ∃ s', postOrderTraversal kernel theta fuel C s = some s' ∧ UpwardEffect theta s s' vis := by
  intro fuel
  induction fuel with
  | zero => intro C s vis h; simp [visitOrder] at h
  | succ fuel ih =>
    intro C s vis h
    obtain ⟨sh, sub, hsh, hsub, hvis⟩ := visitOrder_succ_eq_some h
    simp only [if_true] at hvis
    subst hvis
    obtain ⟨c, hc, hci, hcn⟩ := cell_of_shape hsh
    rw [← hci, ← hcn] at hsub
    obtain ⟨s1, hs1, he1⟩ := postOrderTraversal_children kernel theta fuel ih _ s sub hsub
    have hsh1 : (shapeOf s1.cells)[C]? = some sh := by rw [he1.1]; exact hsh
    obtain ⟨c1, hc1, _, _⟩ := cell_of_shape hsh1
    refine ⟨_, by simp only [postOrderTraversal, hc, Option.some_bind, hs1, hc1]; rfl, ?_⟩
    refine upwardEffect_trans he1 ⟨?_, rfl, ⟨_, rfl, ?_, ?_⟩, fun i => ?_⟩
    · simp only [List.set_set]
      exact shapeOf_set s1.cells C c1 _ hc1 (by split_ifs <;> rfl) (by split_ifs <;> rfl)
    · simp only [List.map_cons, List.map_nil, upCall_eq hc1]
    · intro e he
      rw [List.mem_singleton] at he
      subst he
      exact ⟨zeroExpansion_eq _, zeroExpansion_eq _⟩
    · simp only [List.set_set, List.getElem?_set]
      have hlt : C < s1.cells.length := (List.getElem?_eq_some_iff.mp hc1).1
      by_cases hi : C = i
      · subst hi
        rw [if_pos rfl, if_pos hlt, hc1]
        simp only [Option.map_some', List.count_singleton_self, pow_one, Option.some.injEq,
          Prod.mk.injEq]
        constructor <;> split_ifs <;> rfl
      · rw [if_neg hi]
        have hcount : List.count i [C] = 0 := List.count_eq_zero.mpr (by simpa using Ne.symm hi)
        simp only [hcount, pow_zero, div_one]

theorem shapeOf_map_scale {K : Type} [Field K] {NTERM : Nat} (cells : List (Cell K NTERM)) :
    shapeOf (cells.map fun c => { c with SCALE := 2 * c.R }) = shapeOf cells := by
  unfold shapeOf
  rw [List.map_map]
  rfl

theorem upCall_injective (shape : List (Nat × Nat)) : Function.Injective (upCall shape) := by
  intro a b h
  unfold upCall at h
  split_ifs at h <;> cases h <;> rfl

/-- The upward pass on a tree: it succeeds with fuel at least the number of cells and
has the upward effect, on the rescaled cells, along an order that visits every cell
exactly once. -/
theorem upwardPass_spec {K : Type} [Field K] {NTERM : Nat} (kernel : Kernel K NTERM)
    (theta : K) (fuel : Nat) (s : State K NTERM) (ht : TreeShaped (shapeOf s.cells))
    (hfuel : s.cells.length ≤ fuel) :
    ∃ s' vis, upwardPass kernel theta fuel s = some s' ∧
      visitOrder true (shapeOf s.cells) fuel 0 = some vis ∧
      UpwardEffect theta { s with cells := s.cells.map fun c => { c with SCALE := 2 * c.R } }
        s' vis := by
  have hpos : 0 < (shapeOf s.cells).length := List.length_pos.mpr ht.nonempty
  obtain ⟨vis, hvis⟩ := ht.visitOrder_succeeds true fuel 0 hpos
    (by rw [shapeOf_length]; exact hfuel)
  have hvis' : visitOrder true (shapeOf ({ s with cells := s.cells.map fun c =>
      { c with SCALE := 2 * c.R } } : State K NTERM).cells) fuel 0 = some vis := by
    rw [shapeOf_map_scale]
    exact hvis
  obtain ⟨s', hs', he⟩ := postOrderTraversal_spec kernel theta fuel 0 _ vis hvis'
  refine ⟨s', vis, ?_, hvis, he⟩
  have hne : s.cells ≠ [] := by
    intro h
    rw [h] at hpos
    exact absurd hpos (by simp [shapeOf])
  have hemp : (!s.cells.isEmpty) = true := by
    cases hcs : s.cells with
    | nil => exact absurd hcs hne
    | cons a l => rfl
  unfold upwardPass
  rw [if_pos hemp]
  exact hs'

/-- C8. Upward pass order: on a non-empty cell array that forms a tree rooted at index
`0` through the child ranges, `upwardPass` terminates (it succeeds with any fuel from
the number of cells on) and logs exactly one expansion-kernel call per cell, `P2M` if
`NCHILD == 0` and `M2M` otherwise; the call on a cell comes after the calls on all its
descendants; and at each call the `M` and `L` of the cell are zero. -/
theorem upwardPass_postorder {K : Type} [Field K] {NTERM : Nat} (kernel : Kernel K NTERM)
    (theta : K) (fuel : Nat) (s : State K NTERM) (ht : TreeShaped (shapeOf s.cells))
    (hfuel : s.cells.length ≤ fuel) :
    ∃ s' ev, upwardPass kernel theta fuel s = some s' ∧ s'.trace = s.trace ++ ev ∧
      (ev.map Prod.fst).Nodup ∧
      (∀ call, call ∈ ev.map Prod.fst ↔
        ∃ C, C < s.cells.length ∧ call = upCall (shapeOf s.cells) C) ∧
      (∀ c d, Descendant (shapeOf s.cells) c d →
        [upCall (shapeOf s.cells) d, upCall (shapeOf s.cells) c].Sublist (ev.map Prod.fst)) ∧
      (∀ e ∈ ev, e.2.M = 0 ∧ e.2.L = 0) := by
  obtain ⟨s', vis, hrun, hvis, _, _, ⟨ev, htr, hmap, hzero⟩, _⟩ :=
    upwardPass_spec kernel theta fuel s ht hfuel
  obtain ⟨hnd, hmem⟩ := ht.visitOrder_root true fuel vis hvis
  simp only [shapeOf_map_scale] at hmap
  refine ⟨s', ev, hrun, htr, ?_, ?_, ?_, hzero⟩
  · rw [hmap]
    exact hnd.map (upCall_injective _)
  · intro call
    rw [hmap, List.mem_map]
    constructor
    · rintro ⟨C, hC, rfl⟩
      exact ⟨C, by rw [← shapeOf_length]; exact (hmem C).mp hC, rfl⟩
    · rintro ⟨C, hC, rfl⟩
      exact ⟨C, (hmem C).mpr (by rw [shapeOf_length]; exact hC), rfl⟩
  · intro c d hcd
    rw [hmap]
    have hc : c ∈ vis := by
      rw [hmem c]
      rcases Relation.TransGen.head'_iff.mp hcd with ⟨y, hcy, _⟩
      exact isChild_parent_lt hcy
    exact (postOrder_descendant_first fuel 0 vis hvis c d hc hcd).map (upCall (shapeOf s.cells))

/-- C9. Radius baking in the upward pass: on a tree-shaped non-empty cell array and for
`theta ≠ 0`, after `upwardPass` every cell has `SCALE` equal to twice the radius `R` it
had before the call and `R` equal to the former `R` divided by `theta` exactly once,
hence `SCALE = 2 * theta * R`. -/
theorem upwardPass_radius {K : Type} [Field K] {NTERM : Nat} (kernel : Kernel K NTERM)
    (theta : K) (fuel : Nat) (s : State K NTERM) (ht : TreeShaped (shapeOf s.cells))
    (hfuel : s.cells.length ≤ fuel) (htheta : theta ≠ 0) :
    ∃ s', upwardPass kernel theta fuel s = some s' ∧ s'.cells.length = s.cells.length ∧
      ∀ (i : Nat) (c : Cell K NTERM), s.cells[i]? = some c →
        ∃ c' : Cell K NTERM, s'.cells[i]? = some c' ∧ c'.SCALE = 2 * c.R ∧
          c'.R = c.R / theta ∧
          c'.SCALE = 2 * theta * c'.R := by
  obtain ⟨s', vis, hrun, hvis, hshape, _, _, hcells⟩ :=
    upwardPass_spec kernel theta fuel s ht hfuel
  obtain ⟨hnd, hmem⟩ := ht.visitOrder_root true fuel vis hvis
  refine ⟨s', hrun, ?_, ?_⟩
  · have := length_eq_of_shapeOf_eq hshape
    simpa using this
  · intro i c hc
    have hi : i < s.cells.length := (List.getElem?_eq_some_iff.mp hc).1
    have hcount : List.count i vis = 1 :=
      List.count_eq_one_of_mem hnd ((hmem i).mpr (by rw [shapeOf_length]; exact hi))
    have h := hcells i
    simp only [List.getElem?_map, hc, Option.map_some', hcount, pow_one,
      Option.map_eq_some'] at h
    obtain ⟨c', hc', hrs⟩ := h
    have hR : c'.R = c.R / theta := (Prod.mk.inj hrs).1
    have hS : c'.SCALE = 2 * c.R := (Prod.mk.inj hrs).2
    refine ⟨c', hc', hS, hR, ?_⟩
    rw [hS, hR]
    field_simp
    ring

/-! ### The downward pass follows the pre-order -/

theorem parents_set {K : Type} {NTERM : Nat} (cells : List (Cell K NTERM)) (C : Nat)
    (c c' : Cell K NTERM) (hc : cells[C]? = some c) (h : c'.IPARENT = c.IPARENT) :
    (cells.set C c').map (fun c => c.IPARENT) = cells.map (fun c => c.IPARENT) := by
  apply List.ext_getElem?
  intro i
  rw [List.getElem?_map, List.getElem?_map, List.getElem?_set]
  split
  · rename_i hi
    subst hi
    have hlt : C < cells.length := (List.getElem?_eq_some_iff.mp hc).1
    rw [if_pos hlt, hc]
    simp [h]
  · rfl

theorem ParentsInBounds.of_eq {K : Type} {NTERM : Nat} {useWeight : Bool}
    {cells cells' : List (Cell K NTERM)} (hp : ParentsInBounds useWeight cells)
    (h1 : shapeOf cells' = shapeOf cells)
    (h2 : cells'.map (fun c => c.IPARENT) = cells.map (fun c => c.IPARENT)) :
    ParentsInBounds useWeight cells' := by
  intro hw i c' hc'
  have hlen := length_eq_of_shapeOf_eq h1
  have hi : i < cells.length := by
    rw [← hlen]
    exact (List.getElem?_eq_some_iff.mp hc').1
  have h3 : (cells'.map (fun c => c.IPARENT))[i]? = (cells.map (fun c => c.IPARENT))[i]? := by
    rw [h2]
  rw [List.getElem?_map, List.getElem?_map, hc', List.getElem?_eq_getElem hi] at h3
  simp only [Option.map_some', Option.some.injEq] at h3
  rw [h3, hlen]
  exact hp hw i cells[i] (List.getElem?_eq_getElem hi)

theorem downwardEffect_refl {K : Type} {NTERM : Nat} (s : State K NTERM) :
    DownwardEffect s s [] := by
  refine ⟨rfl, rfl, ?_⟩
  simp

theorem downwardEffect_trans {K : Type} {NTERM : Nat} {s s1 s2 : State K NTERM}
    {v1 v2 : List Nat} (h1 : DownwardEffect s s1 v1) (h2 : DownwardEffect s1 s2 v2) :
    DownwardEffect s s2 (v1 ++ v2) := by
  obtain ⟨a1, p1, t1⟩ := h1
  obtain ⟨a2, p2, t2⟩ := h2
  refine ⟨a2.trans a1, p2.trans p1, ?_⟩
  rw [t2, t1, a1, List.flatMap_append, List.append_assoc]

theorem downCalls_eq {K : Type} {NTERM : Nat} {cells : List (Cell K NTERM)} {C : Nat}
    {c : Cell K NTERM} (hc : cells[C]? = some c) :
    downCalls (shapeOf cells) C =
      if c.NCHILD = 0 then [Call.L2L C, Call.L2P C] else [Call.L2L C] := by
  have h : (shapeOf cells).getD C (0, 0) = (c.ICHILD, c.NCHILD) := by
    rw [List.getD_eq_getElem?_getD, shapeOf_getElem?, hc]
    rfl
  unfold downCalls
  rw [h]

theorem preOrderTraversal_children {K : Type} [Field K] {NTERM : Nat}
    (kernel : Kernel K NTERM) (useWeight : Bool) (fuel : Nat)
    (ih : ∀ (C : Nat) (s : State K NTERM) (vis : List Nat),
      ParentsInBounds useWeight s.cells →
      visitOrder false (shapeOf s.cells) fuel C = some vis →
      ∃ s', preOrderTraversal kernel useWeight fuel C s = some s' ∧ DownwardEffect s s' vis) :
    ∀ (l : List Nat) (s : State K NTERM) (sub : List Nat),
      ParentsInBounds useWeight s.cells →
      visitAll (visitOrder false (shapeOf s.cells) fuel) l = some sub →
      ∃ s1, l.foldlM (fun s CC => preOrderTraversal kernel useWeight fuel CC s) s = some s1 ∧
        DownwardEffect s s1 sub := by
  intro l
  induction l with
  | nil =>
    intro s sub _ h
    simp only [visitAll, Option.some.injEq] at h
    subst h
    exact ⟨s, rfl, downwardEffect_refl s⟩
  | cons c cs ihl =>
    intro s sub hp h
    obtain ⟨a, b, ha, hb, hr⟩ := visitAll_cons_eq_some h
    subst hr
    obtain ⟨s', hs', he'⟩ := ih c s a hp ha
    rw [← he'.1] at hb
    obtain ⟨s1, hs1, he1⟩ := ihl s' b (hp.of_eq he'.1 he'.2.1) hb
    refine ⟨s1, ?_, downwardEffect_trans he' he1⟩
    rw [List.foldlM_cons, hs']
    exact hs1

/-- The function `preOrderTraversal` follows the pre-order: whenever the visiting order from `C`
exists for the given fuel, the traversal succeeds and has the downward effect along it. -/
theorem preOrderTraversal_spec {K : Type} [Field K] {NTERM : Nat} (kernel : Kernel K NTERM)
    (useWeight : Bool) : ∀ (fuel C : Nat) (s : State K NTERM) (vis : List Nat),
      ParentsInBounds useWeight s.cells →
      visitOrder false (shapeOf s.cells) fuel C = some vis →
      ∃ s', preOrderTraversal kernel useWeight fuel C s = some s' ∧
        DownwardEffect s s' vis := by
  intro fuel
  induction fuel with
  | zero => intro C s vis _ h; simp [visitOrder] at h
  | succ fuel ih =>
    intro C s vis hp h
    obtain ⟨sh, sub, hsh, hsub, hvis⟩ := visitOrder_succ_eq_some h
    simp only [Bool.false_eq_true, if_false] at hvis
    subst hvis
    obtain ⟨c, hc, hci, hcn⟩ := cell_of_shape hsh
    rw [← hci, ← hcn] at hsub
    have hlt : C < s.cells.length := (List.getElem?_eq_some_iff.mp hc).1
    cases useWeight with
    | false =>
      have hown : DownwardEffect s
          { cells := s.cells.set C { c with L := kernel.L2L s.cells C },
            bodies := if c.NCHILD = 0 then
              kernel.L2P { c with L := kernel.L2L s.cells C } s.bodies else s.bodies,
            trace := if c.NCHILD = 0 then
              (s.trace ++ [(Call.L2L C, c)]) ++ [(Call.L2P C, { c with L := kernel.L2L s.cells C })]
              else s.trace ++ [(Call.L2L C, c)] } [C] := by
        refine ⟨shapeOf_set s.cells C c _ hc rfl rfl, parents_set s.cells C c _ hc rfl, ?_⟩
        simp only [List.flatMap_cons, List.flatMap_nil, List.append_nil, downCalls_eq hc]
        split_ifs <;> simp
      rw [← hown.1] at hsub
      obtain ⟨s1, hs1, he1⟩ := preOrderTraversal_children kernel false fuel ih _ _ sub
        (fun hw => absurd hw (by decide)) hsub
      refine ⟨s1, ?_, downwardEffect_trans hown he1⟩
      simp only [preOrderTraversal, hc, Option.some_bind, Bool.false_eq_true, if_false]
      exact hs1
    | true =>
      have hpi : c.IPARENT < (s.cells.set C { c with L := kernel.L2L s.cells C }).length := by
        rw [List.length_set]
        exact hp rfl C c hc
      have hcp := List.getElem?_eq_getElem hpi
      have hc1 : (s.cells.set C { c with L := kernel.L2L s.cells C })[C]? =
          some { c with L := kernel.L2L s.cells C } := by
        rw [List.getElem?_set, if_pos rfl, if_pos hlt]
      have hown : DownwardEffect s
          { cells := (s.cells.set C { c with L := kernel.L2L s.cells C }).set C
              { c with L := kernel.L2L s.cells C,
                       WEIGHT := c.WEIGHT +
                        ((s.cells.set C { c with L := kernel.L2L s.cells C })[c.IPARENT]).WEIGHT },
            bodies := if c.NCHILD = 0 then
                fun n => if c.BODY ≤ n ∧ n < c.BODY + c.NBODY then
                  { (if c.NCHILD = 0 then
                      kernel.L2P { c with L := kernel.L2L s.cells C } s.bodies
                      else s.bodies) n with
                    WEIGHT := ((if c.NCHILD = 0 then
                      kernel.L2P { c with L := kernel.L2L s.cells C } s.bodies
                      else s.bodies) n).WEIGHT + (c.WEIGHT +
                        ((s.cells.set C { c with L := kernel.L2L s.cells C })[c.IPARENT]).WEIGHT) }
                  else (if c.NCHILD = 0 then
                      kernel.L2P { c with L := kernel.L2L s.cells C } s.bodies
                      else s.bodies) n
              else (if c.NCHILD = 0 then
                      kernel.L2P { c with L := kernel.L2L s.cells C } s.bodies
                      else s.bodies),
            trace := if c.NCHILD = 0 then
              (s.trace ++ [(Call.L2L C, c)]) ++ [(Call.L2P C, { c with L := kernel.L2L s.cells C })]
              else s.trace ++ [(Call.L2L C, c)] } [C] := by
        refine ⟨?_, ?_, ?_⟩
        · rw [List.set_set]
          exact shapeOf_set s.cells C c _ hc rfl rfl
        · rw [List.set_set]
          exact parents_set s.cells C c _ hc rfl
        · simp only [List.flatMap_cons, List.flatMap_nil, List.append_nil, downCalls_eq hc]
          split_ifs <;> simp
      rw [← hown.1] at hsub
      obtain ⟨s1, hs1, he1⟩ := preOrderTraversal_children kernel true fuel ih _ _ sub
        (hp.of_eq hown.1 hown.2.1) hsub
      refine ⟨s1, ?_, downwardEffect_trans hown he1⟩
      simp only [preOrderTraversal, hc, Option.some_bind, if_true, hcp]
      exact hs1

theorem sublist_flatMap {α β : Type} (f : α → List β) {l1 l2 : List α} (h : l1.Sublist l2) :
    (l1.flatMap f).Sublist (l2.flatMap f) := by
  induction h with
  | slnil => exact List.Sublist.refl _
  | @cons l1 l2 a _ ih =>
    rw [List.flatMap_cons]
    exact ih.trans (List.sublist_append_right _ _)
  | @cons₂ l1 l2 a _ ih =>
    rw [List.flatMap_cons, List.flatMap_cons]
    exact List.Sublist.append (List.Sublist.refl _) ih

theorem L2L_mem_downCalls (shape : List (Nat × Nat)) (C c : Nat) :
    Call.L2L C ∈ downCalls shape c ↔ C = c := by
  unfold downCalls
  split_ifs <;> simp

theorem L2P_mem_downCalls (shape : List (Nat × Nat)) (C c : Nat) :
    Call.L2P C ∈ downCalls shape c ↔ C = c ∧ (shape.getD c (0, 0)).2 = 0 := by
  unfold downCalls
  split_ifs with h
  · constructor
    · intro hm
      simp at hm
      exact ⟨hm, h⟩
    · rintro ⟨rfl, _⟩
      simp
  · constructor
    · intro hm
      simp at hm
    · rintro ⟨_, h0⟩
      exact absurd h0 h

theorem downCalls_nodup (shape : List (Nat × Nat)) (c : Nat) : (downCalls shape c).Nodup := by
  unfold downCalls
  split_ifs <;> simp

theorem downCalls_disjoint (shape : List (Nat × Nat)) {c c' : Nat} (h : c ≠ c') :
    List.Disjoint (downCalls shape c) (downCalls shape c') := by
  intro call h1 h2
  unfold downCalls at h1 h2
  split_ifs at h1 h2 <;> simp at h1 h2 <;> rcases h1 with rfl | rfl <;> simp_all

theorem isLeaf_iff (shape : List (Nat × Nat)) (C : Nat) :
    isLeaf shape C ↔ C < shape.length ∧ (shape.getD C (0, 0)).2 = 0 := by
  unfold isLeaf
  constructor
  · rintro ⟨sh, hsh, h0⟩
    refine ⟨(List.getElem?_eq_some_iff.mp hsh).1, ?_⟩
    rw [List.getD_eq_getElem?_getD, hsh]
    exact h0
  · rintro ⟨hlt, h0⟩
    refine ⟨shape[C], List.getElem?_eq_getElem hlt, ?_⟩
    rw [List.getD_eq_getElem?_getD, List.getElem?_eq_getElem hlt] at h0
    exact h0

/-- C10. Downward pass order: on a non-empty tree-shaped cell array rooted at index `0`
`downwardPass` terminates and no kernel call is logged twice; `L2L` is called on
exactly the non-root cells, `L2P` on exactly the cells without children (the root
included when it has none); and for every non-root cell the `L2L` call comes before
every call on each of its descendants (so a cell's `L2L` follows its parent's `L2L`)
and before its own `L2P` call. -/
theorem downwardPass_preorder {K : Type} [Field K] {NTERM : Nat} (kernel : Kernel K NTERM)
    (useWeight : Bool) (fuel : Nat) (s : State K NTERM) (ht : TreeShaped (shapeOf s.cells))
    (hp : ParentsInBounds useWeight s.cells) (hfuel : s.cells.length ≤ fuel) :
    ∃ s' calls, downwardPass kernel useWeight fuel s = some s' ∧
      s'.trace.map Prod.fst = s.trace.map Prod.fst ++ calls ∧
      calls.Nodup ∧
      (∀ C, Call.L2L C ∈ calls ↔ 0 < C ∧ C < s.cells.length) ∧
      (∀ C, Call.L2P C ∈ calls ↔ isLeaf (shapeOf s.cells) C) ∧
      (∀ c d, 0 < c → Descendant (shapeOf s.cells) c d →
        ∀ call ∈ downCalls (shapeOf s.cells) d, [Call.L2L c, call].Sublist calls) ∧
      (∀ c, 0 < c → isLeaf (shapeOf s.cells) c →
        [Call.L2L c, Call.L2P c].Sublist calls) := by
  have hpos : 0 < (shapeOf s.cells).length := List.length_pos.mpr ht.nonempty
  have hlen := shapeOf_length s.cells
  have hsh : (shapeOf s.cells)[0]? = some (shapeOf s.cells)[0] := List.getElem?_eq_getElem hpos
  obtain ⟨c0, hc0, hci, hcn⟩ := cell_of_shape hsh
  -- the visiting order below the root
  obtain ⟨sub, hsub⟩ := visitAll_exists (f := visitOrder false (shapeOf s.cells) fuel)
    (l := List.range' (shapeOf s.cells)[0].1 (shapeOf s.cells)[0].2) (by
      intro c hc
      exact ht.visitOrder_succeeds false fuel c
        (ht.inBounds 0 c ((mem_children_iff hsh c).mp hc)) (by rw [hlen]; exact hfuel))
  have hvis0 : visitOrder false (shapeOf s.cells) (fuel + 1) 0 = some (0 :: sub) := by
    simp only [visitOrder, hsh, Option.some_bind, hsub, Bool.false_eq_true, if_false]
  obtain ⟨hnd0, hmem0⟩ := ht.visitOrder_root false (fuel + 1) (0 :: sub) hvis0
  obtain ⟨h0sub, hsubnd⟩ := List.nodup_cons.mp hnd0
  have hmemsub : ∀ x, x ∈ sub ↔ 0 < x ∧ x < s.cells.length := by
    intro x
    have := hmem0 x
    rw [List.mem_cons, hlen] at this
    constructor
    · intro hx
      refine ⟨?_, this.mp (Or.inr hx)⟩
      rcases Nat.eq_zero_or_pos x with rfl | h
      · exact absurd hx h0sub
      · exact h
    · rintro ⟨h1, h2⟩
      rcases this.mpr h2 with h | h
      · omega
      · exact h
  -- the run
  have hemp : (!s.cells.isEmpty) = true := by
    cases hcs : s.cells with
    | nil => rw [hcs] at hc0; simp at hc0
    | cons a l => rfl
  have hp1 : ParentsInBounds useWeight
      (if c0.NCHILD = 0 then
        ({ s with bodies := kernel.L2P c0 s.bodies, trace := s.trace ++ [(Call.L2P 0, c0)] } :
          State K NTERM)
      else s).cells := by
    split_ifs <;> exact hp
  have hcells1 : (if c0.NCHILD = 0 then
        ({ s with bodies := kernel.L2P c0 s.bodies, trace := s.trace ++ [(Call.L2P 0, c0)] } :
          State K NTERM)
      else s).cells = s.cells := by
    split_ifs <;> rfl
  have htrace1 : (if c0.NCHILD = 0 then
        ({ s with bodies := kernel.L2P c0 s.bodies, trace := s.trace ++ [(Call.L2P 0, c0)] } :
          State K NTERM)
      else s).trace.map Prod.fst =
      s.trace.map Prod.fst ++ (if c0.NCHILD = 0 then [Call.L2P 0] else []) := by
    split_ifs <;> simp
  obtain ⟨s', hs', he'⟩ := preOrderTraversal_children kernel useWeight fuel
    (preOrderTraversal_spec kernel useWeight fuel) (List.range' c0.ICHILD c0.NCHILD) _ sub hp1
    (by rw [hcells1, hci, hcn]; exact hsub)
  obtain ⟨_, _, htr⟩ := he'
  rw [htrace1, hcells1, List.append_assoc] at htr
  have hleaf0 : c0.NCHILD = 0 ↔ isLeaf (shapeOf s.cells) 0 := by
    rw [hcn]
    constructor
    · intro h
      exact ⟨_, hsh, h⟩
    · rintro ⟨sh, hsh', h⟩
      rw [hsh] at hsh'
      cases hsh'
      exact h
  have hsubl : ∀ c, c ∈ sub →
      (downCalls (shapeOf s.cells) c).Sublist (sub.flatMap (downCalls (shapeOf s.cells))) := by
    intro c hc
    have := sublist_flatMap (downCalls (shapeOf s.cells)) (List.singleton_sublist.mpr hc)
    simpa using this
  refine ⟨s', _, ?_, htr, ?_, ?_, ?_, ?_, ?_⟩
  · unfold downwardPass
    rw [if_pos hemp, hc0]
    exact hs'
  · -- no call twice
    rw [List.nodup_append]
    refine ⟨by split_ifs <;> simp, ?_, ?_⟩
    · rw [List.nodup_flatMap]
      exact ⟨fun c _ => downCalls_nodup _ c,
        hsubnd.imp (fun hne => downCalls_disjoint _ hne)⟩
    · intro call h1 h2
      split_ifs at h1
      · rw [List.mem_singleton] at h1
        subst h1
        obtain ⟨c, hc, hcall⟩ := List.mem_flatMap.mp h2
        have := ((L2P_mem_downCalls _ 0 c).mp hcall).1
        exact h0sub (this ▸ hc)
      · cases h1
  · -- L2L on the non-root cells
    intro C
    rw [List.mem_append, List.mem_flatMap]
    constructor
    · rintro (h | ⟨c, hc, hcall⟩)
      · split_ifs at h <;> simp at h
      · have := (L2L_mem_downCalls _ C c).mp hcall
        subst this
        exact (hmemsub C).mp hc
    · intro h
      exact Or.inr ⟨C, (hmemsub C).mpr h, (L2L_mem_downCalls _ C C).mpr rfl⟩
  · -- L2P on the leaves
    intro C
    rw [List.mem_append, List.mem_flatMap]
    constructor
    · rintro (h | ⟨c, hc, hcall⟩)
      · split_ifs at h with hn
        · rw [List.mem_singleton] at h
          cases h
          exact hleaf0.mp hn
        · cases h
      · obtain ⟨h1, h2⟩ := (L2P_mem_downCalls _ C c).mp hcall
        subst h1
        exact (isLeaf_iff _ C).mpr ⟨by rw [hlen]; exact ((hmemsub C).mp hc).2, h2⟩
    · intro h
      rcases Nat.eq_zero_or_pos C with rfl | hC
      · left
        rw [if_pos (hleaf0.mpr h)]
        exact List.mem_singleton_self _
      · right
        obtain ⟨h1, h2⟩ := (isLeaf_iff _ C).mp h
        exact ⟨C, (hmemsub C).mpr ⟨hC, by rw [← hlen]; exact h1⟩,
          (L2P_mem_downCalls _ C C).mpr ⟨rfl, h2⟩⟩
  · -- a cell before its descendants
    intro c d hc hcd call hcall
    have hc0' : c ∈ 0 :: sub := by
      rw [hmem0 c]
      rcases Relation.TransGen.head'_iff.mp hcd with ⟨y, hcy, _⟩
      exact isChild_parent_lt hcy
    have hord := preOrder_descendant_last (fuel + 1) 0 (0 :: sub) hvis0 c d hc0' hcd
    have hord' : [c, d].Sublist sub := by
      rcases List.sublist_cons_iff.mp hord with h | ⟨r, hr, _⟩
      · exact h
      · cases hr
        omega
    have h1 := sublist_flatMap (downCalls (shapeOf s.cells)) hord'
    simp only [List.flatMap_cons, List.flatMap_nil, List.append_nil] at h1
    refine List.Sublist.trans ?_ (h1.trans (List.sublist_append_right _ _))
    exact List.Sublist.append
      (List.singleton_sublist.mpr ((L2L_mem_downCalls _ c c).mpr rfl))
      (List.singleton_sublist.mpr hcall)
  · -- `L2L` before `L2P` on a leaf
    intro c hc hleaf
    obtain ⟨h1, h2⟩ := (isLeaf_iff _ c).mp hleaf
    have hcs : c ∈ sub := (hmemsub c).mpr ⟨hc, by rw [← hlen]; exact h1⟩
    have h3 := (hsubl c hcs).trans (List.sublist_append_right
      (if c0.NCHILD = 0 then [Call.L2P 0] else []) _)
    unfold downCalls at h3
    rw [if_pos h2] at h3
    exact h3

/-! ### The concrete tree -/

theorem acyclic_of_increasing {shape : List (Nat × Nat)}
    (h : ∀ p c, isChild shape p c → p < c) : ∀ c, ¬ Descendant shape c c := by
  have key : ∀ a b, Descendant shape a b → a < b := by
    intro a b hab
    induction hab with
    | single hc => exact h _ _ hc
    | tail _ hc ih => exact lt_trans ih (h _ _ hc)
  intro c hc
  exact lt_irrefl c (key c c hc)

theorem isChild_example (p c : Nat) :
    isChild [(1, 2), (0, 0), (0, 0)] p c ↔ p = 0 ∧ (c = 1 ∨ c = 2) := by
  constructor
  · rintro ⟨sh, hsh, h1, h2⟩
    rcases p with _ | _ | _ | p
    · simp at hsh
      subst hsh
      simp at h1 h2
      omega
    · simp at hsh
      subst hsh
      simp at h1 h2
    · simp at hsh
      subst hsh
      simp at h1 h2
    · simp at hsh
  · rintro ⟨rfl, h⟩
    exact ⟨(1, 2), rfl, by simp only; omega, by simp only; omega⟩

/-- The example cell array is tree-shaped. -/
theorem treeShaped_example : TreeShaped (shapeOf exampleState.cells) := by
  have hshape : shapeOf exampleState.cells = [(1, 2), (0, 0), (0, 0)] := rfl
  rw [hshape]
  refine ⟨by simp, ?_, ?_, ?_⟩
  · intro p c h
    have := (isChild_example p c).mp h
    simp only [List.length_cons, List.length_nil]
    omega
  · intro c h1 h2
    simp only [List.length_cons, List.length_nil] at h2
    refine ⟨0, (isChild_example 0 c).mpr ⟨rfl, by omega⟩, fun p hp => ?_⟩
    exact ((isChild_example p c).mp hp).1
  · apply acyclic_of_increasing
    intro p c h
    have := (isChild_example p c).mp h
    omega

/-- Witness for C8: the example tree with fuel `3`. -/
theorem upwardPass_postorder_witness :
    ∃ s' ev, upwardPass exampleKernel 2 3 exampleState = some s' ∧
      s'.trace = exampleState.trace ++ ev ∧
      (ev.map Prod.fst).Nodup ∧
      (∀ call, call ∈ ev.map Prod.fst ↔
        ∃ C, C < exampleState.cells.length ∧ call = upCall (shapeOf exampleState.cells) C) ∧
      (∀ c d, Descendant (shapeOf exampleState.cells) c d →
        [upCall (shapeOf exampleState.cells) d, upCall (shapeOf exampleState.cells) c].Sublist
          (ev.map Prod.fst)) ∧
      (∀ e ∈ ev, e.2.M = 0 ∧ e.2.L = 0) :=
  upwardPass_postorder exampleKernel 2 3 exampleState treeShaped_example (by decide)

/-- Witness for C9: the example tree with `theta = 2`. -/
theorem upwardPass_radius_witness :
    ∃ s', upwardPass exampleKernel 2 3 exampleState = some s' ∧
      s'.cells.length = exampleState.cells.length ∧
      ∀ (i : Nat) (c : Cell ℚ 0), exampleState.cells[i]? = some c →
        ∃ c' : Cell ℚ 0, s'.cells[i]? = some c' ∧ c'.SCALE = 2 * c.R ∧
          c'.R = c.R / 2 ∧ c'.SCALE = 2 * 2 * c'.R :=
  upwardPass_radius exampleKernel 2 3 exampleState treeShaped_example (by decide) (by norm_num)

/-- Witness for C10: the example tree, built with `EXAFMM_USE_WEIGHT`. -/
theorem downwardPass_preorder_witness :
    ∃ s' calls, downwardPass exampleKernel true 3 exampleState = some s' ∧
      s'.trace.map Prod.fst = exampleState.trace.map Prod.fst ++ calls ∧
      calls.Nodup ∧
      (∀ C, Call.L2L C ∈ calls ↔ 0 < C ∧ C < exampleState.cells.length) ∧
      (∀ C, Call.L2P C ∈ calls ↔ isLeaf (shapeOf exampleState.cells) C) ∧
      (∀ c d, 0 < c → Descendant (shapeOf exampleState.cells) c d →
        ∀ call ∈ downCalls (shapeOf exampleState.cells) d, [Call.L2L c, call].Sublist calls) ∧
      (∀ c, 0 < c → isLeaf (shapeOf exampleState.cells) c →
        [Call.L2L c, Call.L2P c].Sublist calls) :=
  downwardPass_preorder exampleKernel true 3 exampleState treeShaped_example
    (by
      intro _ i c hc
      rcases i with _ | _ | _ | i
      · simp [exampleState] at hc
        subst hc
        simp [exampleCell, exampleState]
      · simp [exampleState] at hc
        subst hc
        simp [exampleCell, exampleState]
      · simp [exampleState] at hc
        subst hc
        simp [exampleCell, exampleState]
      · simp [exampleState] at hc)
    (by decide)

end UpDownPass

end ExaFMM

/-! # Theorems on the expansion order, the cell coordinate and the coefficient slots -/

namespace ExaFMM

namespace Fmm

/-- The conversion `int(x)` of a non-negative value is its floor. -/
theorem truncInt_of_nonneg {R : Type} [LinearOrderedField R] [FloorRing R] (x : R)
    (h : 0 ≤ x) : truncInt x = ⌊x⌋ := by
  unfold truncInt
  rw [if_pos h]

end Fmm

namespace HelmholtzKernel

/-- An integer in the range of `int` is the result of its `int` operation. -/
theorem int32_of_fits {x : Int} (h1 : -2 ^ 31 ≤ x) (h2 : x < 2 ^ 31) :
    Fmm.int32 x = some x := by
  unfold Fmm.int32
  rw [if_pos ⟨h1, h2⟩]

/-- An integer outside the range of `int` is the result of no `int` operation. -/
theorem int32_of_not_fits {x : Int} (h : x < -2 ^ 31 ∨ 2 ^ 31 ≤ x) : Fmm.int32 x = none := by
  unfold Fmm.int32
  rw [if_neg (by omega)]

/-- The routine with `Popt` in the 32-bit type reaches an order exactly when the routine on
the integer part does, and then the same one: an integer part outside the range of
`int` is not positive or exceeds `2*P`, so neither routine reaches an order. -/
theorem M2LPoptChecked_ok_iff {R : Type} [LinearOrderedField R] [FloorRing R] (P : Int)
    (rr : R) (hP : 1 ≤ P) (h2P : 2 * P < 2 ^ 31) (p : Int) :
    M2LPoptChecked P rr = some (M2LResult.ok p) ↔ M2LPopt P rr = M2LResult.ok p := by
  have h2 : Fmm.int32 (2 * P) = some (2 * P) := int32_of_fits (by omega) h2P
  unfold M2LPoptChecked M2LPopt M2LPoptInt
  by_cases hz : rr * rr = 0
  · rw [if_pos hz, if_pos hz]
    simp
  · rw [if_neg hz, if_neg hz]
    simp only []
    by_cases hfit : -2 ^ 31 ≤ M2LPoptRaw P rr ∧ M2LPoptRaw P rr < 2 ^ 31
    · rw [int32_of_fits hfit.1 hfit.2, Option.some_bind]
      by_cases h0 : 0 < M2LPoptRaw P rr
      · rw [if_neg (not_not.mpr h0), if_neg (not_not.mpr h0), h2, Option.some_bind]
        by_cases hle : M2LPoptRaw P rr ≤ 2 * P
        · rw [if_neg (not_not.mpr hle), if_neg (not_not.mpr hle)]
          by_cases hgt : M2LPoptRaw P rr > P
          · rw [if_pos hgt, if_pos hgt]
            simp
          · rw [if_neg hgt, if_neg hgt]
            simp
        · rw [if_pos hle, if_pos hle]
          simp
      · rw [if_pos h0, if_pos h0]
        simp
    · rw [int32_of_not_fits (by omega)]
      by_cases h0 : 0 < M2LPoptRaw P rr
      · rw [if_neg (not_not.mpr h0), if_pos (by omega)]
        simp
      · rw [if_pos h0]
        simp

end HelmholtzKernel

namespace HelmholtzKernel

/-- At `P = 10` and `rr = 1e-5` the value converted is `10000000005.5`: its integer part is
outside the range of `int`, so line 794 has no result. -/
theorem M2LPoptChecked_out_of_range :
    M2LPoptRaw 10 (1 / 100000 : ℚ) = 10000000005 ∧
      M2LPoptInt 10 (1 / 100000 : ℚ) = none ∧ M2LPoptChecked 10 (1 / 100000 : ℚ) = none := by
  have hraw : M2LPoptRaw 10 (1 / 100000 : ℚ) = 10000000005 := by
    unfold M2LPoptRaw Fmm.truncInt
    simp only []
    rw [if_pos (by norm_num), Int.floor_eq_iff]
    constructor <;> norm_num
  have hI : M2LPoptInt 10 (1 / 100000 : ℚ) = none := by
    unfold M2LPoptInt
    rw [hraw]
    rfl
  refine ⟨hraw, hI, ?_⟩
  unfold M2LPoptChecked
  rw [if_neg (by norm_num), hI]
  rfl

end HelmholtzKernel

namespace HelmholtzKernel

end HelmholtzKernel

namespace Fmm

/-- The shift `1 << maxLevel` of `int` has the value `2^maxLevel` for `maxLevel ≤ 30`. -/
theorem shl1_natCast {maxLevel : Nat} (hL : maxLevel ≤ 30) :
    shl1 (maxLevel : Int) = some (2 ^ maxLevel) := by
  unfold shl1
  rw [if_pos ⟨by omega, by omega⟩, Int.toNat_ofNat]

/-- The shift `1 << maxLevel` of `int` has no result from `maxLevel = 31` on. -/
theorem shl1_natCast_none {maxLevel : Nat} (hL : 31 ≤ maxLevel) :
    shl1 (maxLevel : Int) = none := by
  unfold shl1
  rw [if_neg (by omega)]

/-- In exact arithmetic and for `maxLevel ≤ 30`, the value that `encode` converts to `int`
is `(x + R0 - X0[d]) / (2 R0) * 2^maxLevel`. -/
theorem cellCoord_eq {R : Type} [LinearOrderedField R] [FloorRing R] (R0 X0d : R)
    (maxLevel : Nat) (x : R) (hR0 : 0 < R0) (hL : maxLevel ≤ 30) :
    cellCoord id R0 X0d maxLevel x =
      int32 (truncInt ((x + R0 - X0d) / (2 * R0) * (2 : R) ^ maxLevel)) := by
  have h2 : (2 : R) ^ maxLevel ≠ 0 := pow_ne_zero _ two_ne_zero
  have hd : 2 * R0 / (2 : R) ^ maxLevel ≠ 0 := div_ne_zero (by positivity) h2
  unfold cellCoord cellDiameter cellCoordOf
  rw [shl1_natCast hL]
  simp only [Option.some_bind, id, Int.cast_pow, Int.cast_ofNat]
  rw [if_neg hd]
  congr 2
  field_simp

/-- A point on the upper face, `x = X0[d] + R0`, gets the cell coordinate `2^maxLevel`. -/
theorem cellCoord_upper_face {R : Type} [LinearOrderedField R] [FloorRing R] (R0 X0d : R)
    (maxLevel : Nat) (hR0 : 0 < R0) (hL : maxLevel ≤ 30) :
    cellCoord id R0 X0d maxLevel (X0d + R0) = some (2 ^ maxLevel) := by
  have hv : (X0d + R0 + R0 - X0d) / (2 * R0) * (2 : R) ^ maxLevel =
      (((2 : Int) ^ maxLevel : Int) : R) := by
    push_cast
    have : (X0d + R0 + R0 - X0d) / (2 * R0) = 1 := by
      rw [div_eq_one_iff_eq (by linarith)]
      ring
    rw [this, one_mul]
  have hp : (2 : Int) ^ maxLevel ≤ 2 ^ 30 := pow_le_pow_right₀ (by norm_num) hL
  have hp0 : (0 : Int) < 2 ^ maxLevel := by positivity
  rw [cellCoord_eq R0 X0d maxLevel _ hR0 hL, hv, truncInt_of_nonneg _ (by positivity),
    Int.floor_intCast]
  unfold int32
  rw [if_pos ⟨by omega, by omega⟩]

/-- Under a monotone rounding that keeps zero, a result of `cellDiameter` for a positive
`R0` is not negative. -/
theorem cellDiameter_nonneg {R : Type} [LinearOrderedField R] (rnd : R → R)
    (hm : Monotone rnd) (h0 : rnd 0 = 0) (R0 : R) (maxLevel : Nat) (hR0 : 0 < R0) (dia : R)
    (h : cellDiameter rnd R0 maxLevel = some dia) : 0 ≤ dia := by
  unfold cellDiameter at h
  by_cases hL : maxLevel ≤ 30
  · rw [shl1_natCast hL] at h
    simp only [Option.some_bind, Option.some.injEq] at h
    rw [← h, ← h0]
    apply hm
    apply div_nonneg
    · rw [← h0]
      exact hm (by linarith)
    · push_cast
      positivity
  · rw [shl1_natCast_none (by omega)] at h
    simp at h

/-- The conversion `int(x)` of a value that is not negative is not negative. -/
theorem truncInt_nonneg {R : Type} [LinearOrderedField R] [FloorRing R] (x : R)
    (h : 0 ≤ x) : 0 ≤ truncInt x := by
  rw [truncInt_of_nonneg x h]
  exact Int.floor_nonneg.mpr h

/-- The result of an `int` operation, when there is one, is the exact value. -/
theorem int32_eq_some {x c : Int} (h : int32 x = some c) : c = x := by
  unfold int32 at h
  split at h
  · exact (Option.some.inj h).symm
  · simp at h

/-- Under a monotone rounding that keeps `0` and `X0[d]`, a computed cell coordinate of a
point with `X0[d] - R0 ≤ x` is not negative. -/
theorem cellCoord_nonneg {R : Type} [LinearOrderedField R] [FloorRing R] (rnd : R → R)
    (hm : Monotone rnd) (h0 : rnd 0 = 0) (R0 X0d : R) (maxLevel : Nat) (hR0 : 0 < R0)
    (hX : rnd X0d = X0d) (x : R) (c : Int) (hlo : X0d - R0 ≤ x)
    (hc : cellCoord rnd R0 X0d maxLevel x = some c) : 0 ≤ c := by
  unfold cellCoord at hc
  cases hdia : cellDiameter rnd R0 maxLevel with
  | none => rw [hdia] at hc; simp at hc
  | some dia =>
    rw [hdia] at hc
    simp only [Option.some_bind] at hc
    have hd0 := cellDiameter_nonneg rnd hm h0 R0 maxLevel hR0 dia hdia
    unfold cellCoordOf at hc
    split at hc
    · simp at hc
    · rw [int32_eq_some hc]
      apply truncInt_nonneg
      rw [← h0]
      apply hm
      apply div_nonneg _ hd0
      have h1 : X0d ≤ rnd (x + R0) := by
        rw [← hX]
        exact hm (by linarith)
      rw [← h0]
      exact hm (by linarith)

/-- C13 (amended). For `0 ≤ maxLevel ≤ 30` (so that `1 << maxLevel` is an `int`), `R0 > 0`
and a body coordinate in the half-open range `X0[d] - R0 ≤ x < X0[d] + R0`, the cell
coordinate that `Fmm::encode` and `Fmm::sortBodies` compute lies, in exact arithmetic,
in `[0, 2^maxLevel - 1]`; a point on the upper face `x = X0[d] + R0` gets the coordinate
`2^maxLevel`, one past the last cell (the code does not clamp).  Under a rounding of
every operation (monotone, keeping `0` and `X0[d]`) a computed coordinate of a point
with `X0[d] - R0 ≤ x` is still not negative.  From `maxLevel = 31` on the shift
`1 << maxLevel` overflows `int` and no coordinate is computed. -/
theorem cellCoord_range {R : Type} [LinearOrderedField R] [FloorRing R] (R0 X0d : R)
    (maxLevel : Nat) (hR0 : 0 < R0) :
    (maxLevel ≤ 30 → ∀ x, X0d - R0 ≤ x → x < X0d + R0 →
      ∃ c, cellCoord id R0 X0d maxLevel x = some c ∧ 0 ≤ c ∧ c ≤ 2 ^ maxLevel - 1) ∧
    (maxLevel ≤ 30 → cellCoord id R0 X0d maxLevel (X0d + R0) = some (2 ^ maxLevel)) ∧
    (∀ rnd : R → R, Monotone rnd → rnd 0 = 0 → rnd X0d = X0d →
      ∀ x c, X0d - R0 ≤ x → cellCoord rnd R0 X0d maxLevel x = some c → 0 ≤ c) ∧
    (31 ≤ maxLevel → ∀ (rnd : R → R) (x : R), cellCoord rnd R0 X0d maxLevel x = none) := by
  have hp : (0 : R) < (2 : R) ^ maxLevel := pow_pos two_pos _
  refine ⟨?_, ?_, ?_, ?_⟩
  · intro hL x hlo hhi
    have hu0 : 0 ≤ (x + R0 - X0d) / (2 * R0) := div_nonneg (by linarith) (by linarith)
    have hu1 : (x + R0 - X0d) / (2 * R0) < 1 := by
      rw [div_lt_one (by linarith)]
      linarith
    have hv0 : 0 ≤ (x + R0 - X0d) / (2 * R0) * (2 : R) ^ maxLevel :=
      mul_nonneg hu0 (le_of_lt hp)
    have hv1 : (x + R0 - X0d) / (2 * R0) * (2 : R) ^ maxLevel < (2 : R) ^ maxLevel := by
      nlinarith
    have hf0 : 0 ≤ ⌊(x + R0 - X0d) / (2 * R0) * (2 : R) ^ maxLevel⌋ :=
      Int.floor_nonneg.mpr hv0
    have hf1 : ⌊(x + R0 - X0d) / (2 * R0) * (2 : R) ^ maxLevel⌋ < 2 ^ maxLevel := by
      rw [Int.floor_lt]
      push_cast
      exact hv1
    have hp30 : (2 : Int) ^ maxLevel ≤ 2 ^ 30 := pow_le_pow_right₀ (by norm_num) hL
    refine ⟨⌊(x + R0 - X0d) / (2 * R0) * (2 : R) ^ maxLevel⌋, ?_, hf0, by omega⟩
    rw [cellCoord_eq R0 X0d maxLevel x hR0 hL, truncInt_of_nonneg _ hv0]
    unfold int32
    rw [if_pos ⟨by omega, by omega⟩]
  · intro hL
    exact cellCoord_upper_face R0 X0d maxLevel hR0 hL
  · intro rnd hm h0 hX x c hlo hc
    exact cellCoord_nonneg rnd hm h0 R0 X0d maxLevel hR0 hX x c hlo hc
  · intro hL rnd x
    unfold cellCoord cellDiameter
    rw [shl1_natCast_none hL]
    rfl

/-- Counterexample to C13 as written: with `maxLevel = 0`, `R0 = 1`, `X0[d] = 1` the
point `x = 2` on the upper face of the cube gets the cell coordinate `1`, outside
`[0, 2^0 - 1] = [0, 0]`. -/
theorem cellCoord_range_counterexample :
    (0 : ℚ) < 1 ∧ (1 : ℚ) - 1 ≤ 2 ∧ (2 : ℚ) ≤ 1 + 1 ∧ cellCoord id (1 : ℚ) 1 0 2 = some 1 ∧
      ¬ ((1 : Int) ≤ 2 ^ 0 - 1) := by
  have h : cellCoord id (1 : ℚ) 1 0 2 = some 1 := by
    have := cellCoord_upper_face (1 : ℚ) 1 0 (by norm_num) (by norm_num)
    norm_num at this
    exact this
  exact ⟨by norm_num, by norm_num, by norm_num, h, by decide⟩

/-- Witness for C13: `R0 = 1`, `X0[d] = 1`, `maxLevel = 3`. -/
theorem cellCoord_range_witness :
    (3 ≤ 30 → ∀ x : ℚ, 1 - 1 ≤ x → x < 1 + 1 →
      ∃ c, cellCoord id 1 1 3 x = some c ∧ 0 ≤ c ∧ c ≤ 2 ^ 3 - 1) ∧
    (3 ≤ 30 → cellCoord id (1 : ℚ) 1 3 (1 + 1) = some (2 ^ 3)) ∧
    (∀ rnd : ℚ → ℚ, Monotone rnd → rnd 0 = 0 → rnd 1 = 1 →
      ∀ x c, 1 - 1 ≤ x → cellCoord rnd 1 1 3 x = some c → 0 ≤ c) ∧
    (31 ≤ 3 → ∀ (rnd : ℚ → ℚ) (x : ℚ), cellCoord rnd 1 1 3 x = none) :=
  cellCoord_range (1 : ℚ) 1 3 (by norm_num)

/-- The rounding to the nearest integer is one of the two neighbours. -/
theorem roundNearestEven_bounds (q : ℚ) :
    ⌊q⌋ ≤ roundNearestEven q ∧ roundNearestEven q ≤ ⌊q⌋ + 1 := by
  unfold roundNearestEven
  simp only []
  split_ifs <;> constructor <;> omega

/-- An integer is rounded to itself. -/
theorem roundNearestEven_intCast (n : Int) : roundNearestEven (n : ℚ) = n := by
  unfold roundNearestEven
  simp

/-- The rounding to the nearest integer is monotone. -/
theorem roundNearestEven_mono {q q' : ℚ} (h : q ≤ q') :
    roundNearestEven q ≤ roundNearestEven q' := by
  have hf : ⌊q⌋ ≤ ⌊q'⌋ := Int.floor_le_floor h
  rcases lt_or_eq_of_le hf with hlt | heq
  · have h1 := (roundNearestEven_bounds q).2
    have h2 := (roundNearestEven_bounds q').1
    omega
  · unfold roundNearestEven
    simp only []
    rw [← heq]
    have hfl : ((⌊q⌋ : Int) : ℚ) ≤ q := Int.floor_le q
    by_cases c1 : q - (⌊q⌋ : Int) < 1 / 2
    · rw [if_pos c1]
      split_ifs <;> omega
    · rw [if_neg c1]
      have c1' : ¬ (q' - (⌊q⌋ : Int) < 1 / 2) := by
        intro hc
        apply c1
        linarith
      rw [if_neg c1']
      by_cases c2 : 1 / 2 < q - (⌊q⌋ : Int)
      · rw [if_pos c2, if_pos (by linarith)]
      · rw [if_neg c2]
        split_ifs <;> omega

/-- The rounding to the nearest integer commutes with the change of sign. -/
theorem roundNearestEven_neg (q : ℚ) : roundNearestEven (-q) = - roundNearestEven q := by
  by_cases hq : ((⌊q⌋ : Int) : ℚ) = q
  · rw [← hq, ← Int.cast_neg, roundNearestEven_intCast, roundNearestEven_intCast]
  · have hlt : ((⌊q⌋ : Int) : ℚ) < q := lt_of_le_of_ne (Int.floor_le q) hq
    have hlt2 : q < ((⌊q⌋ : Int) : ℚ) + 1 := Int.lt_floor_add_one q
    have hfn : ⌊-q⌋ = -⌊q⌋ - 1 := by
      rw [Int.floor_eq_iff]
      push_cast
      constructor <;> linarith
    unfold roundNearestEven
    simp only []
    rw [hfn]
    push_cast
    by_cases c1 : q - (⌊q⌋ : Int) < 1 / 2
    · rw [if_pos c1, if_neg (by linarith), if_pos (by linarith)]
      ring
    · rw [if_neg c1]
      by_cases c2 : 1 / 2 < q - (⌊q⌋ : Int)
      · rw [if_pos c2, if_pos (by linarith)]
        ring
      · rw [if_neg c2, if_neg (by linarith), if_neg (by linarith)]
        split_ifs <;> omega

/-- The binary exponent `e` of a positive rational `x` has `2^e ≤ x < 2^(e+1)`. -/
theorem log2_bounds {x : ℚ} (hx : 0 < x) :
    (2 : ℚ) ^ Int.log 2 x ≤ x ∧ x < (2 : ℚ) ^ (Int.log 2 x + 1) := by
  have h1 := Int.zpow_log_le_self (b := 2) (by norm_num) hx
  have h2 := Int.lt_zpow_succ_log_self (b := 2) (by norm_num) x
  constructor
  · exact_mod_cast h1
  · exact_mod_cast h2

/-- A positive rational with binary exponent `e` is rounded into `[2^e, 2^(e+1)]`. -/
theorem roundFloat_pos_bounds (p : Nat) (hp : 1 ≤ p) {x : ℚ} (hx : 0 < x) :
    (2 : ℚ) ^ Int.log 2 x ≤ roundFloat p x ∧ roundFloat p x ≤ (2 : ℚ) ^ (Int.log 2 x + 1) := by
  obtain ⟨h1, h2⟩ := log2_bounds hx
  have hu : (0 : ℚ) < (2 : ℚ) ^ (Int.log 2 x - (p : Int) + 1) := zpow_pos (by norm_num) _
  have e1 : (2 : ℚ) ^ Int.log 2 x =
      (((2 : Int) ^ (p - 1) : Int) : ℚ) * (2 : ℚ) ^ (Int.log 2 x - (p : Int) + 1) := by
    push_cast
    rw [← zpow_natCast, ← zpow_add₀ (by norm_num)]
    congr 1
    omega
  have e2 : (2 : ℚ) ^ (Int.log 2 x + 1) =
      (((2 : Int) ^ p : Int) : ℚ) * (2 : ℚ) ^ (Int.log 2 x - (p : Int) + 1) := by
    push_cast
    rw [← zpow_natCast, ← zpow_add₀ (by norm_num)]
    congr 1
    omega
  unfold roundFloat
  rw [if_neg (ne_of_gt hx), abs_of_pos hx]
  simp only []
  constructor
  · rw [e1]
    apply mul_le_mul_of_nonneg_right _ (le_of_lt hu)
    have : roundNearestEven (((2 : Int) ^ (p - 1) : Int) : ℚ) ≤
        roundNearestEven (x / (2 : ℚ) ^ (Int.log 2 x - (p : Int) + 1)) := by
      apply roundNearestEven_mono
      rw [le_div_iff₀ hu, ← e1]
      exact h1
    rw [roundNearestEven_intCast] at this
    exact_mod_cast this
  · rw [e2]
    apply mul_le_mul_of_nonneg_right _ (le_of_lt hu)
    have : roundNearestEven (x / (2 : ℚ) ^ (Int.log 2 x - (p : Int) + 1)) ≤
        roundNearestEven (((2 : Int) ^ p : Int) : ℚ) := by
      apply roundNearestEven_mono
      rw [div_le_iff₀ hu, ← e2]
      exact le_of_lt h2
    rw [roundNearestEven_intCast] at this
    exact_mod_cast this

/-- The rounding of a format commutes with the change of sign. -/
theorem roundFloat_neg (p : Nat) (x : ℚ) : roundFloat p (-x) = - roundFloat p x := by
  unfold roundFloat
  by_cases hx : x = 0
  · subst hx
    simp
  · rw [if_neg (neg_ne_zero.mpr hx), if_neg hx, abs_neg]
    simp only []
    rw [neg_div, roundNearestEven_neg]
    push_cast
    ring

/-- On positive rationals the rounding of a format is monotone. -/
theorem roundFloat_mono_pos (p : Nat) (hp : 1 ≤ p) {x y : ℚ} (hx : 0 < x) (hxy : x ≤ y) :
    roundFloat p x ≤ roundFloat p y := by
  have hy : 0 < y := lt_of_lt_of_le hx hxy
  have hlog : Int.log 2 x ≤ Int.log 2 y := Int.log_mono_right hx hxy
  rcases lt_or_eq_of_le hlog with hlt | heq
  · have h1 := (roundFloat_pos_bounds p hp hx).2
    have h2 := (roundFloat_pos_bounds p hp hy).1
    have h3 : (2 : ℚ) ^ (Int.log 2 x + 1) ≤ (2 : ℚ) ^ Int.log 2 y :=
      zpow_le_zpow_right₀ (by norm_num) (by omega)
    linarith
  · have hu : (0 : ℚ) < (2 : ℚ) ^ (Int.log 2 y - (p : Int) + 1) := zpow_pos (by norm_num) _
    unfold roundFloat
    rw [if_neg (ne_of_gt hx), if_neg (ne_of_gt hy), abs_of_pos hx, abs_of_pos hy, heq]
    simp only []
    apply mul_le_mul_of_nonneg_right _ (le_of_lt hu)
    have := roundNearestEven_mono (div_le_div_of_nonneg_right hxy (le_of_lt hu))
    exact_mod_cast this

/-- The rounding of a binary floating-point format is monotone. -/
theorem roundFloat_monotone (p : Nat) (hp : 1 ≤ p) : Monotone (roundFloat p) := by
  have hpos : ∀ x : ℚ, 0 < x → 0 ≤ roundFloat p x := by
    intro x hx
    exact le_trans (le_of_lt (zpow_pos (by norm_num) _)) (roundFloat_pos_bounds p hp hx).1
  have h0 : roundFloat p 0 = 0 := by
    unfold roundFloat
    rw [if_pos rfl]
  have hnonneg : ∀ x : ℚ, 0 ≤ x → 0 ≤ roundFloat p x := by
    intro x hx
    rcases lt_or_eq_of_le hx with h | h
    · exact hpos x h
    · rw [← h, h0]
  have hnonpos : ∀ x : ℚ, x ≤ 0 → roundFloat p x ≤ 0 := by
    intro x hx
    have := hnonneg (-x) (by linarith)
    rw [roundFloat_neg] at this
    linarith
  intro x y hxy
  rcases lt_trichotomy 0 x with hx | hx | hx
  · exact roundFloat_mono_pos p hp hx hxy
  · rw [← hx] at hxy ⊢
    rw [h0]
    exact hnonneg y hxy
  · rcases le_or_lt 0 y with hy | hy
    · exact le_trans (hnonpos x (le_of_lt hx)) (hnonneg y hy)
    · have := roundFloat_mono_pos p hp (by linarith : (0 : ℚ) < -y) (by linarith : -y ≤ -x)
      rw [roundFloat_neg, roundFloat_neg] at this
      linarith

/-- The binary exponent of a rational between `2^e` and `2^(e+1)`. -/
theorem log2_eq {x : ℚ} {e : Int} (hx : 0 < x) (h1 : (2 : ℚ) ^ e ≤ x)
    (h2 : x < (2 : ℚ) ^ (e + 1)) : Int.log 2 |x| = e := by
  rw [abs_of_pos hx]
  have a := (Int.zpow_le_iff_le_log (b := 2) (by norm_num) hx).mp (by exact_mod_cast h1)
  have b := (Int.lt_zpow_iff_log_lt (b := 2) (by norm_num) hx).mp (by exact_mod_cast h2)
  omega

/-- The value `1` is a `float`. -/
theorem roundFloat_one : roundFloat 24 1 = 1 := by
  have hl : Int.log 2 |(1 : ℚ)| = 0 := log2_eq (by norm_num) (by norm_num) (by norm_num)
  unfold roundFloat
  rw [if_neg (by norm_num), hl]
  have hf : ⌊(1 : ℚ) / 2 ^ ((0 : Int) - ((24 : Nat) : Int) + 1)⌋ = 2 ^ 23 := by
    rw [Int.floor_eq_iff]
    norm_num
  simp only [roundNearestEven, hf]
  norm_num

/-- The value `2` is a `float`. -/
theorem roundFloat_two : roundFloat 24 2 = 2 := by
  have hl : Int.log 2 |(2 : ℚ)| = 1 := log2_eq (by norm_num) (by norm_num) (by norm_num)
  unfold roundFloat
  rw [if_neg (by norm_num), hl]
  have hf : ⌊(2 : ℚ) / 2 ^ ((1 : Int) - ((24 : Nat) : Int) + 1)⌋ = 2 ^ 23 := by
    rw [Int.floor_eq_iff]
    norm_num
  simp only [roundNearestEven, hf]
  norm_num

/-- The value `2 - 2^-23`, in C notation `0x1.fffffep0`, is a `float`: the largest one
below `2`. -/
theorem roundFloat_below_two : roundFloat 24 (2 - 1 / 2 ^ 23) = 2 - 1 / 2 ^ 23 := by
  have hl : Int.log 2 |(2 - 1 / 2 ^ 23 : ℚ)| = 0 :=
    log2_eq (by norm_num) (by norm_num) (by norm_num)
  unfold roundFloat
  rw [if_neg (by norm_num), hl]
  have hf : ⌊(2 - 1 / 2 ^ 23 : ℚ) / 2 ^ ((0 : Int) - ((24 : Nat) : Int) + 1)⌋ = 2 ^ 24 - 1 := by
    rw [Int.floor_eq_iff]
    norm_num
  simp only [roundNearestEven, hf]
  norm_num

/-- The sum `(2 - 2^-23) + 1` lies midway between the `float` values `3 - 2^-22` and `3`
and is rounded to `3`, whose last bit is even. -/
theorem roundFloat_tie : roundFloat 24 (2 - 1 / 2 ^ 23 + 1) = 3 := by
  have hl : Int.log 2 |(2 - 1 / 2 ^ 23 + 1 : ℚ)| = 1 :=
    log2_eq (by norm_num) (by norm_num) (by norm_num)
  unfold roundFloat
  rw [if_neg (by norm_num), hl]
  have hf : ⌊(2 - 1 / 2 ^ 23 + 1 : ℚ) / 2 ^ ((1 : Int) - ((24 : Nat) : Int) + 1)⌋ =
      3 * 2 ^ 22 - 1 := by
    rw [Int.floor_eq_iff]
    norm_num
  simp only [roundNearestEven, hf]
  norm_num

/-- In floating-point arithmetic with `p ≥ 1` significant bits, a computed cell coordinate
of a point with `X0[d] - R0 ≤ x` is not negative, for a centre `X0[d]` of the format. -/
theorem cellCoord_float_nonneg (p : Nat) (hp : 1 ≤ p) (R0 X0d : ℚ) (maxLevel : Nat)
    (hR0 : 0 < R0) (hX : roundFloat p X0d = X0d) (x : ℚ) (c : Int) (hlo : X0d - R0 ≤ x)
    (hc : cellCoord (roundFloat p) R0 X0d maxLevel x = some c) : 0 ≤ c :=
  cellCoord_nonneg (roundFloat p) (roundFloat_monotone p hp) (if_pos rfl) R0 X0d maxLevel hR0
    hX x c hlo hc

/-- In `float` arithmetic the upper bound of the cell coordinate is lost below the upper
face: with `maxLevel = 0`, `R0 = 1`, `X0[d] = 1` the `float` value `x = 2 - 2^-23 < 2` gets
`x + R0` rounded to `3`, the quotient `1` and so the cell coordinate `1 = 2^0`. -/
theorem cellCoord_float_above :
    roundFloat 24 (2 - 1 / 2 ^ 23) = 2 - 1 / 2 ^ 23 ∧ (2 - 1 / 2 ^ 23 : ℚ) < 1 + 1 ∧
      cellCoord (roundFloat 24) 1 1 0 (2 - 1 / 2 ^ 23) = some 1 ∧ ¬ ((1 : Int) ≤ 2 ^ 0 - 1) := by
  refine ⟨roundFloat_below_two, by norm_num, ?_, by decide⟩
  have e1 : (2 : ℚ) * 1 = 2 := by norm_num
  have e2 : (2 : ℚ) / ((1 : Int) : ℚ) = 2 := by norm_num
  have e3 : (3 : ℚ) - 1 = 2 := by norm_num
  have e4 : (2 : ℚ) / 2 = 1 := by norm_num
  have e5 : Fmm.truncInt (1 : ℚ) = 1 := by
    unfold Fmm.truncInt
    norm_num
  unfold cellCoord cellDiameter cellCoordOf
  rw [shl1_natCast (by norm_num : 0 ≤ 30)]
  simp only [Option.some_bind, pow_zero, e1, roundFloat_two, e2, roundFloat_tie, e3, e4,
    roundFloat_one, e5]
  rw [if_neg (by norm_num)]
  rfl

end Fmm

namespace HelmholtzKernel

/-- C14 (amended). After `init`, for every `P`, the `M2M` translation sums over exactly
`max(6, 2P)` Gauss-Legendre nodes, while the `M2L` and the `L2L` translations each sum
over exactly `max(6, P)` nodes: `L2L` loops over `nquad`, not over `nquad2`. -/
theorem quadrature_nodes (P : Int) :
    ((M2Mnodes (init P)).length : Int) = max 6 (2 * P) ∧
    ((M2Lnodes (init P)).length : Int) = max 6 P ∧
    ((L2Lnodes (init P)).length : Int) = max 6 P := by
  unfold M2Mnodes M2Lnodes L2Lnodes init
  simp only [List.length_range]
  refine ⟨?_, ?_, ?_⟩ <;> rw [Int.toNat_of_nonneg] <;> exact le_max_of_le_left (by decide)

/-- Counterexample to C14 as written: for `P = 4` the `L2L` translation sums over `6` nodes,
not over `max(6, 2P) = 8`. -/
theorem quadrature_nodes_counterexample :
    (L2Lnodes (init 4)).length = 6 ∧ ((L2Lnodes (init 4)).length : Int) ≠ max 6 (2 * 4) := by
  constructor <;> decide

/-- The slot `n*n + n + m` of a coefficient with `-n ≤ m ≤ n` lies between `n^2` and
`(n+1)^2 - 1`. -/
theorem nmIndex_bounds (n m : Int) (h1 : -n ≤ m) (h2 : m ≤ n) :
    n * n ≤ nmIndex n m ∧ nmIndex n m < (n + 1) * (n + 1) := by
  unfold nmIndex
  constructor <;> nlinarith

/-- C15. For every `P ≥ 1` the index map `(n, m) ↦ n*n + n + m` is a
bijection from the pairs with `0 ≤ n < P`, `-n ≤ m ≤ n` onto the slots `[0, P*P)`:
every coefficient has exactly one slot and every slot is used. -/
theorem nmIndex_bijOn (P : Int) (hP : 1 ≤ P) :
    Set.BijOn (fun p : Int × Int => nmIndex p.1 p.2)
      {p | 0 ≤ p.1 ∧ p.1 < P ∧ -p.1 ≤ p.2 ∧ p.2 ≤ p.1} (Set.Ico 0 (P * P)) := by
  refine ⟨?_, ?_, ?_⟩
  · rintro ⟨n, m⟩ ⟨h0, hP, h1, h2⟩
    have hb := nmIndex_bounds n m h1 h2
    simp only [Set.mem_Ico]
    constructor
    · nlinarith
    · nlinarith
  · rintro ⟨n, m⟩ ⟨h0, _, h1, h2⟩ ⟨n', m'⟩ ⟨h0', _, h1', h2'⟩ heq
    simp only at heq h0 h1 h2 h0' h1' h2'
    have hb := nmIndex_bounds n m h1 h2
    have hb' := nmIndex_bounds n' m' h1' h2'
    have hn : n = n' := by
      rcases lt_trichotomy n n' with h | h | h
      · exfalso
        nlinarith
      · exact h
      · exfalso
        nlinarith
    subst hn
    unfold nmIndex at heq
    have hm : m = m' := by linarith
    rw [hm]
  · intro k hk
    simp only [Set.mem_Ico] at hk
    obtain ⟨k', rfl⟩ := Int.eq_ofNat_of_zero_le hk.1
    have hs1 : Nat.sqrt k' * Nat.sqrt k' ≤ k' := Nat.sqrt_le k'
    have hs2 : k' < (Nat.sqrt k' + 1) * (Nat.sqrt k' + 1) := Nat.lt_succ_sqrt k'
    have hs1' : ((Nat.sqrt k' : Int)) * (Nat.sqrt k') ≤ (k' : Int) := by exact_mod_cast hs1
    have hs2' : (k' : Int) < ((Nat.sqrt k' : Int) + 1) * ((Nat.sqrt k' : Int) + 1) := by
      exact_mod_cast hs2
    have hs0 : (0 : Int) ≤ (Nat.sqrt k' : Int) := Int.natCast_nonneg _
    refine ⟨((Nat.sqrt k' : Int), (k' : Int) - (Nat.sqrt k') * (Nat.sqrt k') - (Nat.sqrt k')),
      ⟨hs0, ?_, ?_, ?_⟩, ?_⟩
    · simp only
      by_contra hge
      have hge' : P ≤ (Nat.sqrt k' : Int) := not_lt.mp hge
      nlinarith [hk.2]
    · simp only
      linarith
    · simp only
      nlinarith
    · simp only [nmIndex]
      ring

/-- Witness for C15: `P = 2`, the four slots `0, 1, 2, 3`. -/
theorem nmIndex_bijOn_witness :
    Set.BijOn (fun p : Int × Int => nmIndex p.1 p.2)
      {p | 0 ≤ p.1 ∧ p.1 < 2 ∧ -p.1 ≤ p.2 ∧ p.2 ≤ p.1} (Set.Ico 0 (2 * 2)) :=
  nmIndex_bijOn 2 (by decide)

end HelmholtzKernel

end ExaFMM

/-! # Theorems on the distribution of bodies, the error report, the empty body set and
the selection of the n-th element -/

namespace ExaFMM

namespace Acoustics

/-- The assertion of `FMM_Init` fails on a rank exactly when `nipp` does not divide the
count of that rank. -/
theorem FMM_Init_assertFailed_iff (mpisize mpirank nipp nb : Int) :
    FMM_Init mpisize mpirank nipp nb = InitResult.assertFailed ↔
      ¬ nipp ∣ (initCounts mpisize mpirank nipp nb).1 := by
  unfold FMM_Init
  simp only []
  rw [Int.dvd_iff_tmod_eq_zero]
  by_cases h : (initCounts mpisize mpirank nipp nb).1.tmod nipp = 0
  · rw [if_neg (not_not.mpr h)]
    constructor
    · intro h1
      by_cases h2 : (initCounts mpisize mpirank nipp nb).1 < 0
      · rw [if_pos h2] at h1
        cases h1
      · rw [if_neg h2] at h1
        cases h1
    · intro h1
      exact absurd h h1
  · rw [if_pos h]
    exact ⟨fun _ => h, fun _ => rfl⟩

/-- The count of a rank other than the last is a multiple of `nipp`. -/
theorem initCounts_dvd_of_ne_last (mpisize mpirank nipp nb : Int)
    (h : mpirank ≠ mpisize - 1) : nipp ∣ (initCounts mpisize mpirank nipp nb).1 := by
  unfold initCounts
  simp only []
  rw [if_neg h]
  exact Dvd.intro_left _ rfl

/-- The count of the last rank is a multiple of `nipp` exactly when the total is. -/
theorem initCounts_dvd_last (mpisize nipp nb : Int) :
    nipp ∣ (initCounts mpisize (mpisize - 1) nipp nb).1 ↔ nipp ∣ nb := by
  unfold initCounts
  simp only []
  rw [if_pos trivial]
  have hd : nipp ∣ round (((Int.tdiv nb mpisize : Int) : ℚ) / (nipp : ℚ)) * nipp * (mpisize - 1) :=
    Dvd.dvd.mul_right (Dvd.intro_left _ rfl) _
  constructor
  · intro h
    have := dvd_add h hd
    rwa [sub_add_cancel] at this
  · intro h
    exact dvd_sub h hd

/-- C17. For `mpisize ≥ 1` and `nipp ≥ 1`, the assertion `(nb % nipp) == 0` of `FMM_Init`
fails on at least one rank if and only if the total body count is not a multiple of
`nipp`; it never fails on a rank other than the last, whose count is a multiple of
`nipp` by construction. -/
theorem FMM_Init_assert_iff (mpisize nipp nb : Int) (hm : 1 ≤ mpisize) (_hn : 1 ≤ nipp) :
    ((∃ r, 0 ≤ r ∧ r < mpisize ∧ FMM_Init mpisize r nipp nb = InitResult.assertFailed) ↔
      ¬ nipp ∣ nb) ∧
    (∀ r, r ≠ mpisize - 1 →
      nipp ∣ (initCounts mpisize r nipp nb).1 ∧
        FMM_Init mpisize r nipp nb ≠ InitResult.assertFailed) := by
  have hnl : ∀ r, r ≠ mpisize - 1 →
      nipp ∣ (initCounts mpisize r nipp nb).1 ∧
        FMM_Init mpisize r nipp nb ≠ InitResult.assertFailed := by
    intro r hr
    have hd := initCounts_dvd_of_ne_last mpisize r nipp nb hr
    exact ⟨hd, fun hf => (FMM_Init_assertFailed_iff mpisize r nipp nb).mp hf hd⟩
  refine ⟨⟨?_, ?_⟩, hnl⟩
  · rintro ⟨r, _, _, hf⟩
    by_cases hr : r = mpisize - 1
    · subst hr
      rw [FMM_Init_assertFailed_iff, initCounts_dvd_last] at hf
      exact hf
    · exact absurd hf (hnl r hr).2
  · intro hnd
    refine ⟨mpisize - 1, by omega, by omega, ?_⟩
    rw [FMM_Init_assertFailed_iff, initCounts_dvd_last]
    exact hnd

/-- Witness for C17: two ranks and patches of two points. -/
theorem FMM_Init_assert_iff_witness :
    ((∃ r, 0 ≤ r ∧ r < 2 ∧ FMM_Init 2 r 2 7 = InitResult.assertFailed) ↔ ¬ (2 : Int) ∣ 7) ∧
    (∀ r, r ≠ 2 - 1 →
      2 ∣ (initCounts 2 r 2 7).1 ∧ FMM_Init 2 r 2 7 ≠ InitResult.assertFailed) :=
  FMM_Init_assert_iff 2 2 7 (by decide) (by decide)

/-- The rounding of line 108 for four bodies on four ranks with patches of two points:
`round(1 / 2.0) = 1`. -/
theorem round_example : round (((Int.tdiv 4 4 : Int) : ℚ) / ((2 : Int) : ℚ)) = 1 := by
  have h : Int.tdiv 4 4 = 1 := by decide
  rw [h]
  unfold round
  rw [if_pos (by norm_num), Int.floor_eq_iff]
  constructor <;> norm_num

/-- C16 (failing input). With `mpisize = 4`, `nipp = 2` and `nb = 4` bodies in all, every rank
but the last takes `nb_avg = 2` bodies and the last rank computes the count
`4 - 2*3 = -2`: the assertion passes, `bbodies.resize(-2)` cannot succeed, and rank `2`
reads the input indices `4` and `5`, outside `[0, 4)`. -/
theorem FMM_Init_negative_count :
    (0 : Int) ≤ 4 ∧ (2 : Int) ∣ 4 ∧
    initCounts 4 3 2 4 = (-2, 2) ∧
    FMM_Init 4 3 2 4 = InitResult.resizeFailed ∧
    FMM_Init 4 2 2 4 = InitResult.ok [4, 5] := by
  have hc3 : initCounts 4 3 2 4 = (-2, 2) := by
    unfold initCounts
    simp only []
    rw [round_example]
    decide
  have hc2 : initCounts 4 2 2 4 = (2, 2) := by
    unfold initCounts
    simp only []
    rw [round_example]
    decide
  refine ⟨by decide, by decide, hc3, ?_, ?_⟩
  · unfold FMM_Init
    simp only []
    rw [hc3]
    decide
  · unfold FMM_Init
    simp only []
    rw [hc2]
    decide

end Acoustics

namespace Fmm

/-- C19 (failing input). Two targets with unit charges, potentials `(1, 0)` from the FMM and
`(0, 1)` from the direct sum: `verify` sets `potDif = 0` and `potNrm = 1`, so `main` prints
`0` as `Rel. L2 Error (pot)`, while the squared relative L2 error of the potentials
is `2`.  The code squares the difference of the charge-weighted sums instead of
summing squared differences, as it does for the acceleration. -/
theorem verify_potential_ratio :
    verify 2 [![1, 0, 0, 0], ![0, 0, 0, 0]] [![0, 0, 0, 0], ![1, 0, 0, 0]]
        [![0, 0, 0, 1], ![0, 0, 0, (1 : ℚ)]] 0 0 = some (0, 1, 0, 0) ∧
      relL2Pot 2 [![1, 0, 0, 0], ![0, 0, 0, 0]] [![0, 0, 0, 0], ![1, 0, 0, (0 : ℚ)]] = 2 ∧
      (0 : ℚ) / 1 ≠ 2 := by
  refine ⟨?_, ?_, by norm_num⟩
  · simp [verify, forUp, verifyPot, verifyAcc, List.range_succ, List.finRange]
  · simp [relL2Pot, List.range_succ]
    norm_num

/-- The closing loop of `fillLeafs` on a `Leafs` array that is all zero warns for every leaf. -/
theorem fillLeafs_warnings_zero (numLeafs : Nat) :
    forUp numLeafs (fun i w => ((List.replicate numLeafs ((0 : Int), (0 : Int)))[i]?).bind
      fun e => some (if e.2 = e.1 then w ++ [i] else w)) [] = some (List.range numLeafs) := by
  obtain ⟨w, hw, hP⟩ := forUp_inv numLeafs
    (fun i w => ((List.replicate numLeafs ((0 : Int), (0 : Int)))[i]?).bind
      fun e => some (if e.2 = e.1 then w ++ [i] else w))
    (fun i w => w = List.range i) [] rfl
    (by
      intro i w hi hw
      refine ⟨w ++ [i], ?_, ?_⟩
      · show ((List.replicate numLeafs ((0 : Int), (0 : Int)))[i]?).bind
          (fun e => some (if e.2 = e.1 then w ++ [i] else w)) = some (w ++ [i])
        rw [List.getElem?_replicate, if_pos hi]
        rfl
      · show w ++ [i] = List.range (i + 1)
        rw [hw, List.range_succ])
  rw [hw, hP]

end Fmm

namespace MyMPI

/-- Removing equal neighbours from a run of equal elements leaves one of them. -/
theorem unique_replicate (n : Nat) (a : Int) : unique (List.replicate (n + 1) a) = [a] := by
  induction n with
  | zero => rfl
  | succ n ih =>
    rw [List.replicate_succ, List.replicate_succ, unique, if_pos rfl, ← List.replicate_succ, ih]

/-- Writing the repeated value into a run of equal elements changes nothing. -/
theorem set_replicate_self (n i : Nat) (a : Int) :
    (List.replicate n a).set i a = List.replicate n a := by
  apply List.ext_getElem?
  intro k
  rw [List.getElem?_set]
  by_cases hk : i = k
  · subst hk
    rw [if_pos rfl, List.length_replicate, List.getElem?_replicate]
  · rw [if_neg hk]

/-- Sorting a run of equal elements leaves it as it is. -/
theorem insertionSort_replicate (n : Nat) (a : Int) :
    (List.replicate n a).insertionSort (fun x y => x ≤ y) = List.replicate n a := by
  apply List.Sorted.insertionSort_eq
  unfold List.Sorted
  rw [List.pairwise_replicate]
  exact Or.inr (le_refl a)

/-- The first `getBucket` on thousand zeros followed by a one: the stride is `1`, the
thousand samples are the zeros, and one bucket is left. -/
theorem getBucket_gap :
    getBucket (List.replicate 1000 0 ++ [1]) 1001 0 (List.replicate 1000 0) =
      some (1, List.replicate 1000 0, [0]) := by
  have hloop : forUp 1000 (fun i send1 =>
      (readAt (List.replicate 1000 (0 : Int) ++ [1])
        (0 + (i : Int) * Int.tdiv 1001 1000)).bind fun v => writeAt send1 i v)
      (List.replicate 1000 0) = some (List.replicate 1000 0) := by
    obtain ⟨s, hs, hP⟩ := forUp_inv 1000 (fun i send1 =>
      (readAt (List.replicate 1000 (0 : Int) ++ [1])
        (0 + (i : Int) * Int.tdiv 1001 1000)).bind fun v => writeAt send1 i v)
      (fun _ s => s = List.replicate 1000 0) (List.replicate 1000 0) rfl
      (by
        intro i s hi hs
        refine ⟨List.replicate 1000 0, ?_, rfl⟩
        show (readAt (List.replicate 1000 (0 : Int) ++ [1])
          (0 + (i : Int) * Int.tdiv 1001 1000)).bind (fun v => writeAt s i v) = _
        have h1 : Int.tdiv 1001 1000 = 1 := by decide
        have hr : readAt (List.replicate 1000 (0 : Int) ++ [1]) (0 + (i : Int) * 1) = some 0 := by
          unfold readAt
          rw [if_pos (by omega)]
          have : (0 + (i : Int) * 1).toNat = i := by omega
          rw [this, List.getElem?_append_left (by rw [List.length_replicate]; exact hi),
            List.getElem?_replicate, if_pos hi]
        rw [h1, hr, hs, Option.some_bind]
        unfold writeAt
        have hlen : (List.replicate 1000 (0 : Int)).length = 1000 := List.length_replicate _ _
        have hc : 0 ≤ (i : Int) ∧ (i : Int).toNat < (List.replicate 1000 (0 : Int)).length := by
          rw [hlen]
          omega
        rw [if_pos hc]
        rw [set_replicate_self])
    rw [hs, hP]
  have hlen : ((List.replicate 1000 (0 : Int)).length : Int) = 1000 := by
    rw [List.length_replicate]
    rfl
  have hmin : min (Int.tdiv 1000 1) (1001 : Int) = 1000 := by decide
  have h0 : (List.replicate 1000 (0 : Int) ++ [1])[0]? = some 0 := by
    rw [List.getElem?_append_left (by rw [List.length_replicate]; decide),
      List.getElem?_replicate, if_pos (by decide)]
  unfold getBucket
  simp only []
  rw [hlen, hmin, h0]
  unfold forNe
  rw [if_neg (by decide)]
  have ht : (1000 : Int).toNat = 1000 := by decide
  rw [ht, Option.some_bind, hloop, Option.some_bind]
  have htake : (List.replicate 1000 (0 : Int)).take 1000 = List.replicate 1000 0 := by
    rw [List.take_of_length_le (by rw [List.length_replicate])]
  rw [htake, insertionSort_replicate, unique_replicate 999 0]
  rfl

/-- C18 (failing input). The sorted array of thousand zeros followed by a one, with
`numData = 1001` and `n = 1001`: the samples are the first thousand elements, all
equal, so one bucket is left before the loop starts and `nth_element` returns
`recv[0] = 0`, while the element of rank `1001` is `data[1000] = 1`. -/
theorem nth_element_sample_gap (fuel : Nat) :
    List.Sorted (fun a b : Int => a ≤ b) (List.replicate 1000 0 ++ [1]) ∧
    (List.replicate 1000 (0 : Int) ++ [1])[1001 - 1]? = some 1 ∧
    nth_element fuel (List.replicate 1000 0 ++ [1]) 1001 1001 = some 0 := by
  refine ⟨?_, ?_, ?_⟩
  · unfold List.Sorted
    rw [List.pairwise_append, List.pairwise_replicate]
    refine ⟨Or.inr (le_refl _), List.pairwise_singleton _ _, ?_⟩
    intro a ha b hb
    rw [List.mem_replicate] at ha
    rw [List.mem_singleton] at hb
    rw [ha.2, hb]
    decide
  · rw [List.getElem?_append_right (by rw [List.length_replicate]),
      List.length_replicate]
    rfl
  · unfold nth_element
    simp only []
    rw [getBucket_gap, Option.some_bind]
    have hloop : ∀ s : NthState, s.numBucket = 1 →
        nthLoop (List.replicate 1000 0 ++ [1]) 1001 1000 fuel s = some s := by
      intro s hs
      cases fuel with
      | zero => unfold nthLoop; rw [if_neg (by omega)]
      | succ f => unfold nthLoop; rw [if_neg (by omega)]
    rw [hloop _ rfl]
    rfl

end MyMPI

end ExaFMM

/-! # Theorems on the octree sizes, the stability of the sort and the bucket index -/

namespace ExaFMM

namespace Fmm

/-- C23. For `0 ≤ maxLevel ≤ 9` no `int` operation of `Fmm::allocate` overflows, and it sets
`numCells = ((1 << 3*(maxLevel+1)) - 1) / 7` to the sum of `8^l` over `l = 0..maxLevel`, the
number of cells of the complete octree of depth `maxLevel`, and `numLeafs` to
`8^maxLevel`. -/
theorem allocate_sizes (maxLevel : Nat) (h : maxLevel ≤ 9) :
    allocate (maxLevel : Int) =
      some (∑ l ∈ Finset.range (maxLevel + 1), (8 : Int) ^ l, (8 : Int) ^ maxLevel) := by
  interval_cases maxLevel <;> simp [Finset.sum_range_succ] <;> decide

/-- Witness for C23: depth `9`, the deepest tree whose sizes fit an `int`. -/
theorem allocate_sizes_witness :
    allocate ((9 : Nat) : Int) =
      some (∑ l ∈ Finset.range (9 + 1), (8 : Int) ^ l, (8 : Int) ^ 9) :=
  allocate_sizes 9 (by decide)

/-- C27 (amended). For `numBodies ≥ 1` and keys whose spread `Imax - Imin + 1` fits `int`,
`Fmm::sort` is stable: it places input body `i` at position `π i` of `bodies2` for a
bijection `π` of `[0, numBodies)`, and for input indices `i < j` with
`key[i] == key[j]` body `i` gets the lower position, `π i < π j`: bodies sharing a key
keep their input order. -/
theorem sort_stable {R : Type} (numBodies : Nat) (bodies bodies2 : List (Body4 R))
    (key : List Int) (hn : 1 ≤ numBodies) (hk : key.length = numBodies)
    (hb : bodies.length = numBodies) (hb2 : bodies2.length = numBodies)
    (hs : ∀ a ∈ key, ∀ b ∈ key, a - b + 1 < 2 ^ 31) :
    ∃ out, sort numBodies bodies bodies2 key = some out ∧
      ∃ π : Fin numBodies → Fin numBodies, Function.Bijective π ∧
        (∀ i : Fin numBodies, out[(π i).val]? = bodies[i.val]?) ∧
        ∀ i j : Fin numBodies, i < j → key[i.val]? = key[j.val]? → π i < π j := by
  obtain ⟨out, hrun, _, hpos⟩ := sort_spec numBodies bodies bodies2 key hn hk hb hb2 hs
  refine ⟨out, hrun, sortPerm key numBodies, sortPerm_bijective key numBodies hk, ?_, ?_⟩
  · intro i
    rw [sortPerm_val key numBodies hk]
    exact hpos i.val i.2
  · intro i j hij hkey
    have hi : i.val < key.length := by rw [hk]; exact i.2
    have hi' : key[i.val]? = some key[i.val] := List.getElem?_eq_getElem hi
    show (sortPerm key numBodies i).val < (sortPerm key numBodies j).val
    rw [sortPerm_val key numBodies hk, sortPerm_val key numBodies hk]
    exact sortPos_lt_of_key_eq key _ hi' (by rw [← hkey]; exact hi') hij

/-- Witness for C27: two bodies with the same key. -/
theorem sort_stable_witness :
    ∃ out, sort 2 [![1, 2, 3, 4], ![5, 6, 7, (8 : Int)]] [![0, 0, 0, 0], ![0, 0, 0, 0]] [3, 3]
        = some out ∧
      ∃ π : Fin 2 → Fin 2, Function.Bijective π ∧
        (∀ i : Fin 2, out[(π i).val]? = [![1, 2, 3, 4], ![5, 6, 7, (8 : Int)]][i.val]?) ∧
        ∀ i j : Fin 2, i < j → [(3 : Int), 3][i.val]? = [(3 : Int), 3][j.val]? → π i < π j :=
  sort_stable 2 [![1, 2, 3, 4], ![5, 6, 7, (8 : Int)]] [![0, 0, 0, 0], ![0, 0, 0, 0]] [3, 3]
    (by decide) rfl rfl rfl (by decide)

/-- Counterexample to C27 as written: three bodies with the keys `0`, `0`, `2147483647`.
The bodies `0` and `1` share a key, but `Imax - Imin + 1 = 2^31` overflows `int` and
`sort` places no body, so no order is kept. -/
theorem sort_stable_counterexample :
    (1 : Nat) ≤ 3 ∧ [(0 : Int), 0, 2147483647][0]? = [(0 : Int), 0, 2147483647][1]? ∧
    (2147483647 : Int) - 0 + 1 = 2 ^ 31 ∧
    sort 3 [![1, 2, 3, 4], ![5, 6, 7, 8], ![9, 10, 11, (12 : Int)]]
      [![0, 0, 0, 0], ![0, 0, 0, 0], ![0, 0, 0, 0]] [0, 0, 2147483647] = none := by
  refine ⟨by decide, rfl, by decide, ?_⟩
  simp [sort, forUp, sortMinMax, List.range_succ, int32]

end Fmm

namespace MyMPI

/-- Reading an `int` index inside a list. -/
theorem readAt_of_lt {α : Type} (a : List α) (i : Int) (h0 : 0 ≤ i) (h1 : i.toNat < a.length) :
    readAt a i = some (a[i.toNat]) := by
  unfold readAt
  rw [if_pos h0, List.getElem?_eq_getElem h1]

/-- The loop of `findNth`, started at `nth ≤ numBucket`, stops at an index between `nth`
and `numBucket`; it stops at `nth` itself exactly when the first test fails. -/
theorem findNth_range (n gOffset numBucket : Int) (iredu : List Int) :
    ∀ (fuel : Nat) (nth r : Int), nth ≤ numBucket →
      findNth n gOffset numBucket iredu fuel nth = some r →
      nth ≤ r ∧ r ≤ numBucket ∧
        (r = nth ↔ ¬ (n - gOffset > (readAt iredu nth).getD 0 ∧ nth < numBucket)) := by
  intro fuel
  induction fuel with
  | zero => intro nth r _ h; simp [findNth] at h
  | succ fuel ih =>
    intro nth r hle h
    unfold findNth at h
    cases hr : readAt iredu nth with
    | none => rw [hr] at h; simp at h
    | some v =>
      rw [hr, Option.some_bind] at h
      by_cases hc : n - gOffset > v ∧ nth < numBucket
      · rw [if_pos hc] at h
        obtain ⟨h1, h2, _⟩ := ih (nth + 1) r (by omega) h
        refine ⟨by omega, h2, ?_⟩
        simp only [Option.getD_some]
        constructor
        · intro he; omega
        · intro hn; exact absurd hc hn
      · rw [if_neg hc] at h
        simp only [Option.some.injEq] at h
        subst h
        refine ⟨le_refl _, hle, ?_⟩
        simp only [Option.getD_some]
        exact ⟨fun _ => hc, fun _ => trivial⟩

/-- The loop of `findNth` returns when every index up to `numBucket` lies inside `iredu`. -/
theorem findNth_returns (n gOffset numBucket : Int) (iredu : List Int)
    (hlen : numBucket < iredu.length) :
    ∀ (fuel : Nat) (nth : Int), 0 ≤ nth → nth ≤ numBucket → numBucket - nth < fuel →
      ∃ r, findNth n gOffset numBucket iredu fuel nth = some r := by
  intro fuel
  induction fuel with
  | zero => intro nth _ _ h; omega
  | succ fuel ih =>
    intro nth h0 hle hf
    unfold findNth
    rw [readAt_of_lt iredu nth h0 (by omega), Option.some_bind]
    by_cases hc : n - gOffset > iredu[nth.toNat] ∧ nth < numBucket
    · rw [if_pos hc]
      exact ih (nth + 1) (by omega) (by omega) (by omega)
    · rw [if_neg hc]
      exact ⟨nth, rfl⟩

/-- The scan succeeds on buffers that hold `numBucket` entries, keeps the length of
`iredu` and leaves `iredu[0] = 0`. -/
theorem scan_spec (numBucket : Int) (src iredu : List Int) (h1 : 1 ≤ numBucket)
    (hs : numBucket ≤ src.length) (hr : numBucket ≤ iredu.length) :
    ∃ r, scan numBucket src iredu = some r ∧ r.length = iredu.length ∧ r[0]? = some 0 := by
  unfold scan writeAt forNe
  have h0 : 0 < iredu.length := by omega
  rw [if_pos ⟨le_refl _, by simpa using h0⟩, Option.some_bind, if_neg (by omega)]
  obtain ⟨r, hr1, hr2⟩ := forUp_inv (numBucket - 1).toNat
    (fun i r => (readAt r i).bind fun a => (readAt src i).bind fun b =>
      if 0 ≤ (i : Int) + 1 ∧ ((i : Int) + 1).toNat < r.length then
        some (r.set ((i : Int) + 1).toNat (a + b)) else none)
    (fun _ r => r.length = iredu.length ∧ r[0]? = some 0)
    (iredu.set (0 : Int).toNat 0)
    ⟨by rw [List.length_set], by
      rw [List.getElem?_set]
      simp [h0]⟩
    (by
      intro i r hi ⟨hl, hz⟩
      have hi1 : i < r.length := by omega
      have hi2 : i < src.length := by omega
      have hi3 : i + 1 < r.length := by omega
      refine ⟨r.set (i + 1) (r[i] + src[i]), ?_, by rw [List.length_set]; exact hl, ?_⟩
      · show (readAt r (i : Int)).bind _ = _
        rw [readAt_natCast, readAt_natCast, List.getElem?_eq_getElem hi1,
          List.getElem?_eq_getElem hi2, Option.some_bind, Option.some_bind]
        have ht : ((i : Int) + 1).toNat = i + 1 := by omega
        rw [ht, if_pos ⟨by omega, hi3⟩]
      · rw [List.getElem?_set]
        simp only [Nat.add_one_ne_zero, if_false]
        exact hz)
  exact ⟨r, hr1, hr2.1, hr2.2⟩

/-- In an iteration of the loop of `nth_element` on rank 0, with `numBucket ≥ 2` buckets
held by buffers of at least that size: an index selected by
`--nth; if (nth == -1) nth = 0;` satisfies `0 ≤ nth ≤ numBucket - 1` and is `0` whenever
`n - gOffset ≤ 0`; an index is selected whenever `numBucket` is below the buffer size,
so that the loop's read of `iredu[nth]` stays inside `iredu`. -/
theorem nthSelect_range (n gOffset numBucket : Int) (irecv iredu : List Int)
    (h2 : 2 ≤ numBucket) (hs : numBucket ≤ irecv.length) (hr : numBucket ≤ iredu.length) :
    (∀ nth, nthSelect n gOffset numBucket irecv iredu = some nth →
      0 ≤ nth ∧ nth ≤ numBucket - 1 ∧ (n - gOffset ≤ 0 → nth = 0)) ∧
    (numBucket < iredu.length → ∃ nth, nthSelect n gOffset numBucket irecv iredu = some nth) := by
  obtain ⟨r, hscan, hlen, hz⟩ := scan_spec numBucket irecv iredu (by omega) hs hr
  unfold nthSelect
  rw [hscan, Option.some_bind]
  constructor
  · intro nth h
    cases hf : findNth n gOffset numBucket r (r.length + 1) 0 with
    | none => rw [hf] at h; simp at h
    | some nth0 =>
      rw [hf, Option.some_bind] at h
      simp only [Option.some.injEq] at h
      obtain ⟨f1, f2, f3⟩ := findNth_range n gOffset numBucket r _ 0 nth0 (by omega) hf
      have hr0 : (readAt r 0).getD 0 = 0 := by
        unfold readAt
        simp [hz]
      rw [hr0] at f3
      by_cases h0 : nth0 = 0
      · subst h0
        simp only [zero_sub, if_true] at h
        subst h
        exact ⟨le_refl _, by omega, fun _ => rfl⟩
      · rw [if_neg (by omega)] at h
        subst h
        refine ⟨by omega, by omega, ?_⟩
        intro hle
        exfalso
        exact h0 (f3.mpr (fun hc => by omega))
  · intro hlt
    obtain ⟨nth0, hf⟩ := findNth_returns n gOffset numBucket r (by rw [hlen]; exact hlt)
      (r.length + 1) 0 (le_refl _) (by omega) (by omega)
    rw [hf, Option.some_bind]
    exact ⟨_, rfl⟩

/-- Example: three buckets with the counts `2, 4, 6` in buffers of four entries. -/
theorem nthSelect_range_witness :
    (∀ nth, nthSelect 5 0 3 [2, 4, 6, 0] [9, 9, 9, 9] = some nth →
      0 ≤ nth ∧ nth ≤ 3 - 1 ∧ ((5 : Int) - 0 ≤ 0 → nth = 0)) ∧
    ((3 : Int) < ([9, 9, 9, 9] : List Int).length →
      ∃ nth, nthSelect 5 0 3 [2, 4, 6, 0] [9, 9, 9, 9] = some nth) :=
  nthSelect_range 5 0 3 [2, 4, 6, 0] [9, 9, 9, 9] (by decide) (by decide) (by decide)

end MyMPI

end ExaFMM

/-! # Theorems on the quadrature tables and the Bessel and Hankel routines -/

namespace ExaFMM

/-- A loop whose first step fails has no result. -/
theorem forUp_first_none {σ : Type} (n : Nat) (f : Nat → σ → Option σ) (s : σ)
    (h : f 0 s = none) : forUp (n + 1) f s = none := by
  unfold forUp
  rw [List.range_succ_eq_map, List.foldlM_cons, h]
  rfl

/-- Writing at an index at or beyond the length has no result. -/
theorem writeAt_of_length_le {α : Type} (a : List α) (i : Int) (v : α)
    (h : (a.length : Int) ≤ i) : writeAt a i v = none := by
  unfold writeAt
  rw [if_neg]
  intro hc
  omega

/-- Writing at a negative index has no result. -/
theorem writeAt_of_neg {α : Type} (a : List α) (i : Int) (v : α) (h : i < 0) :
    writeAt a i v = none := by
  unfold writeAt
  rw [if_neg]
  intro hc
  omega

namespace HelmholtzKernel

/-- The first statement of `legendre` that writes, `xq[nq-1] = cos(h)`, is outside an array
`xq` shorter than `nq`. -/
theorem legendre_short {K : Type} [LinearOrderedField K] (fn : Cmath K) (pi EPS : K)
    (nq : Nat) (xq wq : List K) (hq : 1 ≤ nq) (hlen : xq.length < nq) :
    legendre fn pi EPS nq xq wq = none := by
  obtain ⟨m, rfl⟩ : ∃ m, nq = m + 1 := ⟨nq - 1, by omega⟩
  unfold legendre
  simp only []
  rw [forUp_first_none]
  · rfl
  · apply writeAt_of_length_le
    push_cast
    omega

/-- For an order `1 ≤ P ≤ 5` the first table does not hold the `nquad = 6` nodes. -/
theorem initTables_short {K : Type} [LinearOrderedField K] (fn : Cmath K) (pi EPS : K)
    (P : Nat) (h1 : 1 ≤ P) (h5 : P ≤ 5) : initTables fn pi EPS P = none := by
  have hq : (init (P : Int)).nquad.toNat = 6 := by
    unfold init
    simp only []
    rw [max_eq_left (by omega)]
    rfl
  unfold initTables
  simp only []
  rw [hq, legendre_short fn pi EPS 6 _ _ (by decide) (by rw [List.length_replicate]; omega)]
  rfl

/-- C24 (failing input). For the expansion order `P = 1` (and likewise for `P = 5`) `init` sets
`nquad = fmax(6, P) = 6` and passes `legendre` the table `xquad` of `P` entries: the first
assignment of `legendre`, `xq[nq-1] = ...`, writes index `5`, beyond the allocation. -/
theorem initTables_overflow {K : Type} [LinearOrderedField K] (fn : Cmath K) (pi EPS : K) :
    (init ((1 : Nat) : Int)).nquad = 6 ∧
    initTables fn pi EPS 1 = none ∧ initTables fn pi EPS 5 = none ∧
    legendre fn pi EPS 6 (List.replicate 1 0) (List.replicate 1 0) = none :=
  ⟨by decide, initTables_short fn pi EPS 1 (by decide) (by decide),
    initTables_short fn pi EPS 5 (by decide) (by decide),
    legendre_short fn pi EPS 6 (List.replicate 1 0) (List.replicate 1 0) (by decide)
      (by rw [List.length_replicate]; decide)⟩

/-- C28 (failing input). For `nterms = 1`, a value the clamped `Popt` of `M2L` can take, and every
`z` with `|z| ≥ EPS`, the first assignment of `get_jn`, `jn[nterms-2] = 0`, writes
`jn[-1]`, outside the array, whatever `P`, `scale`, `ifder` and the arrays are. -/
theorem get_jn_underflow {K C : Type} [LinearOrderedField K] [Field C] (cm : Ccmath K C)
    (EPS : K) (P : Nat) (z : C) (scale : K) (jn : List C) (ifder : Bool) (jnd : List C)
    (hz : EPS ≤ cm.abs z) : get_jn cm EPS P 1 z scale jn ifder jnd = none := by
  unfold get_jn
  simp only []
  rw [if_neg (not_lt.mpr hz)]
  unfold get_jnStart
  rw [writeAt_of_neg jn (1 - 2) 0 (by decide)]
  rfl

/-- Witness for C28: order `P = 1`, `z = 2`, arrays of `P + 1 = 2` entries. -/
theorem get_jn_underflow_witness :
    get_jn ccmathExample (1 / 1000000) 1 1 2 3 [9, 9] true [7, 7] = none :=
  get_jn_underflow ccmathExample (1 / 1000000) 1 2 3 [9, 9] true [7, 7]
    (by simp [ccmathExample]; norm_num)

end HelmholtzKernel

/-- Two loops whose states stay related step by step both succeed, in related states. -/
theorem forUp_rel {σ τ : Type} (n : Nat) (f : Nat → σ → Option σ) (g : Nat → τ → Option τ)
    (R : Nat → σ → τ → Prop) (s0 : σ) (t0 : τ) (h0 : R 0 s0 t0)
    (hstep : ∀ i s t, i < n → R i s t →
      ∃ s' t', f i s = some s' ∧ g i t = some t' ∧ R (i + 1) s' t') :
    ∃ s' t', forUp n f s0 = some s' ∧ forUp n g t0 = some t' ∧ R n s' t' := by
  induction n with
  | zero => exact ⟨s0, t0, rfl, rfl, h0⟩
  | succ n ih =>
    obtain ⟨s1, t1, h1, g1, r1⟩ := ih (fun i s t hi hr => hstep i s t (Nat.lt_succ_of_lt hi) hr)
    obtain ⟨s2, t2, h2, g2, r2⟩ := hstep n s1 t1 (Nat.lt_succ_self n) r1
    refine ⟨s2, t2, ?_, ?_, r2⟩
    · unfold forUp at h1 ⊢
      rw [List.range_succ, List.foldlM_append, h1]
      simp [h2]
    · unfold forUp at g1 ⊢
      rw [List.range_succ, List.foldlM_append, g1]
      simp [g2]

/-- Reading at an index inside the list, given as a natural number plus an offset. -/
theorem readAt_eq {α : Type} (a : List α) (i : Int) (k : Nat) (hk : i = (k : Int))
    (h : k < a.length) : readAt a i = some (a[k]) := by
  subst hk
  rw [readAt_natCast, List.getElem?_eq_getElem h]

/-- Writing at an index inside the list, given as a natural number plus an offset. -/
theorem writeAt_eq {α : Type} (a : List α) (i : Int) (k : Nat) (v : α) (hk : i = (k : Int))
    (h : k < a.length) : writeAt a i v = some (a.set k v) := by
  subst hk
  exact writeAt_natCast a k v h

namespace HelmholtzKernel

/-- The branch `abs(z) < EPS` of the two Hankel routines: both clear `hn[0..nterms-1]`. -/
theorem get_hn_small {K C : Type} [LinearOrderedField K] [Field C] (cm : Ccmath K C) (EPS : K)
    (nterms : Nat) (z : C) (scale : K) (hn hnd : List C) (hz : cm.abs z < EPS)
    (hl : nterms ≤ hn.length) (hd : nterms ≤ hnd.length) :
    ∃ h d, get_hn cm EPS nterms z scale hn = some h ∧
      get_hnd cm EPS nterms z scale hn hnd = some (h, d) ∧
      ∀ i, i < nterms → h[i]? = some 0 := by
  unfold get_hn get_hnd
  rw [if_pos hz, if_pos hz]
  obtain ⟨h, t, e1, e2, hr1, _, _, hr4⟩ := forUp_rel nterms
    (fun i h => writeAt h (i : Int) (0 : C))
    (fun i (s : List C × List C) =>
      (writeAt s.1 (i : Int) (0 : C)).bind fun h =>
      (writeAt s.2 (i : Int) (0 : C)).bind fun d => some (h, d))
    (fun i h t => h = t.1 ∧ h.length = hn.length ∧ t.2.length = hnd.length ∧
      ∀ j, j < i → h[j]? = some 0)
    hn (hn, hnd) ⟨rfl, rfl, rfl, fun j hj => absurd hj (Nat.not_lt_zero j)⟩
    (by
      rintro i h ⟨t1, t2⟩ hi ⟨rfl, hlen, hlen2, hzero⟩
      have hi1 : i < h.length := by omega
      have hi2 : i < t2.length := by
        have : t2.length = hnd.length := hlen2
        omega
      refine ⟨h.set i 0, (h.set i 0, t2.set i 0), writeAt_natCast h i 0 hi1, ?_, rfl,
        by rw [List.length_set]; exact hlen, by simp only [List.length_set]; exact hlen2, ?_⟩
      · show (writeAt h (i : Int) (0 : C)).bind _ = _
        rw [writeAt_natCast h i 0 hi1, Option.some_bind, writeAt_natCast t2 i 0 hi2,
          Option.some_bind]
      · intro j hj
        rw [List.getElem?_set]
        by_cases hij : i = j
        · rw [if_pos hij, if_pos (hij ▸ hi1)]
        · rw [if_neg hij]
          exact hzero j (by omega))
  refine ⟨h, t.2, e1, ?_, hr4⟩
  rw [e2, hr1]

/-- The branch `abs(z) >= EPS` of the two Hankel routines: the same `hn`. -/
theorem get_hn_large {K C : Type} [LinearOrderedField K] [Field C] (cm : Ccmath K C) (EPS : K)
    (nterms : Nat) (z : C) (scale : K) (hn hnd : List C) (hz : ¬ cm.abs z < EPS)
    (h2 : 2 ≤ nterms) (hl : nterms ≤ hn.length) (hd : nterms ≤ hnd.length) :
    ∃ h d, get_hn cm EPS nterms z scale hn = some h ∧
      get_hnd cm EPS nterms z scale hn hnd = some (h, d) := by
  have hl0 : 0 < hn.length := by omega
  have hd0 : 0 < hnd.length := by omega
  obtain ⟨v0, hv0⟩ : ∃ v0, v0 = cm.exp (cm.I * z) / (cm.I * z) := ⟨_, rfl⟩
  obtain ⟨v1, hv1⟩ : ∃ v1, v1 = v0 * (cm.ofReal scale / z - cm.I * cm.ofReal scale) := ⟨_, rfl⟩
  have hv1' : v0 * (cm.ofReal 1 / z - cm.I) * cm.ofReal scale = v1 := by
    rw [hv1, map_one]
    ring
  have hl1 : 1 < (hn.set 0 v0).length := by
    rw [List.length_set]; omega
  have hl2 : 1 < ((hn.set 0 v0).set 1 v1).length := by
    rw [List.length_set]; exact hl1
  have e0 : writeAt hn 0 v0 = some (hn.set 0 v0) := writeAt_eq hn 0 0 _ rfl hl0
  have e1 : readAt (hn.set 0 v0) 0 = some v0 := by
    rw [readAt_eq _ 0 0 rfl (by omega)]
    simp
  have e2 : ∀ v, writeAt (hn.set 0 v0) 1 v = some ((hn.set 0 v0).set 1 v) :=
    fun v => writeAt_eq _ 1 1 _ rfl hl1
  have e3 : readAt ((hn.set 0 v0).set 1 v1) 1 = some v1 := by
    rw [readAt_eq _ 1 1 rfl hl2]
    simp
  have e4 : readAt ((hn.set 0 v0).set 1 v1) 0 = some v0 := by
    rw [readAt_eq _ 0 0 rfl (by omega)]
    simp
  have e5 : ∀ v, writeAt hnd 0 v = some (hnd.set 0 v) := fun v => writeAt_eq hnd 0 0 _ rfl hd0
  have e6 : ∀ v w, writeAt (hnd.set 0 v) 1 w = some ((hnd.set 0 v).set 1 w) :=
    fun v w => writeAt_eq _ 1 1 _ rfl (by rw [List.length_set]; omega)
  have hstart : get_hndStart cm (cm.I * z) (cm.ofReal 1 / z) scale hn hnd =
      some ((hn.set 0 v0).set 1 v1, (hnd.set 0 (-v1 / cm.ofReal scale)).set 1
        (-(cm.ofReal 1 / z) * cm.ofReal 2 * v1 + cm.ofReal scale * v0)) := by
    unfold get_hndStart
    rw [← hv0, e0, Option.some_bind, e1, Option.some_bind, hv1', e2, Option.some_bind, e3,
      Option.some_bind, e5, Option.some_bind, e4, Option.some_bind, e6, Option.some_bind]
  unfold get_hn get_hnd
  rw [if_neg hz, if_neg hz]
  simp only []
  rw [hstart, Option.some_bind, ← hv0, e0, Option.some_bind, e1, Option.some_bind, ← hv1, e2,
    Option.some_bind]
  obtain ⟨h, t, f1, f2, hr1, _, _⟩ := forUp_rel (nterms - 2)
    (fun i0 h =>
      (readAt h (((i0 + 2 : Nat) : Int) - 1)).bind fun a1 =>
      (readAt h (((i0 + 2 : Nat) : Int) - 2)).bind fun a2 =>
      writeAt h ((i0 + 2 : Nat) : Int)
        (cm.ofReal scale / z * cm.ofReal (2 * ((i0 + 2 : Nat) : K) - 1) * a1 -
          cm.ofReal (scale * scale) * a2))
    (get_hndStep cm (cm.ofReal 1 / z) scale)
    (fun _ h t => h = t.1 ∧ h.length = hn.length ∧ t.2.length = hnd.length)
    ((hn.set 0 v0).set 1 v1)
    ((hn.set 0 v0).set 1 v1, (hnd.set 0 (-v1 / cm.ofReal scale)).set 1
        (-(cm.ofReal 1 / z) * cm.ofReal 2 * v1 + cm.ofReal scale * v0))
    ⟨rfl, by simp, by simp⟩
    (by
      rintro i h ⟨t1, t2⟩ hi ⟨rfl, hlen, hlen2⟩
      have hlen2' : t2.length = hnd.length := hlen2
      have i1 : i + 1 < h.length := by omega
      have i0 : i < h.length := by omega
      have i2 : i + 2 < h.length := by omega
      have c1 : (((i + 2 : Nat) : Int) - 1) = ((i + 1 : Nat) : Int) := by push_cast; ring
      have c2 : (((i + 2 : Nat) : Int) - 2) = ((i : Nat) : Int) := by push_cast; ring
      have r1 := readAt_eq h _ (i + 1) c1 i1
      have r2 := readAt_eq h _ i c2 i0
      have hval : cm.ofReal scale / z * cm.ofReal (2 * ((i + 2 : Nat) : K) - 1) * h[i + 1] -
          cm.ofReal (scale * scale) * h[i] =
          (cm.ofReal 1 / z * cm.ofReal (2 * ((i + 2 : Nat) : K) - 1) * h[i + 1] -
            cm.ofReal scale * h[i]) * cm.ofReal scale := by
        rw [map_one, map_mul]
        ring
      have w1 : ∀ v, writeAt h ((i + 2 : Nat) : Int) v = some (h.set (i + 2) v) :=
        fun v => writeAt_natCast h (i + 2) v i2
      have i2' : ∀ v, i + 2 < (h.set (i + 2) v).length := fun v => by
        rw [List.length_set]; exact i2
      have r3 : ∀ v, readAt (h.set (i + 2) v) ((i + 2 : Nat) : Int) = some v := fun v => by
        rw [readAt_natCast, List.getElem?_set, if_pos rfl, if_pos i2]
      have r4 : ∀ v, readAt (h.set (i + 2) v) (((i + 2 : Nat) : Int) - 1) = some h[i + 1] :=
        fun v => by
          rw [c1, readAt_natCast, List.getElem?_set, if_neg (by omega),
            List.getElem?_eq_getElem i1]
      have w2 : ∀ v, writeAt t2 ((i + 2 : Nat) : Int) v = some (t2.set (i + 2) v) :=
        fun v => writeAt_natCast t2 (i + 2) v (by omega)
      refine ⟨h.set (i + 2) (cm.ofReal scale / z * cm.ofReal (2 * ((i + 2 : Nat) : K) - 1) *
            h[i + 1] - cm.ofReal (scale * scale) * h[i]),
        (h.set (i + 2) ((cm.ofReal 1 / z * cm.ofReal (2 * ((i + 2 : Nat) : K) - 1) * h[i + 1] -
            cm.ofReal scale * h[i]) * cm.ofReal scale),
          t2.set (i + 2) (-(cm.ofReal 1 / z) * cm.ofReal (((i + 2 : Nat) : K) + 1) *
            ((cm.ofReal 1 / z * cm.ofReal (2 * ((i + 2 : Nat) : K) - 1) * h[i + 1] -
              cm.ofReal scale * h[i]) * cm.ofReal scale) + cm.ofReal scale * h[i + 1])),
        ?_, ?_, ?_⟩
      · show (readAt h (((i + 2 : Nat) : Int) - 1)).bind _ = some _
        rw [r1, Option.some_bind, r2, Option.some_bind, w1]
      · unfold get_hndStep
        simp only []
        rw [r1, Option.some_bind, r2, Option.some_bind, w1, Option.some_bind, r3,
          Option.some_bind, r4, Option.some_bind, w2, Option.some_bind]
      · refine ⟨?_, by rw [List.length_set]; exact hlen, by
          simp only [List.length_set]; exact hlen2'⟩
        rw [hval])
  refine ⟨h, t.2, f1, ?_⟩
  rw [f2, hr1]

/-- C30. For `nterms ≥ 2`, every `z` and every `scale`, on arrays that hold `nterms` entries, the
array `hn` that `get_hnd(nterms, z, scale, hn, hnd)` produces equals the array that
`get_hn(nterms, z, scale, hn)` produces, in exact arithmetic; its first `nterms`
entries are zero when `|z| < EPS`. -/
theorem get_hnd_hn_eq {K C : Type} [LinearOrderedField K] [Field C] (cm : Ccmath K C) (EPS : K)
    (nterms : Nat) (z : C) (scale : K) (hn hnd : List C) (h2 : 2 ≤ nterms)
    (hl : nterms ≤ hn.length) (hd : nterms ≤ hnd.length) :
    ∃ h d, get_hn cm EPS nterms z scale hn = some h ∧
      get_hnd cm EPS nterms z scale hn hnd = some (h, d) ∧
      (cm.abs z < EPS → ∀ i, i < nterms → h[i]? = some 0) := by
  by_cases hz : cm.abs z < EPS
  · obtain ⟨h, d, e1, e2, e3⟩ := get_hn_small cm EPS nterms z scale hn hnd hz hl hd
    exact ⟨h, d, e1, e2, fun _ => e3⟩
  · obtain ⟨h, d, e1, e2⟩ := get_hn_large cm EPS nterms z scale hn hnd hz h2 hl hd
    exact ⟨h, d, e1, e2, fun hc => absurd hc hz⟩

/-- Witness for C30: four terms at `z = 2`, `scale = 3`. -/
theorem get_hnd_hn_eq_witness :
    ∃ h d, get_hn ccmathExample (1 / 1000000) 4 2 3 [9, 9, 9, 9] = some h ∧
      get_hnd ccmathExample (1 / 1000000) 4 2 3 [9, 9, 9, 9] [7, 7, 7, 7] = some (h, d) ∧
      (ccmathExample.abs 2 < 1 / 1000000 → ∀ i, i < 4 → h[i]? = some 0) :=
  get_hnd_hn_eq ccmathExample (1 / 1000000) 4 2 3 [9, 9, 9, 9] [7, 7, 7, 7] (by decide)
    (by decide) (by decide)

end HelmholtzKernel

end ExaFMM

/-! # Theorems on the single-cell kernel P2P(C) -/

namespace ExaFMM

namespace HelmholtzKernel

theorem addSubTRG_TRG {K : Type} [Field K] (b : Body K) (c0 c1 c2 c3 : Cpx K) :
    (addSubTRG b c0 c1 c2 c3).TRG = b.TRG + flipGrad ![c0, c1, c2, c3] := by
  funext d
  fin_cases d <;> simp [addSubTRG, flipGrad, Function.update, sub_eq_add_neg]

theorem addSubTRG_X {K : Type} [Field K] (b : Body K) (c0 c1 c2 c3 : Cpx K) :
    (addSubTRG b c0 c1 c2 c3).X = b.X := rfl

theorem addSubTRG_SRC {K : Type} [Field K] (b : Body K) (c0 c1 c2 c3 : Cpx K) :
    (addSubTRG b c0 c1 c2 c3).SRC = b.SRC := rfl

theorem flipGrad_zero {K : Type} [Field K] : flipGrad (0 : Fin 4 → Cpx K) = 0 := by
  funext d
  fin_cases d <;> simp [flipGrad]

theorem flipGrad_add {K : Type} [Field K] (s t : Fin 4 → Cpx K) :
    flipGrad (s + t) = flipGrad s + flipGrad t := by
  funext d
  fin_cases d <;> simp [flipGrad, add_comm]

theorem flipGrad_sum {K : Type} [Field K] (s : Finset Nat) (f : Nat → Fin 4 → Cpx K) :
    flipGrad (∑ j ∈ s, f j) = ∑ j ∈ s, flipGrad (f j) := by
  classical
  induction s using Finset.induction_on with
  | empty => simp [flipGrad_zero]
  | insert h ih => rw [Finset.sum_insert h, Finset.sum_insert h, flipGrad_add, ih]

/-- The coefficients of a pair read only the position and the source strength of `B[j]`. -/
theorem P2PcellCoef_congr {K : Type} [Field K] [DecidableEq K] (fn : Cmath K)
    (kb : KernelBase K) (mi_r mi_i : K) (Xi : Fin 3 → K) (bj bj' : Body K)
    (hX : bj'.X = bj.X) (hS : bj'.SRC = bj.SRC) :
    P2PcellCoef fn kb mi_r mi_i Xi bj' = P2PcellCoef fn kb mi_r mi_i Xi bj := by
  unfold P2PcellCoef
  simp only [hX, hS]

/-- With two bodies at the same position and no softening, the first pair of `P2P(C)`
divides by zero. -/
theorem P2Pcell_none_of_colocated {K : Type} [Field K] [DecidableEq K] {NTERM : Nat}
    (fn : Cmath K) (kb : KernelBase K) (C : Cell K NTERM) (bodies : Nat → Body K)
    (he : kb.eps2 = 0) (hn : 2 ≤ C.NBODY)
    (hX : (bodies (C.BODY + 1)).X = (bodies (C.BODY + 0)).X) :
    P2Pcell fn kb C bodies = none := by
  obtain ⟨m, hm⟩ : ∃ m, C.NBODY = m + 2 := ⟨C.NBODY - 2, by omega⟩
  have hc : P2PcellCoef fn kb (bodies (C.BODY + 0)).SRC.1 (bodies (C.BODY + 0)).SRC.2
      (bodies (C.BODY + 0)).X (bodies (C.BODY + 1)) = none := by
    unfold P2PcellCoef
    simp only [hX, sub_self, he]
    rw [if_pos]
    right; left
    simp [norm]
  unfold P2Pcell
  rw [hm, List.range_succ_eq_map, List.foldlM_cons]
  have ho : P2PcellOuter fn kb C.BODY (m + 2) bodies 0 = none := by
    unfold P2PcellOuter
    simp only []
    have hl : List.range' (0 + 1) (m + 2 - (0 + 1)) = 1 :: List.range' 2 m := by
      have : m + 2 - (0 + 1) = m + 1 := by omega
      rw [this]
      rfl
    rw [hl, List.foldlM_cons]
    unfold P2PcellInner
    simp only []
    rw [hc]
    rfl
  rw [ho]
  rfl

/-- C21 (failing input). A cell holding two bodies at the origin, no softening (`eps2 = 0`),
wavenumber `0`: for the pair of the two bodies `P2P(C)` computes `R2 = 0`, `R = 0` and
`expikr = exp(wave_i * R) * R = 0` and divides by them, so no finite value is added
to `TRG`.  The scalar path of `P2P(C)` has no test `R2 != 0`, unlike `P2P(Ci, Cj, mutual)`. -/
theorem P2Pcell_colocated :
    P2Pcell ⟨Real.sqrt, Real.exp, Real.cos, Real.sin⟩ (kbExample 0) (leafCell 0 2)
        (fun _ => unitBody 0) = none ∧
    norm (fun d => (unitBody 0).X d - (unitBody 0).X d) + (kbExample 0).eps2 = 0 ∧
    Real.sqrt (norm (fun d => (unitBody 0).X d - (unitBody 0).X d) + (kbExample 0).eps2) = 0 ∧
    Real.exp ((kbExample 0).wavek.2 *
        Real.sqrt (norm (fun d => (unitBody 0).X d - (unitBody 0).X d) + (kbExample 0).eps2)) *
      Real.sqrt (norm (fun d => (unitBody 0).X d - (unitBody 0).X d) + (kbExample 0).eps2) = 0 := by
  have hR2 : norm (fun d => (unitBody 0).X d - (unitBody 0).X d) + (kbExample 0).eps2 = 0 := by
    simp [kbExample, norm]
  refine ⟨P2Pcell_none_of_colocated _ _ _ _ rfl (by decide) rfl, hR2, ?_, ?_⟩
  · rw [hR2, Real.sqrt_zero]
  · rw [hR2, Real.sqrt_zero, mul_zero]

end HelmholtzKernel

namespace HelmholtzKernel

/-- A sum over `j = m+1, .., n-1` as a sum over `j < n` restricted to `m < j`. -/
theorem range'_map_sum {M : Type} [AddCommMonoid M] (f : Nat → M) (m n : Nat) :
    ((List.range' (m + 1) (n - (m + 1))).map f).sum =
      ∑ j ∈ Finset.range n, if m < j then f j else 0 := by
  induction n with
  | zero => simp
  | succ n ih =>
    rw [Finset.sum_range_succ, ← ih]
    by_cases h : m < n
    · have e : n + 1 - (m + 1) = (n - (m + 1)) + 1 := by omega
      rw [e, List.range'_concat, List.map_append, List.sum_append, if_pos h]
      have e2 : m + 1 + 1 * (n - (m + 1)) = n := by omega
      rw [e2]
      simp
    · have e : n + 1 - (m + 1) = 0 := by omega
      have e' : n - (m + 1) = 0 := by omega
      rw [e, e', if_neg h]
      simp

/-- One pass of the inner loop of `P2P(C)` for a pair without zero divisor: the
accumulators grow by the increments of the pair and `B[j].TRG` grows by them. -/
theorem P2PcellInner_step {K : Type} [Field K] [DecidableEq K] (fn : Cmath K)
    (kb : KernelBase K) (B i j : Nat) (mi_r mi_i : K) (a : Acc K) (b : Nat → Body K)
    (c : Cpx K × Cpx K × (Fin 3 → K))
    (hc : P2PcellCoef fn kb mi_r mi_i (b (B + i)).X (b (B + j)) = some c) :
    ∃ a' b', P2PcellInner fn kb B i mi_r mi_i (a, b) j = some (a', b') ∧
      a'.toTRG = a.toTRG + cellIncr c ∧
      (∀ k, k ≠ B + j → b' k = b k) ∧
      (b' (B + j)).X = (b (B + j)).X ∧ (b' (B + j)).SRC = (b (B + j)).SRC ∧
      (b' (B + j)).TRG = (b (B + j)).TRG + cellIncr c := by
  unfold P2PcellInner
  simp only []
  rw [hc, Option.some_bind]
  refine ⟨_, _, rfl, ?_, ?_, ?_, ?_, ?_⟩
  · funext d
    fin_cases d
    · simp [Acc.toTRG, cellIncr]
      rfl
    all_goals simp [Acc.toTRG, cellIncr]
  · intro k hk
    exact Function.update_noteq hk _ _
  · rw [Function.update_same, addTRG_X]
  · rw [Function.update_same, addTRG_SRC]
  · rw [Function.update_same, addTRG_TRG]
    rfl

/-- The inner loop of `P2P(C)` over a list of `j` without zero divisor. -/
theorem P2PcellInner_fold {K : Type} [Field K] [DecidableEq K] (fn : Cmath K)
    (kb : KernelBase K) (B i : Nat) (b0 : Nat → Body K) :
    ∀ (l : List Nat) (a : Acc K) (b : Nat → Body K),
      (∀ k, (b k).X = (b0 k).X ∧ (b k).SRC = (b0 k).SRC) →
      (∀ j ∈ l, (P2PcellCoef fn kb (b0 (B + i)).SRC.1 (b0 (B + i)).SRC.2 (b0 (B + i)).X
        (b0 (B + j))).isSome) →
      ∃ a' b', l.foldlM (P2PcellInner fn kb B i (b0 (B + i)).SRC.1 (b0 (B + i)).SRC.2) (a, b) =
          some (a', b') ∧
        (∀ k, (b' k).X = (b0 k).X ∧ (b' k).SRC = (b0 k).SRC) ∧
        a'.toTRG = a.toTRG + (l.map fun j => cellTerm fn kb b0 (B + i) (B + j)).sum ∧
        ∀ k, (b' k).TRG = (b k).TRG +
          (l.map fun j => if B + j = k then cellTerm fn kb b0 (B + i) (B + j) else 0).sum := by
  intro l
  induction l with
  | nil =>
    intro a b hb _
    exact ⟨a, b, rfl, hb, by simp, fun k => by simp⟩
  | cons j l ih =>
    intro a b hb hl
    obtain ⟨c, hc⟩ := Option.isSome_iff_exists.mp (hl j (List.mem_cons_self j l))
    have hct : cellTerm fn kb b0 (B + i) (B + j) = cellIncr c := by
      unfold cellTerm
      rw [hc]
      rfl
    have hc' : P2PcellCoef fn kb (b0 (B + i)).SRC.1 (b0 (B + i)).SRC.2 (b (B + i)).X
        (b (B + j)) = some c := by
      rw [(hb (B + i)).1, P2PcellCoef_congr fn kb _ _ _ (b0 (B + j)) (b (B + j)) (hb (B + j)).1
        (hb (B + j)).2]
      exact hc
    obtain ⟨a1, b1, h1, ha1, hne, hX, hS, hT⟩ :=
      P2PcellInner_step fn kb B i j _ _ a b c hc'
    have hb1 : ∀ k, (b1 k).X = (b0 k).X ∧ (b1 k).SRC = (b0 k).SRC := by
      intro k
      by_cases hk : k = B + j
      · subst hk
        exact ⟨hX.trans (hb _).1, hS.trans (hb _).2⟩
      · rw [hne k hk]
        exact hb k
    obtain ⟨a2, b2, h2, hb2, ha2, hT2⟩ := ih a1 b1 hb1
      (fun j' hj' => hl j' (List.mem_cons_of_mem j hj'))
    refine ⟨a2, b2, ?_, hb2, ?_, ?_⟩
    · rw [List.foldlM_cons, h1]
      exact h2
    · rw [ha2, ha1, List.map_cons, List.sum_cons, hct, add_assoc]
    · intro k
      rw [hT2 k, List.map_cons, List.sum_cons, hct, ← add_assoc]
      congr 1
      by_cases hk : k = B + j
      · subst hk
        rw [hT, if_pos rfl]
      · rw [hne k hk, if_neg (fun h => hk h.symm), add_zero]

/-- One pass of the outer loop of `P2P(C)`: the bodies `B[j]`, `j > i`, receive the
increments of their pair with `B[i]`, and `B[i]` receives the flipped sum. -/
theorem P2PcellOuter_spec {K : Type} [Field K] [DecidableEq K] (fn : Cmath K)
    (kb : KernelBase K) (B n : Nat) (b0 b : Nat → Body K) (i : Nat)
    (hb : ∀ k, (b k).X = (b0 k).X ∧ (b k).SRC = (b0 k).SRC)
    (H : ∀ j, i < j → j < n → (P2PcellCoef fn kb (b0 (B + i)).SRC.1 (b0 (B + i)).SRC.2
      (b0 (B + i)).X (b0 (B + j))).isSome) :
    ∃ b', P2PcellOuter fn kb B n b i = some b' ∧
      (∀ k, (b' k).X = (b0 k).X ∧ (b' k).SRC = (b0 k).SRC) ∧
      ∀ k, (b' k).TRG = (b k).TRG +
        ((∑ j ∈ Finset.range n,
            if i < j then (if B + j = k then cellTerm fn kb b0 (B + i) (B + j) else 0) else 0) +
          if k = B + i then
            flipGrad (∑ j ∈ Finset.range n,
              if i < j then cellTerm fn kb b0 (B + i) (B + j) else 0)
          else 0) := by
  have hl : ∀ j ∈ List.range' (i + 1) (n - (i + 1)),
      (P2PcellCoef fn kb (b0 (B + i)).SRC.1 (b0 (B + i)).SRC.2 (b0 (B + i)).X
        (b0 (B + j))).isSome := by
    intro j hj
    rw [List.mem_range'_1] at hj
    exact H j (by omega) (by omega)
  obtain ⟨a', b1, h1, hb1, ha, hT⟩ :=
    P2PcellInner_fold fn kb B i b0 (List.range' (i + 1) (n - (i + 1))) Acc.zero b hb hl
  rw [Acc.toTRG_zero, zero_add, range'_map_sum] at ha
  unfold P2PcellOuter
  simp only []
  rw [(hb (B + i)).2, h1, Option.some_bind]
  refine ⟨_, rfl, ?_, ?_⟩
  · intro k
    by_cases hk : k = B + i
    · subst hk
      rw [Function.update_same, addSubTRG_X, addSubTRG_SRC]
      exact hb1 _
    · rw [Function.update_noteq hk]
      exact hb1 k
  · intro k
    have hsum := hT k
    rw [range'_map_sum (fun j => if B + j = k then cellTerm fn kb b0 (B + i) (B + j) else 0)]
      at hsum
    by_cases hk : k = B + i
    · subst hk
      rw [Function.update_same, addSubTRG_TRG, hsum, if_pos rfl, add_assoc]
      congr 2
      rw [← ha]
      rfl
    · rw [Function.update_noteq hk, hsum, if_neg hk, add_zero]

/-- What `P2P(C)` computes when no pair has a zero divisor: positions and source
strengths stay, and `TRG` of every body grows by the terms of the passes of the outer
loop. -/
theorem P2Pcell_spec {K : Type} [Field K] [DecidableEq K] {NTERM : Nat} (fn : Cmath K)
    (kb : KernelBase K) (C : Cell K NTERM) (b0 : Nat → Body K)
    (H : ∀ i j, i < j → j < C.NBODY →
      (P2PcellCoef fn kb (b0 (C.BODY + i)).SRC.1 (b0 (C.BODY + i)).SRC.2
        (b0 (C.BODY + i)).X (b0 (C.BODY + j))).isSome) :
    ∃ b', P2Pcell fn kb C b0 = some b' ∧
      (∀ k, (b' k).X = (b0 k).X ∧ (b' k).SRC = (b0 k).SRC) ∧
      ∀ k, (b' k).TRG = (b0 k).TRG + ∑ i ∈ Finset.range C.NBODY,
        ((∑ j ∈ Finset.range C.NBODY,
            if i < j then
              (if C.BODY + j = k then cellTerm fn kb b0 (C.BODY + i) (C.BODY + j) else 0)
            else 0) +
          if k = C.BODY + i then
            flipGrad (∑ j ∈ Finset.range C.NBODY,
              if i < j then cellTerm fn kb b0 (C.BODY + i) (C.BODY + j) else 0)
          else 0) := by
  obtain ⟨b', h1, hb, hT⟩ := forUp_inv C.NBODY (fun i b => P2PcellOuter fn kb C.BODY C.NBODY b i)
    (fun m b => (∀ k, (b k).X = (b0 k).X ∧ (b k).SRC = (b0 k).SRC) ∧
      ∀ k, (b k).TRG = (b0 k).TRG + ∑ i ∈ Finset.range m,
        ((∑ j ∈ Finset.range C.NBODY,
            if i < j then
              (if C.BODY + j = k then cellTerm fn kb b0 (C.BODY + i) (C.BODY + j) else 0)
            else 0) +
          if k = C.BODY + i then
            flipGrad (∑ j ∈ Finset.range C.NBODY,
              if i < j then cellTerm fn kb b0 (C.BODY + i) (C.BODY + j) else 0)
          else 0))
    b0 ⟨fun _ => ⟨rfl, rfl⟩, fun k => by simp⟩
    (by
      intro i b _ ⟨hb, hT⟩
      obtain ⟨b', h1, hb', hT'⟩ := P2PcellOuter_spec fn kb C.BODY C.NBODY b0 b i hb
        (fun j hij hj => H i j hij hj)
      refine ⟨b', h1, hb', fun k => ?_⟩
      rw [hT' k, hT k, Finset.sum_range_succ, add_assoc])
  exact ⟨b', h1, hb, hT⟩

end HelmholtzKernel

namespace HelmholtzKernel

/-- Regrouping of the terms of `P2P(C)` by body: the passes of the outer loop give body
`κ` the term of the pair `(i, κ)` for every `i < κ` and the flipped term of the pair
`(κ, j)` for every `j > κ`. -/
theorem cell_sum_regroup {K : Type} [Field K] (n B κ : Nat) (hκ : κ < n)
    (ct p : Nat → Nat → (Fin 4 → Cpx K))
    (h1 : ∀ j, κ < j → j < n → p κ j = flipGrad (ct κ j))
    (h2 : ∀ j, j < κ → p κ j = ct j κ) (h3 : p κ κ = 0) :
    ∑ i ∈ Finset.range n,
      ((∑ j ∈ Finset.range n, if i < j then (if B + j = B + κ then ct i j else 0) else 0) +
        if B + κ = B + i then flipGrad (∑ j ∈ Finset.range n, if i < j then ct i j else 0)
        else 0) = ∑ j ∈ Finset.range n, p κ j := by
  have hA : ∀ i, (∑ j ∈ Finset.range n,
      if i < j then (if B + j = B + κ then ct i j else 0) else 0) =
      if i < κ then p κ i else 0 := by
    intro i
    rw [Finset.sum_eq_single κ]
    · by_cases hi : i < κ
      · rw [if_pos hi, if_pos hi, if_pos rfl, h2 i hi]
      · rw [if_neg hi, if_neg hi]
    · intro j _ hj
      rw [if_neg (fun h => hj (Nat.add_left_cancel h))]
      split_ifs <;> rfl
    · intro hn
      exact absurd (Finset.mem_range.mpr hκ) hn
  have hB : ∀ i, (if B + κ = B + i then
      flipGrad (∑ j ∈ Finset.range n, if i < j then ct i j else 0) else 0) =
      if κ = i then (∑ j ∈ Finset.range n, if κ < j then p κ j else 0) else 0 := by
    intro i
    by_cases hi : κ = i
    · subst hi
      rw [if_pos rfl, if_pos rfl, flipGrad_sum]
      apply Finset.sum_congr rfl
      intro j hj
      by_cases hlt : κ < j
      · rw [if_pos hlt, if_pos hlt, h1 j hlt (Finset.mem_range.mp hj)]
      · rw [if_neg hlt, if_neg hlt, flipGrad_zero]
    · rw [if_neg (fun h => hi (Nat.add_left_cancel h)), if_neg hi]
  simp only [hA, hB]
  rw [Finset.sum_add_distrib, Finset.sum_ite_eq, if_pos (Finset.mem_range.mpr hκ),
    ← Finset.sum_add_distrib]
  apply Finset.sum_congr rfl
  intro j _
  rcases lt_trichotomy j κ with h | h | h
  · rw [if_pos h, if_neg (by omega), add_zero]
  · subst h
    simp [h3]
  · rw [if_neg (by omega), if_pos h, zero_add]

/-- A body outside the cell receives nothing from `P2P(C)`. -/
theorem cell_sum_outside {K : Type} [Field K] (n B k : Nat) (hk : ¬ (B ≤ k ∧ k < B + n))
    (ct : Nat → Nat → (Fin 4 → Cpx K)) :
    ∑ i ∈ Finset.range n,
      ((∑ j ∈ Finset.range n, if i < j then (if B + j = k then ct i j else 0) else 0) +
        if k = B + i then flipGrad (∑ j ∈ Finset.range n, if i < j then ct i j else 0)
        else 0) = 0 := by
  apply Finset.sum_eq_zero
  intro i hi
  have hi' := Finset.mem_range.mp hi
  rw [if_neg (by omega), add_zero]
  apply Finset.sum_eq_zero
  intro j hj
  have hj' := Finset.mem_range.mp hj
  have hne : ¬ (B + j = k) := by omega
  rw [if_neg hne]
  split_ifs <;> rfl

/-- The squared length does not see the sign of the displacement. -/
theorem norm_sub_comm {K : Type} [Field K] (x y : Fin 3 → K) :
    norm (fun d => x d - y d) = norm (fun d => y d - x d) := by
  unfold norm
  ring

/-- For a pair without zero divisor and without periodic shift, the two-cell kernel adds
to `B[i]` the flipped increments that the single-cell kernel adds to `B[j]`. -/
theorem pairTerm_eq_flipGrad {K : Type} [Field K] [DecidableEq K] (fn : Cmath K)
    (kb : KernelBase K) (bodies : Nat → Body K) (bi bj : Nat) (hp : ∀ d, kb.Xperiodic d = 0)
    (h : (P2PcellCoef fn kb (bodies bi).SRC.1 (bodies bi).SRC.2 (bodies bi).X
      (bodies bj)).isSome) :
    pairTerm fn kb bodies bi bj = flipGrad (cellTerm fn kb bodies bi bj) := by
  have hn : norm (fun d => (bodies bi).X d - (bodies bj).X d - kb.Xperiodic d) =
      norm (fun d => (bodies bj).X d - (bodies bi).X d) := by
    simp only [hp, sub_zero]
    exact norm_sub_comm _ _
  unfold cellTerm
  unfold P2PcellCoef at h ⊢
  simp only [] at h ⊢
  by_cases hz : fn.exp (kb.wavek.2 * fn.sqrt (norm (fun d => (bodies bj).X d - (bodies bi).X d) +
      kb.eps2)) * fn.sqrt (norm (fun d => (bodies bj).X d - (bodies bi).X d) + kb.eps2) = 0 ∨
      norm (fun d => (bodies bj).X d - (bodies bi).X d) + kb.eps2 = 0 ∨
      fn.sqrt (norm (fun d => (bodies bj).X d - (bodies bi).X d) + kb.eps2) = 0
  · rw [if_pos hz] at h
    simp at h
  · rw [if_neg hz]
    have hR2 : norm (fun d => (bodies bj).X d - (bodies bi).X d) + kb.eps2 ≠ 0 :=
      fun h0 => hz (Or.inr (Or.inl h0))
    unfold pairTerm P2Pinner
    simp only [Nat.add_zero, hn]
    rw [if_pos hR2]
    funext d
    fin_cases d
    · simp [Acc.toTRG, Acc.zero, cellIncr, flipGrad]
    all_goals
      simp [Acc.toTRG, Acc.zero, cellIncr, flipGrad, hp]
      constructor <;> ring

end HelmholtzKernel

namespace HelmholtzKernel

/-- For a pair without zero divisor and without periodic shift, the two-cell kernel adds
to `B[j]` the increments that the single-cell kernel adds to it for the pair `(i, j)`. -/
theorem pairTerm_eq_cellTerm {K : Type} [Field K] [DecidableEq K] (fn : Cmath K)
    (kb : KernelBase K) (bodies : Nat → Body K) (bi bj : Nat) (hp : ∀ d, kb.Xperiodic d = 0)
    (h : (P2PcellCoef fn kb (bodies bi).SRC.1 (bodies bi).SRC.2 (bodies bi).X
      (bodies bj)).isSome) :
    pairTerm fn kb bodies bj bi = cellTerm fn kb bodies bi bj := by
  have hn : norm (fun d => (bodies bj).X d - (bodies bi).X d - kb.Xperiodic d) =
      norm (fun d => (bodies bj).X d - (bodies bi).X d) := by
    simp only [hp, sub_zero]
  unfold cellTerm
  unfold P2PcellCoef at h ⊢
  simp only [] at h ⊢
  by_cases hz : fn.exp (kb.wavek.2 * fn.sqrt (norm (fun d => (bodies bj).X d - (bodies bi).X d) +
      kb.eps2)) * fn.sqrt (norm (fun d => (bodies bj).X d - (bodies bi).X d) + kb.eps2) = 0 ∨
      norm (fun d => (bodies bj).X d - (bodies bi).X d) + kb.eps2 = 0 ∨
      fn.sqrt (norm (fun d => (bodies bj).X d - (bodies bi).X d) + kb.eps2) = 0
  · rw [if_pos hz] at h
    simp at h
  · rw [if_neg hz]
    have hR2 : norm (fun d => (bodies bj).X d - (bodies bi).X d) + kb.eps2 ≠ 0 :=
      fun h0 => hz (Or.inr (Or.inl h0))
    have hs1 : (bodies bj).SRC.1 * (bodies bi).SRC.1 - (bodies bj).SRC.2 * (bodies bi).SRC.2 =
        (bodies bi).SRC.1 * (bodies bj).SRC.1 - (bodies bi).SRC.2 * (bodies bj).SRC.2 := by
      ring
    have hs2 : (bodies bj).SRC.1 * (bodies bi).SRC.2 + (bodies bj).SRC.2 * (bodies bi).SRC.1 =
        (bodies bi).SRC.1 * (bodies bj).SRC.2 + (bodies bi).SRC.2 * (bodies bj).SRC.1 := by
      ring
    unfold pairTerm P2Pinner
    simp only [Nat.add_zero, hn]
    rw [if_pos hR2]
    simp only [hs1, hs2, hp, sub_zero]
    funext d
    fin_cases d
    all_goals simp [Acc.toTRG, Acc.zero, cellIncr]

/-- Over the reals, two bodies at different positions form a pair without zero divisor
when there is no softening. -/
theorem P2PcellCoef_isSome_of_ne (kb : KernelBase ℝ) (mi_r mi_i : ℝ) (Xi : Fin 3 → ℝ)
    (bj : Body ℝ) (he : kb.eps2 = 0) (hX : Xi ≠ bj.X) :
    (P2PcellCoef ⟨Real.sqrt, Real.exp, Real.cos, Real.sin⟩ kb mi_r mi_i Xi bj).isSome := by
  have hpos : 0 < norm (fun d => bj.X d - Xi d) + kb.eps2 := by
    rw [he, add_zero]
    unfold norm
    by_contra hle
    have h0 : (bj.X 0 - Xi 0) * (bj.X 0 - Xi 0) + (bj.X 1 - Xi 1) * (bj.X 1 - Xi 1) +
        (bj.X 2 - Xi 2) * (bj.X 2 - Xi 2) ≤ 0 := not_lt.mp hle
    have e0 : bj.X 0 - Xi 0 = 0 := by
      nlinarith [mul_self_nonneg (bj.X 0 - Xi 0), mul_self_nonneg (bj.X 1 - Xi 1),
        mul_self_nonneg (bj.X 2 - Xi 2)]
    have e1 : bj.X 1 - Xi 1 = 0 := by
      nlinarith [mul_self_nonneg (bj.X 0 - Xi 0), mul_self_nonneg (bj.X 1 - Xi 1),
        mul_self_nonneg (bj.X 2 - Xi 2)]
    have e2 : bj.X 2 - Xi 2 = 0 := by
      nlinarith [mul_self_nonneg (bj.X 0 - Xi 0), mul_self_nonneg (bj.X 1 - Xi 1),
        mul_self_nonneg (bj.X 2 - Xi 2)]
    apply hX
    funext d
    fin_cases d
    · exact (sub_eq_zero.mp e0).symm
    · exact (sub_eq_zero.mp e1).symm
    · exact (sub_eq_zero.mp e2).symm
  have hR : 0 < Real.sqrt (norm (fun d => bj.X d - Xi d) + kb.eps2) := Real.sqrt_pos.mpr hpos
  unfold P2PcellCoef
  simp only []
  rw [if_neg]
  · rfl
  · rintro (h | h | h)
    · exact absurd h (ne_of_gt (mul_pos (Real.exp_pos _) hR))
    · exact absurd h (ne_of_gt hpos)
    · exact absurd h (ne_of_gt hR)

/-- C26. With `eps2 = 0`, `Xperiodic = 0` and no two distinct bodies of cell `C` at the same
position, the single-cell kernel `P2P(C)` succeeds (it divides by no zero) and adds to
the `TRG` of every body the same four values as `P2P(C, C, mutual=false)` does; both
leave the positions and the source strengths alone (scalar paths, real arithmetic
exact). -/
theorem P2Pcell_eq_P2P {NTERM : Nat} (kb : KernelBase ℝ) (C : Cell ℝ NTERM)
    (bodies : Nat → Body ℝ) (he : kb.eps2 = 0) (hp : ∀ d, kb.Xperiodic d = 0)
    (hX : ∀ i j, i < j → j < C.NBODY →
      (bodies (C.BODY + i)).X ≠ (bodies (C.BODY + j)).X) :
    ∃ b', P2Pcell ⟨Real.sqrt, Real.exp, Real.cos, Real.sin⟩ kb C bodies = some b' ∧
      ∀ k, (b' k).TRG =
          (P2P ⟨Real.sqrt, Real.exp, Real.cos, Real.sin⟩ kb C C false bodies k).TRG ∧
        (b' k).X = (bodies k).X ∧ (b' k).SRC = (bodies k).SRC := by
  have H : ∀ i j, i < j → j < C.NBODY →
      (P2PcellCoef ⟨Real.sqrt, Real.exp, Real.cos, Real.sin⟩ kb (bodies (C.BODY + i)).SRC.1
        (bodies (C.BODY + i)).SRC.2 (bodies (C.BODY + i)).X (bodies (C.BODY + j))).isSome :=
    fun i j hij hj => P2PcellCoef_isSome_of_ne kb _ _ _ _ he (hX i j hij hj)
  obtain ⟨b', h1, hb, hT⟩ := P2Pcell_spec _ kb C bodies H
  refine ⟨b', h1, fun k => ⟨?_, (hb k).1, (hb k).2⟩⟩
  rw [hT k, (P2P_false_spec _ kb C C bodies k).2.2]
  by_cases hk : C.BODY ≤ k ∧ k < C.BODY + C.NBODY
  · rw [if_pos hk]
    obtain ⟨κ, rfl⟩ : ∃ κ, k = C.BODY + κ := ⟨k - C.BODY, by omega⟩
    have hκ : κ < C.NBODY := by omega
    congr 1
    exact cell_sum_regroup C.NBODY C.BODY κ hκ
      (fun i j => cellTerm _ kb bodies (C.BODY + i) (C.BODY + j))
      (fun i j => pairTerm _ kb bodies (C.BODY + i) (C.BODY + j))
      (fun j hj hjn => pairTerm_eq_flipGrad _ kb bodies _ _ hp (H κ j hj hjn))
      (fun j hj => pairTerm_eq_cellTerm _ kb bodies _ _ hp (H j κ hj hκ))
      (pairTerm_of_R2_eq_zero _ kb bodies _ _ (by
        rw [pairR2_of_zero_displacement kb bodies _ _ (fun d => by rw [hp d]; ring), he]))
  · rw [if_neg hk]
    have := cell_sum_outside C.NBODY C.BODY k hk
      (fun i j => cellTerm ⟨Real.sqrt, Real.exp, Real.cos, Real.sin⟩ kb bodies
        (C.BODY + i) (C.BODY + j))
    rw [this, add_zero]

/-- Witness for C26: the two bodies at `(1, 0, 0)` and at the origin, wavenumber `0`. -/
theorem P2Pcell_eq_P2P_witness :
    ∃ b', P2Pcell ⟨Real.sqrt, Real.exp, Real.cos, Real.sin⟩ (kbExample 0) (leafCell 0 2)
        twoBodies = some b' ∧
      ∀ k, (b' k).TRG =
          (P2P ⟨Real.sqrt, Real.exp, Real.cos, Real.sin⟩ (kbExample 0) (leafCell 0 2)
            (leafCell 0 2) false twoBodies k).TRG ∧
        (b' k).X = (twoBodies k).X ∧ (b' k).SRC = (twoBodies k).SRC :=
  P2Pcell_eq_P2P (kbExample 0) (leafCell 0 2) twoBodies rfl (fun _ => rfl)
    (by
      intro i j hij hj h
      have hj2 : j < 2 := hj
      have hi0 : i = 0 := by omega
      have hj1 : j = 1 := by omega
      subst hi0 hj1
      have h0 := congrFun h 0
      simp [leafCell, twoBodies, unitBody] at h0)

end HelmholtzKernel

end ExaFMM

/-! # Theorems on the weights in the downward pass -/

namespace ExaFMM

namespace UpDownPass

/-! ### Weights in the downward pass -/

theorem shapeOf_eq_frameShape {K : Type} {NTERM : Nat} (cells : List (Cell K NTERM)) :
    shapeOf cells = frameShape (frameOf cells) := by
  unfold shapeOf frameShape frameOf
  rw [List.map_map]
  rfl

theorem frameOf_getElem? {K : Type} {NTERM : Nat} (cells : List (Cell K NTERM)) (i : Nat) :
    (frameOf cells)[i]? =
      (cells[i]?).map fun c => (c.ICHILD, c.NCHILD, c.IPARENT, c.BODY, c.NBODY) := by
  unfold frameOf
  rw [List.getElem?_map]

theorem frameOf_set {K : Type} {NTERM : Nat} (cells : List (Cell K NTERM)) (C : Nat)
    (c c' : Cell K NTERM) (hc : cells[C]? = some c)
    (h : (c'.ICHILD, c'.NCHILD, c'.IPARENT, c'.BODY, c'.NBODY) =
      (c.ICHILD, c.NCHILD, c.IPARENT, c.BODY, c.NBODY)) :
    frameOf (cells.set C c') = frameOf cells := by
  apply List.ext_getElem?
  intro i
  rw [frameOf_getElem?, frameOf_getElem?, List.getElem?_set]
  split
  · rename_i hi
    subst hi
    have hlt : C < cells.length := (List.getElem?_eq_some_iff.mp hc).1
    rw [if_pos hlt, hc]
    simp only [Option.map_some', h]
  · rfl

theorem weightOf_set {K : Type} [Field K] {NTERM : Nat} (cells : List (Cell K NTERM))
    (C : Nat) (c' : Cell K NTERM) (hlt : C < cells.length) (i : Nat) :
    weightOf (cells.set C c') i = if C = i then c'.WEIGHT else weightOf cells i := by
  unfold weightOf
  rw [List.getElem?_set]
  by_cases hi : C = i
  · subst hi
    rw [if_pos rfl, if_pos hlt, if_pos rfl]
    rfl
  · rw [if_neg hi, if_neg hi]

theorem weightOf_eq {K : Type} [Field K] {NTERM : Nat} {cells : List (Cell K NTERM)} {i : Nat}
    {c : Cell K NTERM} (hc : cells[i]? = some c) : weightOf cells i = c.WEIGHT := by
  unfold weightOf
  rw [hc]
  rfl

theorem weightEffect_refl {K : Type} [Field K] {NTERM : Nat}
    (fr : List (Nat × Nat × Nat × Nat × Nat)) (s : State K NTERM) :
    WeightEffect fr (fun _ => False) s s :=
  ⟨rfl, fun _ _ => rfl, fun _ _ h _ => h.elim, fun _ _ => rfl, fun _ _ h _ => h.elim⟩

/-- Two traversals over disjoint sets of cells, each closed under children, one after the
other. -/
theorem weightEffect_trans {K : Type} [Field K] {NTERM : Nat}
    {fr : List (Nat × Nat × Nat × Nat × Nat)}
    (hd : ∀ c d n, inLeaf fr c n → inLeaf fr d n → c = d)
    {S1 S2 : Nat → Prop} {s s1 s2 : State K NTERM}
    (hdisj : ∀ i, S1 i → S2 i → False)
    (hc1 : ∀ q d, S1 q → isChild (frameShape fr) q d → S1 d)
    (hc2 : ∀ q d, S2 q → isChild (frameShape fr) q d → S2 d)
    (h1 : WeightEffect fr S1 s s1) (h2 : WeightEffect fr S2 s1 s2) :
    WeightEffect fr (fun i => S1 i ∨ S2 i) s s2 := by
  obtain ⟨f1, o1, k1, a1, b1⟩ := h1
  obtain ⟨f2, o2, k2, a2, b2⟩ := h2
  refine ⟨f2.trans f1, ?_, ?_, ?_, ?_⟩
  · intro i hi
    rw [o2 i (fun h => hi (Or.inr h)), o1 i (fun h => hi (Or.inl h))]
  · rintro q d (hq | hq) hqd
    · rw [o2 d (fun h => hdisj d (hc1 q d hq hqd) h), o2 q (fun h => hdisj q hq h)]
      exact k1 q d hq hqd
    · rw [k2 q d hq hqd, o1 d (fun h => hdisj d h (hc2 q d hq hqd))]
  · intro n hn
    rw [a2 n (fun d h => hn d (Or.inr h)), a1 n (fun d h => hn d (Or.inl h))]
  · rintro d n (hS | hS) hdn
    · rw [a2 n (fun d' h' hl' => hdisj d' (hd d d' n hdn hl' ▸ hS) h'), b1 d n hS hdn,
        o2 d (fun h => hdisj d hS h)]
    · rw [b2 d n hS hdn, a1 n (fun d' h' hl' => hdisj d' h' (hd d d' n hdn hl' ▸ hS))]

theorem weightEffect_congr {K : Type} [Field K] {NTERM : Nat}
    {fr : List (Nat × Nat × Nat × Nat × Nat)} {S T : Nat → Prop} {s s' : State K NTERM}
    (h : ∀ i, S i ↔ T i) (he : WeightEffect fr S s s') : WeightEffect fr T s s' := by
  have : S = T := funext fun i => propext (h i)
  rw [← this]
  exact he

end UpDownPass

namespace UpDownPass

theorem WeightTree.not_reach_parent {fr : List (Nat × Nat × Nat × Nat × Nat)}
    (hw : WeightTree fr) {C ch : Nat} (hch : isChild (frameShape fr) C ch) :
    ¬ Relation.ReflTransGen (isChild (frameShape fr)) ch C :=
  fun h => hw.tree.acyclic C (Relation.TransGen.head' hch h)

theorem preOrderTraversal_weight_children {K : Type} [Field K] {NTERM : Nat}
    (kernel : Kernel K NTERM) (fuel : Nat) (fr : List (Nat × Nat × Nat × Nat × Nat))
    (hw : WeightTree fr) (C : Nat)
    (ih : ∀ (ch : Nat) (s s' : State K NTERM), frameOf s.cells = fr →
      isChild (frameShape fr) C ch →
      preOrderTraversal kernel true fuel ch s = some s' →
      WeightEffect fr (fun i => Relation.ReflTransGen (isChild (frameShape fr)) ch i) s s' ∧
      weightOf s'.cells ch = weightOf s.cells ch + weightOf s.cells C) :
    ∀ (l : List Nat) (s s' : State K NTERM), frameOf s.cells = fr →
      (∀ ch ∈ l, isChild (frameShape fr) C ch) → l.Nodup →
      l.foldlM (fun s CC => preOrderTraversal kernel true fuel CC s) s = some s' →
      WeightEffect fr
        (fun i => ∃ ch ∈ l, Relation.ReflTransGen (isChild (frameShape fr)) ch i) s s' ∧
      ∀ ch ∈ l, weightOf s'.cells ch = weightOf s.cells ch + weightOf s.cells C := by
  intro l
  induction l with
  | nil =>
    intro s s' _ _ _ h
    have hs : s' = s := by
      simp only [List.foldlM_nil] at h
      exact (Option.some.inj h).symm
    subst hs
    exact ⟨weightEffect_congr (fun i => by simp) (weightEffect_refl fr s'),
      fun ch hch => absurd hch (List.not_mem_nil ch)⟩
  | cons c0 rest ihl =>
    intro s s' hfr hl hnd h
    rw [List.foldlM_cons] at h
    obtain ⟨s1, h1, h2⟩ := Option.bind_eq_some.mp h
    have hc0 : isChild (frameShape fr) C c0 := hl c0 (List.mem_cons_self _ _)
    obtain ⟨E1, e1⟩ := ih c0 s s1 hfr hc0 h1
    obtain ⟨hc0rest, hndrest⟩ := List.nodup_cons.mp hnd
    obtain ⟨E2, e2⟩ := ihl s1 s' (E1.1.trans hfr)
      (fun ch hch => hl ch (List.mem_cons_of_mem _ hch)) hndrest h2
    have hdisj : ∀ i, Relation.ReflTransGen (isChild (frameShape fr)) c0 i →
        (∃ ch ∈ rest, Relation.ReflTransGen (isChild (frameShape fr)) ch i) → False := by
      rintro i hi ⟨ch, hch, hchi⟩
      exact hw.tree.siblings_disjoint hc0 (hl ch (List.mem_cons_of_mem _ hch))
        (fun he => hc0rest (he ▸ hch)) hi hchi
    constructor
    · refine weightEffect_congr ?_ (weightEffect_trans hw.disjoint hdisj
        (fun q d hq hqd => hq.tail hqd)
        (fun q d hq hqd => ?_) E1 E2)
      · intro i
        simp only [List.mem_cons, exists_eq_or_imp]
      · obtain ⟨ch, hch, hq'⟩ := hq
        exact ⟨ch, hch, hq'.tail hqd⟩
    · intro ch hch
      rcases List.mem_cons.mp hch with rfl | hch'
      · rw [E2.2.1 ch (fun hS => hdisj ch Relation.ReflTransGen.refl hS)]
        exact e1
      · rw [e2 ch hch']
        have hne : ¬ Relation.ReflTransGen (isChild (frameShape fr)) c0 ch :=
          fun hr => hdisj ch hr ⟨ch, hch', Relation.ReflTransGen.refl⟩
        rw [E1.2.1 ch hne, E1.2.1 C (hw.not_reach_parent hc0)]

end UpDownPass

namespace UpDownPass

theorem inLeaf_of_cell {K : Type} {NTERM : Nat} {cells : List (Cell K NTERM)} {d n : Nat}
    {c : Cell K NTERM} (hc : cells[d]? = some c) :
    inLeaf (frameOf cells) d n ↔ c.NCHILD = 0 ∧ c.BODY ≤ n ∧ n < c.BODY + c.NBODY := by
  unfold inLeaf
  rw [frameOf_getElem?, hc]
  constructor
  · rintro ⟨f, hf, h⟩
    simp only [Option.map_some', Option.some.injEq] at hf
    subst hf
    exact h
  · intro h
    exact ⟨_, rfl, h⟩

/-- The function `preOrderTraversal` on a non-root cell `C` with parent `p`: the weights of the
cells below `C` and of their bodies. -/
theorem preOrderTraversal_weight {K : Type} [Field K] {NTERM : Nat} (kernel : Kernel K NTERM)
    (hL2P : ∀ c b n, (kernel.L2P c b n).WEIGHT = (b n).WEIGHT)
    (fr : List (Nat × Nat × Nat × Nat × Nat)) (hw : WeightTree fr) :
    ∀ (fuel C p : Nat) (s s' : State K NTERM), frameOf s.cells = fr →
      isChild (frameShape fr) p C →
      preOrderTraversal kernel true fuel C s = some s' →
      WeightEffect fr (fun i => Relation.ReflTransGen (isChild (frameShape fr)) C i) s s' ∧
      weightOf s'.cells C = weightOf s.cells C + weightOf s.cells p := by
  intro fuel
  induction fuel with
  | zero => intro C p s s' _ _ h; simp [preOrderTraversal] at h
  | succ fuel ih =>
    intro C p s s' hfr hpC h
    simp only [preOrderTraversal, Option.bind_eq_some, if_true] at h
    obtain ⟨c, hc, r, ⟨cp, hcp, hr⟩, hfold⟩ := h
    have hlt : C < s.cells.length := (List.getElem?_eq_some_iff.mp hc).1
    -- the parent
    have hpar : c.IPARENT = p := by
      obtain ⟨f, hf, hfp⟩ := hw.parent p C hpC
      rw [← hfr, frameOf_getElem?, hc] at hf
      simp only [Option.map_some', Option.some.injEq] at hf
      subst hf
      exact hfp
    have hpne : C ≠ p := by
      rintro rfl
      exact hw.tree.acyclic C (Relation.TransGen.single hpC)
    simp only [hpar] at hcp
    rw [List.getElem?_set, if_neg hpne] at hcp
    have hWp : weightOf s.cells p = cp.WEIGHT := weightOf_eq hcp
    have hWC : weightOf s.cells C = c.WEIGHT := weightOf_eq hc
    -- the children
    have hshC : (frameShape fr)[C]? = some (c.ICHILD, c.NCHILD) := by
      rw [← hfr, ← shapeOf_eq_frameShape, shapeOf_getElem?, hc]
      rfl
    have hleafC : ∀ n, inLeaf fr C n ↔ c.NCHILD = 0 ∧ c.BODY ≤ n ∧ n < c.BODY + c.NBODY := by
      intro n
      rw [← hfr]
      exact inLeaf_of_cell hc
    have hr' := Option.some.inj hr
    subst hr'
    -- the state after the statements on `C` itself
    have hfr2 : frameOf ((s.cells.set C { c with L := kernel.L2L s.cells C }).set C
        { c with L := kernel.L2L s.cells C, WEIGHT := c.WEIGHT + cp.WEIGHT }) = fr := by
      rw [List.set_set, ← hfr]
      exact frameOf_set s.cells C c _ hc rfl
    have hW2 : ∀ i, weightOf ((s.cells.set C { c with L := kernel.L2L s.cells C }).set C
        { c with L := kernel.L2L s.cells C, WEIGHT := c.WEIGHT + cp.WEIGHT }) i =
        if C = i then c.WEIGHT + cp.WEIGHT else weightOf s.cells i := by
      intro i
      rw [List.set_set, weightOf_set _ _ _ hlt]
    obtain ⟨E, e⟩ := preOrderTraversal_weight_children kernel fuel fr hw C
      (fun ch t t' ht hch hrun => ih ch C t t' ht hch hrun)
      (List.range' c.ICHILD c.NCHILD) _ s' hfr2
      (fun ch hch => (mem_children_iff hshC ch).mp hch) (List.nodup_range' _ _) hfold
    obtain ⟨Ef, Eo, Ek, Ea, Eb⟩ := E
    have hCout : ¬ ∃ ch ∈ List.range' c.ICHILD c.NCHILD,
        Relation.ReflTransGen (isChild (frameShape fr)) ch C := by
      rintro ⟨ch, hch, hr⟩
      exact hw.not_reach_parent ((mem_children_iff hshC ch).mp hch) hr
    have hsub : ∀ i, Relation.ReflTransGen (isChild (frameShape fr)) C i →
        i = C ∨ ∃ ch ∈ List.range' c.ICHILD c.NCHILD,
          Relation.ReflTransGen (isChild (frameShape fr)) ch i := by
      intro i hi
      rcases Relation.ReflTransGen.cases_head hi with h0 | ⟨ch, hch, hr⟩
      · exact Or.inl h0.symm
      · exact Or.inr ⟨ch, (mem_children_iff hshC ch).mpr hch, hr⟩
    have hbelow : ∀ i, (∃ ch ∈ List.range' c.ICHILD c.NCHILD,
        Relation.ReflTransGen (isChild (frameShape fr)) ch i) → C ≠ i := by
      rintro i hi rfl
      exact hCout hi
    have hchne : ∀ d, isChild (frameShape fr) C d → C ≠ d := by
      rintro d hd rfl
      exact hw.tree.acyclic C (Relation.TransGen.single hd)
    have hWC' : weightOf s'.cells C = c.WEIGHT + cp.WEIGHT := by
      rw [Eo C hCout, hW2 C, if_pos rfl]
    refine ⟨⟨Ef.trans (hfr2.trans hfr.symm), ?_, ?_, ?_, ?_⟩, ?_⟩
    · intro i hi
      have hiC : C ≠ i := fun h0 => hi (h0 ▸ Relation.ReflTransGen.refl)
      rw [Eo i (fun ⟨ch, hch, hr⟩ => hi (Relation.ReflTransGen.head
        ((mem_children_iff hshC ch).mp hch) hr)), hW2 i, if_neg hiC]
    · intro q d hq hqd
      rcases hsub q hq with rfl | hq'
      · rw [e d ((mem_children_iff hshC d).mpr hqd), hW2 d, hW2 q, if_pos rfl,
          if_neg (hchne d hqd), hWC']
      · rw [Ek q d hq' hqd, hW2 d, if_neg]
        rintro rfl
        obtain ⟨ch, hch, hr⟩ := hq'
        exact hCout ⟨ch, hch, hr.tail hqd⟩
    · intro n hn
      rw [Ea n (fun d hd => hn d (by
        obtain ⟨ch, hch, hr⟩ := hd
        exact Relation.ReflTransGen.head ((mem_children_iff hshC ch).mp hch) hr))]
      have hnC : ¬ (c.NCHILD = 0 ∧ c.BODY ≤ n ∧ n < c.BODY + c.NBODY) :=
        fun h0 => hn C Relation.ReflTransGen.refl ((hleafC n).mpr h0)
      by_cases hz : c.NCHILD = 0
      · have hr : ¬ (c.BODY ≤ n ∧ n < c.BODY + c.NBODY) := fun h0 => hnC ⟨hz, h0⟩
        simp only [hz, if_true, if_neg hr]
        exact hL2P _ _ _
      · simp only [if_neg hz]
    · intro d n hd hdn
      rcases hsub d hd with rfl | hd'
      · have hl := (hleafC n).mp hdn
        rw [Ea n (fun d' hd' hd'n => hbelow d' hd' (hw.disjoint _ _ n hdn hd'n)), hWC']
        simp only [hl.1, if_true, if_pos hl.2]
        rw [hL2P]
      · rw [Eb d n hd' hdn]
        congr 1
        have hz : c.NCHILD ≠ 0 := by
          intro hz
          obtain ⟨ch, hch, _⟩ := hd'
          rw [hz] at hch
          simp at hch
        simp only [if_neg hz]
    · rw [hWC', hWC, hWp]

end UpDownPass

namespace UpDownPass

/-- Along a chain of steps that each add the old value of the target to the new value of
the source, the new value at the end is the new value at the start plus the old values
along the chain. -/
theorem chain_sum {K : Type} [Field K] (r : Nat → Nat → Prop) (W W' : Nat → K)
    (hstep : ∀ q d, r q d → W' d = W d + W' q) :
    ∀ (path : List Nat) (a d : Nat), List.Chain r a path → (a :: path).getLast? = some d →
      W' d = W' a + (path.map W).sum ∧ Relation.ReflTransGen r a d := by
  intro path
  induction path with
  | nil =>
    intro a d _ hl
    simp only [List.getLast?_singleton, Option.some.injEq] at hl
    subst hl
    simp [Relation.ReflTransGen.refl]
  | cons b rest ih =>
    intro a d hch hl
    obtain ⟨hab, hrest⟩ := List.chain_cons.mp hch
    rw [List.getLast?_cons_cons] at hl
    obtain ⟨h1, h2⟩ := ih b d hrest hl
    refine ⟨?_, Relation.ReflTransGen.head hab h2⟩
    rw [h1, hstep a b hab, List.map_cons, List.sum_cons]
    ring

/-- C22, amended. Built with `EXAFMM_USE_WEIGHT`, on a cell array that is a tree through the
child ranges, with `IPARENT` of every child the index of its parent, every `IPARENT`
inside the array and no body in the ranges of two childless cells, and with a kernel
`L2P` that leaves the `WEIGHT` of the bodies alone: `downwardPass` returns, and for
every childless cell `C` other than the root, reached from the root `0` along `path`,
each body in the range `[BODY, BODY+NBODY)` of `C` has its `WEIGHT` increased by the sum
of the initial `WEIGHT`s of the root and of the cells of `path` (`C` and its ancestors). -/
theorem downwardPass_weight {K : Type} [Field K] {NTERM : Nat} (kernel : Kernel K NTERM)
    (fuel : Nat) (s : State K NTERM) (hw : WeightTree (frameOf s.cells))
    (hp : ParentsInBounds true s.cells)
    (hL2P : ∀ c b n, (kernel.L2P c b n).WEIGHT = (b n).WEIGHT)
    (hfuel : s.cells.length ≤ fuel) :
    ∃ s', downwardPass kernel true fuel s = some s' ∧
      ∀ (path : List Nat) (C n : Nat) (c : Cell K NTERM), path ≠ [] →
        List.Chain (isChild (shapeOf s.cells)) 0 path → (0 :: path).getLast? = some C →
        s.cells[C]? = some c → c.NCHILD = 0 → c.BODY ≤ n → n < c.BODY + c.NBODY →
        (s'.bodies n).WEIGHT =
          (s.bodies n).WEIGHT + ((0 :: path).map (weightOf s.cells)).sum := by
  have ht : TreeShaped (shapeOf s.cells) := by
    rw [shapeOf_eq_frameShape]
    exact hw.tree
  have hpos : 0 < (shapeOf s.cells).length := List.length_pos.mpr ht.nonempty
  have hlen := shapeOf_length s.cells
  have hsh : (shapeOf s.cells)[0]? = some (shapeOf s.cells)[0] := List.getElem?_eq_getElem hpos
  obtain ⟨c0, hc0, hci, hcn⟩ := cell_of_shape hsh
  obtain ⟨sub, hsub⟩ := visitAll_exists (f := visitOrder false (shapeOf s.cells) fuel)
    (l := List.range' (shapeOf s.cells)[0].1 (shapeOf s.cells)[0].2) (by
      intro c hc
      exact ht.visitOrder_succeeds false fuel c
        (ht.inBounds 0 c ((mem_children_iff hsh c).mp hc)) (by rw [hlen]; exact hfuel))
  have hemp : (!s.cells.isEmpty) = true := by
    cases hcs : s.cells with
    | nil => rw [hcs] at hc0; simp at hc0
    | cons a l => rfl
  have hcells1 : (if c0.NCHILD = 0 then
        ({ s with bodies := kernel.L2P c0 s.bodies, trace := s.trace ++ [(Call.L2P 0, c0)] } :
          State K NTERM)
      else s).cells = s.cells := by
    split_ifs <;> rfl
  have hbodies1 : ∀ n, ((if c0.NCHILD = 0 then
        ({ s with bodies := kernel.L2P c0 s.bodies, trace := s.trace ++ [(Call.L2P 0, c0)] } :
          State K NTERM)
      else s).bodies n).WEIGHT = (s.bodies n).WEIGHT := by
    intro n
    split_ifs
    · exact hL2P _ _ _
    · rfl
  rw [← hci, ← hcn] at hsub
  obtain ⟨s', hs', _⟩ := preOrderTraversal_children kernel true fuel
    (fun C t vis => preOrderTraversal_spec kernel true fuel C t vis)
    (List.range' c0.ICHILD c0.NCHILD) (if c0.NCHILD = 0 then
        ({ s with bodies := kernel.L2P c0 s.bodies, trace := s.trace ++ [(Call.L2P 0, c0)] } :
          State K NTERM)
      else s) sub (by rw [hcells1]; exact hp) (by rw [hcells1]; exact hsub)
  have hrun : downwardPass kernel true fuel s = some s' := by
    unfold downwardPass
    rw [if_pos hemp, hc0, Option.some_bind]
    exact hs'
  refine ⟨s', hrun, ?_⟩
  have hshC : (frameShape (frameOf s.cells))[0]? = some (c0.ICHILD, c0.NCHILD) := by
    rw [← shapeOf_eq_frameShape, shapeOf_getElem?, hc0]
    rfl
  obtain ⟨⟨_, Eo, Ek, _, Eb⟩, e⟩ := preOrderTraversal_weight_children kernel fuel
    (frameOf s.cells) hw 0
    (fun ch t t' ht hch hrun =>
      preOrderTraversal_weight kernel hL2P (frameOf s.cells) hw fuel ch 0 t t' ht hch hrun)
    (List.range' c0.ICHILD c0.NCHILD) _ s' (by rw [hcells1])
    (fun ch hch => (mem_children_iff hshC ch).mp hch) (List.nodup_range' _ _) hs'
  rw [hcells1] at Eo Ek e
  have hroot : weightOf s'.cells 0 = weightOf s.cells 0 := by
    apply Eo
    rintro ⟨ch, hch, hr⟩
    exact hw.not_reach_parent ((mem_children_iff hshC ch).mp hch) hr
  have hstep : ∀ q d, isChild (frameShape (frameOf s.cells)) q d →
      weightOf s'.cells d = weightOf s.cells d + weightOf s'.cells q := by
    intro q d hqd
    have hq : Relation.ReflTransGen (isChild (frameShape (frameOf s.cells))) 0 q :=
      hw.tree.root_reaches q (isChild_parent_lt hqd)
    rcases Relation.ReflTransGen.cases_head hq with h0 | ⟨ch, hch, hr⟩
    · subst h0
      rw [e d ((mem_children_iff hshC d).mpr hqd), hroot]
    · exact Ek q d ⟨ch, (mem_children_iff hshC ch).mpr hch, hr⟩ hqd
  intro path C n c hne hchain hlast hc hz h1 h2
  rw [shapeOf_eq_frameShape] at hchain
  obtain ⟨hsum, _⟩ := chain_sum _ (weightOf s.cells) (weightOf s'.cells) hstep path 0 C
    hchain hlast
  have hCin : ∃ ch ∈ List.range' c0.ICHILD c0.NCHILD,
      Relation.ReflTransGen (isChild (frameShape (frameOf s.cells))) ch C := by
    cases path with
    | nil => exact absurd rfl hne
    | cons b rest =>
      obtain ⟨h0b, hrest⟩ := List.chain_cons.mp hchain
      rw [List.getLast?_cons_cons] at hlast
      exact ⟨b, (mem_children_iff hshC b).mpr h0b,
        (chain_sum _ (weightOf s.cells) (weightOf s'.cells) hstep rest b C hrest hlast).2⟩
  rw [Eb C n hCin ((inLeaf_of_cell hc).mpr ⟨hz, h1, h2⟩), hbodies1 n, hsum, hroot,
    List.map_cons, List.sum_cons]

end UpDownPass

namespace UpDownPass

theorem not_isChild_rootOnly (p c : Nat) : ¬ isChild [(0, 0)] p c := by
  rintro ⟨sh, hsh, h1, h2⟩
  rcases p with _ | p
  · simp at hsh
    subst hsh
    simp at h1 h2
  · simp at hsh

/-- Counterexample for C22: the tree that is its root only.  The cell array is a tree, its
root is childless with weight `1` and holds body `0`; `downwardPass` (built with
`EXAFMM_USE_WEIGHT`, any fuel) calls `L2P` on the root only and leaves the `WEIGHT` of
the body at `0`, not at `0 + 1`. -/
theorem downwardPass_weight_counterexample :
    WeightTree (frameOf rootOnlyState.cells) ∧ ParentsInBounds true rootOnlyState.cells ∧
    inLeaf (frameOf rootOnlyState.cells) 0 0 ∧
    weightOf rootOnlyState.cells 0 = 1 ∧
    ∀ fuel, ∃ s', downwardPass exampleKernel true fuel rootOnlyState = some s' ∧
      (s'.bodies 0).WEIGHT = (rootOnlyState.bodies 0).WEIGHT ∧
      (s'.bodies 0).WEIGHT ≠
        (rootOnlyState.bodies 0).WEIGHT + weightOf rootOnlyState.cells 0 := by
  have hshape : frameShape (frameOf rootOnlyState.cells) = [(0, 0)] := rfl
  refine ⟨⟨?_, ?_, ?_⟩, ?_, ?_, rfl, ?_⟩
  · rw [hshape]
    refine ⟨by simp, ?_, ?_, ?_⟩
    · intro p c h
      exact absurd h (not_isChild_rootOnly p c)
    · intro c h1 h2
      simp only [List.length_cons, List.length_nil] at h2
      omega
    · intro c h
      rcases Relation.TransGen.head'_iff.mp h with ⟨d, hd, _⟩
      exact not_isChild_rootOnly c d hd
  · intro p c h
    rw [hshape] at h
    exact absurd h (not_isChild_rootOnly p c)
  · rintro c d n ⟨f, hf, -⟩ ⟨g, hg, -⟩
    have hc : c < 1 := (List.getElem?_eq_some_iff.mp hf).1
    have hd : d < 1 := (List.getElem?_eq_some_iff.mp hg).1
    omega
  · intro _ i c hc
    have hi : i < 1 := (List.getElem?_eq_some_iff.mp hc).1
    have hi0 : i = 0 := by omega
    subst hi0
    simp [rootOnlyState] at hc
    subst hc
    simp [weightCell, rootOnlyState]
  · exact ⟨(0, 0, 0, 0, 1), rfl, rfl, by decide, by decide⟩
  · intro fuel
    refine ⟨_, rfl, rfl, ?_⟩
    show (0 : ℚ) ≠ 0 + 1
    norm_num

theorem weightTree_example : WeightTree (frameOf weightState.cells) := by
  have hshape : frameShape (frameOf weightState.cells) = shapeOf exampleState.cells := rfl
  have hshape2 : shapeOf exampleState.cells = [(1, 2), (0, 0), (0, 0)] := rfl
  refine ⟨?_, ?_, ?_⟩
  · rw [hshape]
    exact treeShaped_example
  · intro p c h
    rw [hshape, hshape2] at h
    obtain ⟨rfl, hc⟩ := (isChild_example p c).mp h
    rcases hc with rfl | rfl
    · exact ⟨_, rfl, rfl⟩
    · exact ⟨_, rfl, rfl⟩
  · rintro c d n ⟨f, hf, hfz, hf1, hf2⟩ ⟨g, hg, hgz, hg1, hg2⟩
    rcases c with _ | _ | _ | c
    · simp [weightState, frameOf, weightCell] at hf
      subst hf
      simp at hfz
    · simp [weightState, frameOf, weightCell] at hf
      subst hf
      rcases d with _ | _ | _ | d
      · simp [weightState, frameOf, weightCell] at hg
        subst hg
        simp at hgz
      · rfl
      · simp [weightState, frameOf, weightCell] at hg
        subst hg
        simp at hf1 hf2 hg1 hg2
        omega
      · simp [weightState, frameOf, weightCell] at hg
    · simp [weightState, frameOf, weightCell] at hf
      subst hf
      rcases d with _ | _ | _ | d
      · simp [weightState, frameOf, weightCell] at hg
        subst hg
        simp at hgz
      · simp [weightState, frameOf, weightCell] at hg
        subst hg
        simp at hf1 hf2 hg1 hg2
        omega
      · rfl
      · simp [weightState, frameOf, weightCell] at hg
    · simp [weightState, frameOf, weightCell] at hf

/-- Witness for C22: the root with two childless children, fuel `3`. -/
theorem downwardPass_weight_witness :
    ∃ s', downwardPass exampleKernel true 3 weightState = some s' ∧
      ∀ (path : List Nat) (C n : Nat) (c : Cell ℚ 0), path ≠ [] →
        List.Chain (isChild (shapeOf weightState.cells)) 0 path →
        (0 :: path).getLast? = some C →
        weightState.cells[C]? = some c → c.NCHILD = 0 → c.BODY ≤ n → n < c.BODY + c.NBODY →
        (s'.bodies n).WEIGHT =
          (weightState.bodies n).WEIGHT + ((0 :: path).map (weightOf weightState.cells)).sum :=
  downwardPass_weight exampleKernel 3 weightState weightTree_example
    (by
      intro _ i c hc
      rcases i with _ | _ | _ | i
      · simp [weightState] at hc
        subst hc
        simp [weightCell, weightState]
      · simp [weightState] at hc
        subst hc
        simp [weightCell, weightState]
      · simp [weightState] at hc
        subst hc
        simp [weightCell, weightState]
      · simp [weightState] at hc)
    (fun _ _ _ => rfl) (by decide)

end UpDownPass

end ExaFMM

/-! # Theorems on the rotation of the expansion coefficients -/

namespace ExaFMM

namespace HelmholtzKernel

/-! ### Loops over `int` ranges and array agreement -/

theorem mem_intRange (lo hi x : Int) : x ∈ intRange lo hi ↔ lo ≤ x ∧ x < hi := by
  unfold intRange
  rw [List.mem_map]
  constructor
  · rintro ⟨k, hk, rfl⟩
    rw [List.mem_range] at hk
    omega
  · rintro ⟨h1, h2⟩
    refine ⟨(x - lo).toNat, ?_, ?_⟩
    · rw [List.mem_range]
      omega
    · omega

theorem intRange_succ (lo hi : Int) (h : lo ≤ hi) :
    intRange lo (hi + 1) = intRange lo hi ++ [hi] := by
  unfold intRange
  have e : (hi + 1 - lo).toNat = (hi - lo).toNat + 1 := by omega
  rw [e, List.range_succ, List.map_append, List.map_singleton]
  congr 2
  omega

theorem intRange_empty (lo hi : Int) (h : hi ≤ lo) : intRange lo hi = [] := by
  unfold intRange
  have e : (hi - lo).toNat = 0 := by omega
  rw [e]
  rfl

/-- A loop `for (int n=lo; n<hi; n++)` carries an invariant from `lo` to `hi`. -/
theorem foldl_intRange_inv {σ : Type} (Inv : Int → σ → Prop) (step : σ → Int → σ)
    (lo : Int) (s : σ) (h0 : Inv lo s) :
    ∀ (k : Nat), (∀ n t, lo ≤ n → n < lo + k → Inv n t → Inv (n + 1) (step t n)) →
      Inv (lo + k) ((intRange lo (lo + k)).foldl step s) := by
  intro k
  induction k with
  | zero =>
    intro _
    rw [intRange_empty lo _ (by simp)]
    simpa using h0
  | succ k ih =>
    intro hstep
    have e : lo + ((k + 1 : Nat) : Int) = lo + (k : Int) + 1 := by push_cast; ring
    rw [e, intRange_succ lo (lo + k) (by omega), List.foldl_append]
    exact hstep (lo + k) _ (by omega) (by omega)
      (ih (fun n t h1 h2 hI => hstep n t h1 (by omega) hI))

theorem set2_apply {K : Type} (a : Int → Int → K) (i j : Int) (v : K) (i' j' : Int) :
    set2 a i j v i' j' = if i' = i ∧ j' = j then v else a i' j' := rfl

theorem agreeOn_mono {K : Type} {D : Int → Int → K} {S T : Int → Int → Prop}
    {a : Int → Int → K} (h : ∀ i j, T i j → S i j) (ha : AgreeOn D S a) : AgreeOn D T a :=
  fun i j hT => ha i j (h i j hT)

/-- An array that holds the entries of `D` where `W` says and those of `a` elsewhere. -/
theorem agreeOn_of_pointwise {K : Type} {D : Int → Int → K} {S W : Int → Int → Prop}
    {a a' : Int → Int → K} (ha : AgreeOn D S a)
    (h : ∀ i j, (W i j → a' i j = D i j) ∧ (¬ W i j → a' i j = a i j)) :
    AgreeOn D (fun i j => S i j ∨ W i j) a' := by
  intro i j hS
  by_cases hW : W i j
  · exact (h i j).1 hW
  · rw [(h i j).2 hW]
    rcases hS with hS | hS
    · exact ha i j hS
    · exact absurd hS hW

theorem agreeOn_set2 {K : Type} {D : Int → Int → K} {S : Int → Int → Prop}
    {a : Int → Int → K} (ha : AgreeOn D S a) (i j : Int) (v : K) (hv : v = D i j) :
    AgreeOn D (fun i' j' => S i' j' ∨ (i' = i ∧ j' = j)) (set2 a i j v) := by
  apply agreeOn_of_pointwise ha
  intro i' j'
  rw [set2_apply]
  constructor
  · rintro ⟨rfl, rfl⟩
    rw [if_pos ⟨rfl, rfl⟩, hv]
  · intro h
    rw [if_neg h]

/-- A loop whose steps each keep the agreement and extend it to the places `W x`. -/
theorem foldl_agreeOn {K α : Type} (D : Int → Int → K)
    (step : (Int → Int → K) → α → (Int → Int → K)) (W : α → Int → Int → Prop)
    (l : List α) :
    ∀ (S : Int → Int → Prop) (a : Int → Int → K), AgreeOn D S a →
      (∀ x ∈ l, ∀ (S' : Int → Int → Prop) (a' : Int → Int → K), (∀ i j, S i j → S' i j) →
        AgreeOn D S' a' → AgreeOn D (fun i j => S' i j ∨ W x i j) (step a' x)) →
      AgreeOn D (fun i j => S i j ∨ ∃ x ∈ l, W x i j) (l.foldl step a) := by
  induction l with
  | nil =>
    intro S a ha _
    exact agreeOn_mono (fun i j h => by simpa using h) ha
  | cons x rest ih =>
    intro S a ha hstep
    rw [List.foldl_cons]
    have h1 := hstep x (List.mem_cons_self _ _) S a (fun _ _ h => h) ha
    have h2 := ih (fun i j => S i j ∨ W x i j) (step a x) h1
      (fun y hy S' a' hS' ha' =>
        hstep y (List.mem_cons_of_mem _ hy) S' a' (fun i j h => hS' i j (Or.inl h)) ha')
    refine agreeOn_mono ?_ h2
    rintro i j (h | ⟨y, hy, hW⟩)
    · exact Or.inl (Or.inl h)
    · rcases List.mem_cons.mp hy with rfl | hy'
      · exact Or.inl (Or.inr hW)
      · exact Or.inr ⟨y, hy', hW⟩

end HelmholtzKernel

namespace HelmholtzKernel

/-! ### The steps of `rotate` at angle zero -/

theorem rotateNeg_zero {K : Type} [Field K] (P n : Int) (ang : RotAngles K)
    (hh : ang.hsthta = 0) (sq Rnm1 a : Int → Int → K) (m : Int) (hm2 : m < 0)
    (hR : AgreeOn (rotDelta P) (rotRegion P (n - 1)) Rnm1) :
    rotateNeg P n ang sq Rnm1 a m = set2 a 0 (P + m) 0 := by
  have hz : m > -n → Rnm1 0 (P + m) = 0 := by
    intro h
    rw [hR 0 (P + m) ⟨le_refl 0, by omega, by omega, by omega⟩]
    unfold rotDelta
    rw [if_neg (by omega)]
  funext i j
  unfold rotateNeg
  by_cases hp : i = 0 ∧ j = P + m
  · by_cases h2 : m > -n
    · by_cases h1 : m > 1 - n
      · simp [set2_apply, hh, hz h2, h1, h2, hp]
      · simp [set2_apply, hh, hz h2, h1, h2, hp]
    · by_cases h1 : m > 1 - n
      · simp [set2_apply, hh, h1, h2, hp]
      · simp [set2_apply, hh, h1, h2, hp]
  · by_cases h2 : m > -n
    · by_cases h1 : m > 1 - n
      · simp [set2_apply, h1, h2, hp]
      · simp [set2_apply, h1, h2, hp]
    · by_cases h1 : m > 1 - n
      · simp [set2_apply, h1, h2, hp]
      · simp [set2_apply, h1, h2, hp]

theorem rotateZero_zero {K : Type} [Field K] (P n : Int) (ang : RotAngles K)
    (hh : ang.hsthta = 0) (hc : ang.ctheta = 1) (sq Rnm1 a : Int → Int → K)
    (hR : Rnm1 0 P = 1) :
    rotateZero P n ang sq Rnm1 a = set2 a 0 P 1 := by
  funext i j
  unfold rotateZero
  by_cases hp : i = 0 ∧ j = P
  · by_cases h1 : n > 1
    · simp [set2_apply, hh, hc, hR, h1, hp]
    · simp [set2_apply, hh, hc, hR, h1, hp]
  · by_cases h1 : n > 1
    · simp [set2_apply, h1, hp]
    · simp [set2_apply, h1, hp]

theorem rotatePos_zero {K : Type} [Field K] (P : Int) (a : Int → Int → K) (m : Int)
    (ha : a 0 (P - m) = 0) :
    rotatePos P a m = set2 (set2 a 0 (P + m) 0) m P 0 := by
  funext i j
  unfold rotatePos
  by_cases h1 : m.tmod 2 = 0
  · simp [set2_apply, ha, h1]
  · simp [set2_apply, ha, h1]

theorem rotateInnerValues_zero {K : Type} [Field K] (P n : Int) (ang : RotAngles K)
    (hs : ang.stheta = 0) (hn : ang.cthtan = 0) (sq Rnm1 a : Int → Int → K) (mp : Int)
    (scale : K) (m : Int) (hmp : 1 ≤ mp) (hm1 : mp ≤ m) (hm2 : m ≤ n)
    (hscale : ang.cthtap * sq (n + mp) 1 * scale = 1)
    (hR : AgreeOn (rotDelta P) (rotRegion P (n - 1)) Rnm1) :
    rotateInnerValues P n ang sq Rnm1 mp scale a m =
      set2 (set2 a mp (P + m) (rotDelta P mp (P + m))) mp (P - m) 0 := by
  have hA : Rnm1 (mp - 1) (P + m - 1) = if m = mp then 1 else 0 := by
    rw [hR (mp - 1) (P + m - 1) ⟨by omega, by omega, by omega, by omega⟩]
    unfold rotDelta
    by_cases h : m = mp
    · rw [if_pos h, if_pos (by omega)]
    · rw [if_neg h, if_neg (by omega)]
  have hB : m < n - 1 → Rnm1 (mp - 1) (P - m - 1) = 0 := by
    intro h
    rw [hR (mp - 1) (P - m - 1) ⟨by omega, by omega, by omega, by omega⟩]
    unfold rotDelta
    rw [if_neg (by omega)]
  have hD : rotDelta P mp (P + m) = if m = mp then (1 : K) else 0 := by
    unfold rotDelta
    by_cases h : m = mp
    · rw [if_pos h, if_pos (by omega)]
    · rw [if_neg h, if_neg (by omega)]
  have hne : ¬ (P + m = P - m) := by omega
  have hne2 : ¬ (P - m = P + m) := by omega
  funext i j
  unfold rotateInnerValues
  rw [hD]
  by_cases hX : i = mp ∧ j = P + m
  · obtain ⟨rfl, rfl⟩ := hX
    by_cases h1 : m < n - 1
    · by_cases h2 : m < n
      · by_cases h3 : m = i
        · subst h3
          simp [set2_apply, hs, hn, hA, hB h1, h1, h2, hne, hne2, hscale]
        · simp [set2_apply, hs, hn, hA, hB h1, h1, h2, h3, hne, hne2]
      · omega
    · by_cases h2 : m < n
      · by_cases h3 : m = i
        · subst h3
          simp [set2_apply, hs, hn, hA, h1, h2, hne, hne2, hscale]
        · simp [set2_apply, hs, hn, hA, h1, h2, h3, hne, hne2]
      · by_cases h3 : m = i
        · subst h3
          simp [set2_apply, hs, hn, hA, h1, h2, hne, hne2, hscale]
        · simp [set2_apply, hs, hn, hA, h1, h2, h3, hne, hne2]
  · by_cases hY : i = mp ∧ j = P - m
    · obtain ⟨rfl, rfl⟩ := hY
      by_cases h1 : m < n - 1
      · by_cases h2 : m < n
        · simp [set2_apply, hs, hn, hA, hB h1, h1, h2, hne, hne2]
        · omega
      · by_cases h2 : m < n
        · simp [set2_apply, hs, hn, hA, h1, h2, hne, hne2]
        · simp [set2_apply, hs, hn, hA, h1, h2, hne, hne2]
    · by_cases h1 : m < n - 1
      · by_cases h2 : m < n
        · simp [set2_apply, h1, h2, hX, hY]
        · omega
      · by_cases h2 : m < n
        · simp [set2_apply, h1, h2, hX, hY]
        · simp [set2_apply, h1, h2, hX, hY]

end HelmholtzKernel

namespace HelmholtzKernel

theorem rotateInnerMirror_zero {K : Type} [Field K] (P mp m : Int) (a : Int → Int → K)
    (hgt : m > mp) (h1 : a mp (P + m) = 0) (h2 : a mp (P - m) = 0) :
    rotateInnerMirror P mp a m = set2 (set2 a m (P + mp) 0) m (P - mp) 0 := by
  have hne : ¬ (mp = m) := by omega
  funext i j
  unfold rotateInnerMirror
  rw [if_pos hgt]
  by_cases hpar : (mp + m).tmod 2 = 0
  · simp [set2_apply, h1, h2, hne, hpar]
  · simp [set2_apply, h1, h2, hne, hpar]

theorem rotDelta_off {K : Type} [Field K] (P i j : Int) (h : j ≠ P + i) :
    (rotDelta P i j : K) = 0 := by
  unfold rotDelta
  rw [if_neg h]

theorem rotDelta_diag {K : Type} [Field K] (P i : Int) : (rotDelta P i (P + i) : K) = 1 := by
  unfold rotDelta
  rw [if_pos rfl]

theorem rotDelta_origin {K : Type} [Field K] (P : Int) : (rotDelta P 0 P : K) = 1 := by
  unfold rotDelta
  rw [if_pos (by omega)]

/-- At angle zero the body of the loop over `m` stores the entries of `rotDelta`. -/
theorem rotateInner_agree {K : Type} [Field K] (P n : Int) (ang : RotAngles K)
    (hs : ang.stheta = 0) (hn : ang.cthtan = 0) (sq Rnm1 : Int → Int → K) (mp : Int)
    (scale : K) (m : Int) (hmp : 1 ≤ mp) (hm1 : mp ≤ m) (hm2 : m ≤ n)
    (hscale : ang.cthtap * sq (n + mp) 1 * scale = 1)
    (hR : AgreeOn (rotDelta P) (rotRegion P (n - 1)) Rnm1)
    (S : Int → Int → Prop) (a : Int → Int → K) (ha : AgreeOn (rotDelta P) S a) :
    AgreeOn (rotDelta P) (fun i j => S i j ∨ rotWritten P mp m i j)
      (rotateInner P n ang sq Rnm1 mp scale a m) := by
  unfold rotateInner
  rw [rotateInnerValues_zero P n ang hs hn sq Rnm1 a mp scale m hmp hm1 hm2 hscale hR]
  have e1 := agreeOn_set2 ha mp (P + m) (rotDelta P mp (P + m)) rfl
  have e2 := agreeOn_set2 e1 mp (P - m) 0 (rotDelta_off P mp (P - m) (by omega)).symm
  by_cases hgt : m > mp
  · rw [rotateInnerMirror_zero P mp m _ hgt
      (by
        rw [set2_apply, if_neg (by omega), set2_apply, if_pos ⟨rfl, rfl⟩]
        exact rotDelta_off P mp (P + m) (by omega))
      (by rw [set2_apply, if_pos ⟨rfl, rfl⟩])]
    have e3 := agreeOn_set2 e2 m (P + mp) 0 (rotDelta_off P m (P + mp) (by omega)).symm
    have e4 := agreeOn_set2 e3 m (P - mp) 0 (rotDelta_off P m (P - mp) (by omega)).symm
    refine agreeOn_mono ?_ e4
    intro i j h
    unfold rotWritten at h
    tauto
  · have : rotateInnerMirror P mp
        (set2 (set2 a mp (P + m) (rotDelta P mp (P + m))) mp (P - m) 0) m =
        set2 (set2 a mp (P + m) (rotDelta P mp (P + m))) mp (P - m) 0 := by
      unfold rotateInnerMirror
      rw [if_neg hgt]
    rw [this]
    refine agreeOn_mono ?_ e2
    intro i j h
    unfold rotWritten at h
    tauto

/-- At angle zero the body of the loop over `mp` stores the entries of `rotDelta`. -/
theorem rotateMp_agree {K : Type} [Field K] (fn : Cmath K) (P n : Int) (ang : RotAngles K)
    (hs : ang.stheta = 0) (hn : ang.cthtan = 0) (hp : ang.cthtap = fn.sqrt 2)
    (sq Rnm1 : Int → Int → K) (mp : Int) (hmp : 1 ≤ mp)
    (hsq : fn.sqrt 2 * sq (n + mp) 1 ≠ 0)
    (hR : AgreeOn (rotDelta P) (rotRegion P (n - 1)) Rnm1)
    (S : Int → Int → Prop) (a : Int → Int → K) (ha : AgreeOn (rotDelta P) S a) :
    AgreeOn (rotDelta P)
      (fun i j => S i j ∨ ∃ m ∈ intRange mp (n + 1), rotWritten P mp m i j)
      (rotateMp fn P n ang sq Rnm1 a mp) := by
  unfold rotateMp
  apply foldl_agreeOn (rotDelta P) _ (fun m => rotWritten P mp m) _ S a ha
  intro m hm S' a' _ ha'
  rw [mem_intRange] at hm
  exact rotateInner_agree P n ang hs hn sq Rnm1 mp _ m hmp hm.1 (by omega)
    (by rw [hp, mul_one_div, div_self hsq]) hR S' a' ha'

end HelmholtzKernel

namespace HelmholtzKernel

theorem rotRegion_covered (P n : Int) (i j : Int) (h : rotRegion P n i j) :
    (((False ∨ ∃ m ∈ intRange (-n) 0, i = 0 ∧ j = P + m) ∨ (i = 0 ∧ j = P)) ∨
      ∃ m ∈ intRange 1 (n + 1), (i = 0 ∧ j = P + m) ∨ (i = m ∧ j = P)) ∨
    ∃ mp ∈ intRange 1 (n + 1), ∃ m ∈ intRange mp (n + 1), rotWritten P mp m i j := by
  obtain ⟨h1, h2, h3, h4⟩ := h
  simp only [mem_intRange]
  unfold rotWritten
  by_cases hi : i = 0
  · rcases lt_trichotomy j P with hj | hj | hj
    · exact Or.inl (Or.inl (Or.inl (Or.inr ⟨j - P, ⟨by omega, by omega⟩, hi, by omega⟩)))
    · exact Or.inl (Or.inl (Or.inr ⟨hi, hj⟩))
    · exact Or.inl (Or.inr ⟨j - P, ⟨by omega, by omega⟩, Or.inl ⟨hi, by omega⟩⟩)
  · rcases lt_trichotomy j P with hj | hj | hj
    · by_cases hk : i ≤ P - j
      · exact Or.inr ⟨i, ⟨by omega, by omega⟩, P - j, ⟨by omega, by omega⟩,
          Or.inl ⟨rfl, Or.inr (by omega)⟩⟩
      · exact Or.inr ⟨P - j, ⟨by omega, by omega⟩, i, ⟨by omega, by omega⟩,
          Or.inr ⟨by omega, rfl, Or.inr (by omega)⟩⟩
    · exact Or.inl (Or.inr ⟨i, ⟨by omega, by omega⟩, Or.inr ⟨rfl, hj⟩⟩)
    · by_cases hk : i ≤ j - P
      · exact Or.inr ⟨i, ⟨by omega, by omega⟩, j - P, ⟨by omega, by omega⟩,
          Or.inl ⟨rfl, Or.inl (by omega)⟩⟩
      · exact Or.inr ⟨j - P, ⟨by omega, by omega⟩, i, ⟨by omega, by omega⟩,
          Or.inr ⟨by omega, rfl, Or.inl (by omega)⟩⟩

/-- At angle zero the array `Rnm2` that the loop body for `n` computes holds the entries of
`rotDelta` in the rows `0..n` and the columns `P-n..P+n`. -/
theorem rotate_Rnm2_agree {K : Type} [Field K] (fn : Cmath K) (P n : Int)
    (ang : RotAngles K) (hh : ang.hsthta = 0) (hc : ang.ctheta = 1) (hs : ang.stheta = 0)
    (hn : ang.cthtan = 0) (hp : ang.cthtap = fn.sqrt 2) (sq Rnm1 Rnm2 : Int → Int → K)
    (hn1 : 1 ≤ n) (hsq : ∀ k, 2 ≤ k → k ≤ 2 * n → fn.sqrt 2 * sq k 1 ≠ 0)
    (hR : AgreeOn (rotDelta P) (rotRegion P (n - 1)) Rnm1) :
    AgreeOn (rotDelta P) (rotRegion P n)
      ((intRange 1 (n + 1)).foldl (rotateMp fn P n ang sq Rnm1)
        ((intRange 1 (n + 1)).foldl (rotatePos P)
          (rotateZero P n ang sq Rnm1
            ((intRange (-n) 0).foldl (rotateNeg P n ang sq Rnm1) Rnm2)))) := by
  have e0 : AgreeOn (rotDelta P) (fun _ _ => False) Rnm2 := fun _ _ h => h.elim
  have e1 := foldl_agreeOn (rotDelta P) (rotateNeg P n ang sq Rnm1)
    (fun m i j => i = 0 ∧ j = P + m) (intRange (-n) 0) _ Rnm2 e0 (by
      intro m hm S' a' _ ha'
      rw [mem_intRange] at hm
      rw [rotateNeg_zero P n ang hh sq Rnm1 a' m hm.2 hR]
      exact agreeOn_set2 ha' 0 (P + m) 0 (rotDelta_off P 0 (P + m) (by omega)).symm)
  have hR0 : Rnm1 0 P = 1 := by
    rw [hR 0 P ⟨le_refl 0, by omega, by omega, by omega⟩]
    exact rotDelta_origin P
  have e2 := agreeOn_set2 e1 0 P 1 (rotDelta_origin P).symm
  rw [← rotateZero_zero P n ang hh hc sq Rnm1 _ hR0] at e2
  have e3 := foldl_agreeOn (rotDelta P) (rotatePos P)
    (fun m i j => (i = 0 ∧ j = P + m) ∨ (i = m ∧ j = P)) (intRange 1 (n + 1)) _ _ e2 (by
      intro m hm S' a' hS' ha'
      rw [mem_intRange] at hm
      have hread : a' 0 (P - m) = 0 := by
        rw [ha' 0 (P - m) (hS' _ _ (Or.inl (Or.inr ⟨-m, (mem_intRange _ _ _).mpr
          ⟨by omega, by omega⟩, rfl, by omega⟩)))]
        exact rotDelta_off P 0 (P - m) (by omega)
      rw [rotatePos_zero P a' m hread]
      have f1 := agreeOn_set2 ha' 0 (P + m) 0 (rotDelta_off P 0 (P + m) (by omega)).symm
      have f2 := agreeOn_set2 f1 m P 0 (rotDelta_off P m P (by omega)).symm
      refine agreeOn_mono ?_ f2
      intro i j h
      tauto)
  have e4 := foldl_agreeOn (rotDelta P) (rotateMp fn P n ang sq Rnm1)
    (fun mp i j => ∃ m ∈ intRange mp (n + 1), rotWritten P mp m i j)
    (intRange 1 (n + 1)) _ _ e3 (by
      intro mp hmp S' a' _ ha'
      rw [mem_intRange] at hmp
      exact rotateMp_agree fn P n ang hs hn hp sq Rnm1 mp hmp.1
        (hsq (n + mp) (by omega) (by omega)) hR S' a' ha')
  exact agreeOn_mono (rotRegion_covered P n) e4

end HelmholtzKernel

namespace HelmholtzKernel

theorem foldl_intRange_inv_le {σ : Type} (Inv : Int → σ → Prop) (step : σ → Int → σ)
    (lo hi : Int) (hle : lo ≤ hi) (s : σ) (h0 : Inv lo s)
    (hstep : ∀ n t, lo ≤ n → n < hi → Inv n t → Inv (n + 1) (step t n)) :
    Inv hi ((intRange lo hi).foldl step s) := by
  have e : hi = lo + ((hi - lo).toNat : Int) := by omega
  have := foldl_intRange_inv Inv step lo s h0 (hi - lo).toNat
    (fun n t h1 h2 hI => hstep n t h1 (by omega) hI)
  rw [← e] at this
  exact this

/-- The loops that copy `Rnm2` to `Rnm1` carry the agreement over. -/
theorem rotateCopy_agree {K : Type} [Field K] (P n : Int) (Rnm2 Rnm1 : Int → Int → K)
    (h2 : AgreeOn (rotDelta P) (rotRegion P n) Rnm2) :
    AgreeOn (rotDelta P) (rotRegion P n) (rotateCopy P n Rnm2 Rnm1) := by
  have e0 : AgreeOn (rotDelta P) (fun _ _ => False) Rnm1 := fun _ _ h => h.elim
  unfold rotateCopy
  have e1 := foldl_agreeOn (rotDelta P)
    (fun R1 m => (intRange 0 (n + 1)).foldl
      (fun R1 mp => set2 R1 mp (P + m) (Rnm2 mp (P + m))) R1)
    (fun m i j => ∃ mp ∈ intRange 0 (n + 1), i = mp ∧ j = P + m)
    (intRange (-n) (n + 1)) _ Rnm1 e0 (by
      intro m hm S' a' _ ha'
      rw [mem_intRange] at hm
      apply foldl_agreeOn (rotDelta P) _ (fun mp i j => i = mp ∧ j = P + m) _ S' a' ha'
      intro mp hmp S'' a'' _ ha''
      rw [mem_intRange] at hmp
      exact agreeOn_set2 ha'' mp (P + m) _
        (h2 mp (P + m) ⟨by omega, by omega, by omega, by omega⟩))
  refine agreeOn_mono ?_ e1
  rintro i j ⟨h1, h2, h3, h4⟩
  exact Or.inr ⟨j - P, (mem_intRange _ _ _).mpr ⟨by omega, by omega⟩, i,
    (mem_intRange _ _ _).mpr ⟨by omega, by omega⟩, rfl, by omega⟩

theorem cmulr_one {K : Type} [Field K] (z : Cpx K) : cmulr z 1 = z := by
  unfold cmulr
  simp

theorem cmulr_zero {K : Type} [Field K] (z : Cpx K) : cmulr z 0 = 0 := by
  unfold cmulr
  simp

/-- At angle zero the body of the loop that fills `Mrot` stores `Mnm[n*n+n+m]` at
`Mrot[n*n+n+m]`. -/
theorem rotateMrot_zero {K : Type} [Field K] (P n : Int) (Mnm : Int → Cpx K)
    (Rnm2 : Int → Int → K) (Mrot : Int → Cpx K) (m : Int) (hn : 1 ≤ n) (hm1 : -n ≤ m)
    (hm2 : m ≤ n) (h2 : AgreeOn (rotDelta P) (rotRegion P n) Rnm2) :
    rotateMrot P n Mnm Rnm2 Mrot m =
      Function.update Mrot (n * n + n + m) (Mnm (n * n + n + m)) := by
  unfold rotateMrot
  have key := foldl_intRange_inv_le
    (fun k (M : Int → Cpx K) => M = Function.update Mrot (n * n + n + m)
      (if -k < m ∧ m < k then Mnm (n * n + n + m) else 0))
    (rotateMrotInner P n Mnm Rnm2 m) 1 (n + 1) (by omega)
    (Function.update Mrot (n * n + n + m) (cmulr (Mnm (n * n + n)) (Rnm2 0 (P + m))))
    (by
      show _ = _
      rw [h2 0 (P + m) ⟨le_refl 0, by omega, by omega, by omega⟩]
      by_cases h0 : m = 0
      · subst h0
        rw [if_pos ⟨by omega, by omega⟩, add_zero, add_zero, rotDelta_origin P, cmulr_one]
      · rw [if_neg (by omega), rotDelta_off P 0 (P + m) (by omega), cmulr_zero])
    (by
      intro mp M h1 h2' hM
      show _ = _
      subst hM
      unfold rotateMrotInner
      simp only [Function.update_same, Function.update_idem]
      rw [h2 mp (P + m) ⟨by omega, by omega, by omega, by omega⟩,
        h2 mp (P - m) ⟨by omega, by omega, by omega, by omega⟩]
      by_cases ha : m = mp
      · subst ha
        rw [if_neg (by omega), if_pos ⟨by omega, by omega⟩, rotDelta_diag,
          rotDelta_off P m (P - m) (by omega), cmulr_one, cmulr_zero, zero_add, add_zero]
      · by_cases hb : -m = mp
        · have e : n * n + n - mp = n * n + n + m := by omega
          rw [if_neg (by omega), if_pos ⟨by omega, by omega⟩,
            rotDelta_off P mp (P + m) (by omega), e]
          have e2 : P - m = P + mp := by omega
          rw [e2, rotDelta_diag, cmulr_one, cmulr_zero, zero_add, zero_add]
        · rw [rotDelta_off P mp (P + m) (by omega), rotDelta_off P mp (P - m) (by omega),
            cmulr_zero, cmulr_zero, add_zero, add_zero]
          by_cases hc : -mp < m ∧ m < mp
          · rw [if_pos hc, if_pos ⟨by omega, by omega⟩]
          · rw [if_neg hc, if_neg (by omega)])
  simp only at key
  rw [key, if_pos ⟨by omega, by omega⟩]

end HelmholtzKernel

namespace HelmholtzKernel

/-- At angle zero the loop that fills `Mrot` for the degree `n` stores `Mnm[n*n+n+m]` at
`Mrot[n*n+n+m]` for `-n ≤ m ≤ n` and leaves the entries outside `n*n..n*n+2*n` alone. -/
theorem rotateMrot_loop {K : Type} [Field K] (P n : Int) (Mnm : Int → Cpx K)
    (Rnm2 : Int → Int → K) (Mrot : Int → Cpx K) (hn : 1 ≤ n)
    (h2 : AgreeOn (rotDelta P) (rotRegion P n) Rnm2) :
    (∀ m, -n ≤ m → m ≤ n →
      (intRange (-n) (n + 1)).foldl (rotateMrot P n Mnm Rnm2) Mrot (n * n + n + m) =
        Mnm (n * n + n + m)) ∧
    ∀ k, k < n * n →
      (intRange (-n) (n + 1)).foldl (rotateMrot P n Mnm Rnm2) Mrot k = Mrot k := by
  have key := foldl_intRange_inv_le
    (fun b (M : Int → Cpx K) => (∀ m, -n ≤ m → m < b → M (n * n + n + m) = Mnm (n * n + n + m)) ∧
      ∀ k, k < n * n → M k = Mrot k)
    (rotateMrot P n Mnm Rnm2) (-n) (n + 1) (by omega) Mrot
    ⟨fun m h1 h2 => by omega, fun _ _ => rfl⟩
    (by
      rintro b M hb1 hb2 ⟨hM1, hM2⟩
      rw [rotateMrot_zero P n Mnm Rnm2 M b hn hb1 (by omega) h2]
      refine ⟨fun m h1 h2 => ?_, fun k hk => ?_⟩
      · by_cases hmb : m = b
        · subst hmb
          rw [Function.update_same]
        · rw [Function.update_noteq (by omega)]
          exact hM1 m h1 (by omega)
      · rw [Function.update_noteq (by omega)]
        exact hM2 k hk)
  exact ⟨fun m h1 h2 => key.1 m h1 (by omega), key.2⟩

/-- At angle zero the loop over `n` of `rotate` keeps `Rnm1` equal to `rotDelta` on the
rows and columns used so far and has copied the coefficients of the degrees below `n`. -/
theorem rotateStep_inv {K : Type} [Field K] (fn : Cmath K) (P : Int) (ang : RotAngles K)
    (hh : ang.hsthta = 0) (hc : ang.ctheta = 1) (hs : ang.stheta = 0)
    (hn : ang.cthtan = 0) (hp : ang.cthtap = fn.sqrt 2) (sq : Int → Int → K)
    (Mnm : Int → Cpx K) (nterms : Int)
    (hsq : ∀ k, 2 ≤ k → k < 2 * nterms → fn.sqrt 2 * sq k 1 ≠ 0)
    (s : RotState K) (n : Int) (hn1 : 1 ≤ n) (hn2 : n < nterms)
    (hR : AgreeOn (rotDelta P) (rotRegion P (n - 1)) s.Rnm1)
    (hM : ∀ n' m', 0 ≤ n' → n' < n → -n' ≤ m' → m' ≤ n' →
      s.Mrot (n' * n' + n' + m') = Mnm (n' * n' + n' + m')) :
    AgreeOn (rotDelta P) (rotRegion P (n + 1 - 1)) (rotateStep fn P ang sq Mnm s n).Rnm1 ∧
    ∀ n' m', 0 ≤ n' → n' < n + 1 → -n' ≤ m' → m' ≤ n' →
      (rotateStep fn P ang sq Mnm s n).Mrot (n' * n' + n' + m') =
        Mnm (n' * n' + n' + m') := by
  have h4 := rotate_Rnm2_agree fn P n ang hh hc hs hn hp sq s.Rnm1 s.Rnm2 hn1
    (fun k h1 h2 => hsq k h1 (by omega)) hR
  obtain ⟨hA, hB⟩ := rotateMrot_loop P n Mnm _ s.Mrot hn1 h4
  unfold rotateStep
  constructor
  · have e : n + 1 - 1 = n := by omega
    rw [e]
    exact rotateCopy_agree P n _ _ h4
  · intro n' m' h1 h2 h3 h4'
    by_cases hnn : n' = n
    · subst hnn
      exact hA m' h3 h4'
    · have hle : n' + 1 ≤ n := by omega
      have hsq' := mul_self_le_mul_self (by omega : (0 : Int) ≤ n' + 1) hle
      have hlt : n' * n' + n' + m' < n * n := by nlinarith
      show (intRange (-n) (n + 1)).foldl _ s.Mrot _ = _
      rw [hB _ hlt]
      exact hM n' m' h1 (by omega) h3 h4'

/-- The entries `sqrtCnm[k][1]` for `2 ≤ k < 2*nterms`. -/
theorem rotateSqrtCnm_one {K : Type} [Field K] (fn : Cmath K) (nterms : Int)
    (sqrtCnm : Int → Int → K) (k : Int) (h1 : 2 ≤ k) (h2 : k < 2 * nterms) :
    rotateSqrtCnm fn nterms sqrtCnm k 1 = fn.sqrt (((k * (k - 1) : Int) : K) / 2) := by
  unfold rotateSqrtCnm
  have e0 : AgreeOn (fun (i _ : Int) => fn.sqrt (((i * (i - 1) : Int) : K) / 2))
      (fun _ _ => False)
      (set2 (set2 ((intRange 0 (2 * nterms)).foldl
        (fun s m => set2 s m 0 (fn.sqrt ((m : K) + 0))) sqrtCnm) 0 1 0) 1 1 0) :=
    fun _ _ h => h.elim
  have e1 := foldl_agreeOn (fun (i _ : Int) => fn.sqrt (((i * (i - 1) : Int) : K) / 2))
    (fun s m => set2 s m 1 (fn.sqrt (((m * (m - 1) : Int) : K) / 2)))
    (fun m i j => i = m ∧ j = 1) (intRange 2 (2 * nterms)) _ _ e0
    (fun m _ S' a' _ ha' => agreeOn_set2 ha' m 1 _ rfl)
  exact e1 k 1 (Or.inr ⟨k, (mem_intRange _ _ _).mpr ⟨h1, h2⟩, rfl, rfl⟩)

/-- The five numbers of `rotate` for the angle zero, over the reals. -/
theorem rotateAngles_zero (EPS : ℝ) (hEPS : EPS ≤ 1) :
    rotateAngles ⟨Real.sqrt, Real.exp, Real.cos, Real.sin⟩ EPS 0 =
      { ctheta := 1, stheta := 0, hsthta := 0, cthtap := Real.sqrt 2, cthtan := 0 } := by
  unfold rotateAngles
  have h1 : ¬ (|Real.cos 0| < EPS) := by
    rw [Real.cos_zero, abs_one]
    exact not_lt.mpr hEPS
  simp [h1, hEPS]

end HelmholtzKernel

namespace HelmholtzKernel

theorem rotate_sqrt_ne_zero (nterms : Int) (sqrtCnm : Int → Int → ℝ) (k : Int) (h1 : 2 ≤ k)
    (h2 : k < 2 * nterms) :
    Real.sqrt 2 * rotateSqrtCnm ⟨Real.sqrt, Real.exp, Real.cos, Real.sin⟩ nterms sqrtCnm k 1
      ≠ 0 := by
  rw [rotateSqrtCnm_one _ nterms sqrtCnm k h1 h2]
  have hk : (0 : Int) < k * (k - 1) := by nlinarith
  have hk' : (0 : ℝ) < ((k * (k - 1) : Int) : ℝ) := by exact_mod_cast hk
  have ha : 0 < Real.sqrt 2 := Real.sqrt_pos.mpr (by norm_num)
  have hb : 0 < Real.sqrt (((k * (k - 1) : Int) : ℝ) / 2) :=
    Real.sqrt_pos.mpr (div_pos hk' (by norm_num))
  exact ne_of_gt (mul_pos ha hb)

/-- C29. Rotation by zero is the identity: over the reals, with `EPS ≤ 1` and whatever the
arrays `Rnm1`, `Rnm2`, `sqrtCnm` and `Mrot` hold on entry, `rotate(0, nterms, Mnm, Mrot)`
leaves `Mrot[n*n+n+m] = Mnm[n*n+n+m]` for all `0 ≤ n < nterms` and `-n ≤ m ≤ n`. -/
theorem rotate_zero (P nterms : Int) (EPS : ℝ) (hEPS : EPS ≤ 1) (Mnm Mrot : Int → Cpx ℝ)
    (Rnm1 Rnm2 sqrtCnm : Int → Int → ℝ) (n m : Int) (hn0 : 0 ≤ n) (hn : n < nterms)
    (hm1 : -n ≤ m) (hm2 : m ≤ n) :
    rotate ⟨Real.sqrt, Real.exp, Real.cos, Real.sin⟩ P EPS 0 nterms Mnm Mrot Rnm1 Rnm2
      sqrtCnm (n * n + n + m) = Mnm (n * n + n + m) := by
  unfold rotate
  simp only [rotateAngles_zero EPS hEPS]
  have key := foldl_intRange_inv_le
    (fun k (s : RotState ℝ) => AgreeOn (rotDelta P) (rotRegion P (k - 1)) s.Rnm1 ∧
      ∀ n' m', 0 ≤ n' → n' < k → -n' ≤ m' → m' ≤ n' →
        s.Mrot (n' * n' + n' + m') = Mnm (n' * n' + n' + m'))
    (rotateStep ⟨Real.sqrt, Real.exp, Real.cos, Real.sin⟩ P
      { ctheta := 1, stheta := 0, hsthta := 0, cthtap := Real.sqrt 2, cthtan := 0 }
      (rotateSqrtCnm ⟨Real.sqrt, Real.exp, Real.cos, Real.sin⟩ nterms sqrtCnm) Mnm)
    1 nterms (by omega)
    { Rnm1 := set2 Rnm1 0 P 1, Rnm2 := Rnm2,
      Mrot := Function.update Mrot 0 (cmulr (Mnm 0) (set2 Rnm1 0 P 1 0 P)) }
    (by
      constructor
      · rintro i j ⟨h1, h2, h3, h4⟩
        have hi : i = 0 := by omega
        have hj : j = P := by omega
        subst hi hj
        show set2 Rnm1 0 j 1 0 j = _
        rw [set2_apply, if_pos ⟨rfl, rfl⟩, rotDelta_origin]
      · intro n' m' h1 h2 h3 h4
        have hn' : n' = 0 := by omega
        have hm' : m' = 0 := by omega
        subst hn' hm'
        have e : (0 : Int) * 0 + 0 + 0 = 0 := by norm_num
        rw [e]
        show Function.update Mrot 0 (cmulr (Mnm 0) (set2 Rnm1 0 P 1 0 P)) 0 = Mnm 0
        rw [Function.update_same, set2_apply, if_pos ⟨rfl, rfl⟩, cmulr_one])
    (by
      rintro k s hk1 hk2 ⟨hR, hM⟩
      exact rotateStep_inv _ P _ rfl rfl rfl rfl rfl _ Mnm nterms
        (fun k h1 h2 => rotate_sqrt_ne_zero nterms sqrtCnm k h1 h2) s k hk1 hk2 hR hM)
  exact key.2 n m hn0 hn hm1 hm2

/-- Witness for C29: `P = 2`, `nterms = 2`, `EPS = 0`, the entry `n = 1`, `m = -1`. -/
theorem rotate_zero_witness :
    rotate ⟨Real.sqrt, Real.exp, Real.cos, Real.sin⟩ 2 0 0 2 (fun k => ((k : ℝ), 1))
      (fun _ => (0, 0)) (fun _ _ => 0) (fun _ _ => 0) (fun _ _ => 0) (1 * 1 + 1 + -1) =
      (((1 * 1 + 1 + -1 : Int) : ℝ), 1) :=
  rotate_zero 2 2 0 (by norm_num) (fun k => ((k : ℝ), 1)) (fun _ => (0, 0)) (fun _ _ => 0)
    (fun _ _ => 0) (fun _ _ => 0) 1 (-1) (by decide) (by decide) (by decide) (by decide)

end HelmholtzKernel

end ExaFMM
